import Mathlib

/-! The jsonp lexer: a shallow embedding of `lexer.go`.

Go strings are byte sequences, so a string is a list of bytes (`Str`).  The
library functions the lexer calls are embedded next to it: UTF-8 decoding
(`utf8.DecodeRuneInString`, `utf8.RuneCountInString`), a leftmost-first
regular-expression matcher for the patterns of `TokenDefinition`
(`regexp.FindStringIndex`, `regexp.FindString`), the line scanner
(`bufio.Scanner` with `bufio.ScanLines`) and the sort of `slices.SortFunc`.
The order in which Go ranges over the map `TokenDefinition` is not fixed and may
change from one `range` loop to the next: `lex` takes the order of its loop as
the parameter `order`, and `Lex` takes one order for each line, `orders k` for
the line with 0-based number `k`.
-/

namespace Jsonp

/-! ## Strings and UTF-8 -/

/-- A Go string: a sequence of bytes. -/
abbrev Str := List Nat

/-- The replacement rune U+FFFD that the decoder reports for a malformed byte. -/
def RuneError : Nat := 0xFFFD

/-- A UTF-8 continuation byte, 0x80..0xBF. -/
def isCont (b : Nat) : Bool := decide (0x80 ≤ b) && decide (b ≤ 0xBF)

/-- Lower end of the accepted range of the second byte after the lead byte `s0`. -/
def acceptLo (s0 : Nat) : Nat :=
  if s0 = 0xE0 then 0xA0 else if s0 = 0xF0 then 0x90 else 0x80

/-- Upper end of the accepted range of the second byte after the lead byte `s0`. -/
def acceptHi (s0 : Nat) : Nat :=
  if s0 = 0xED then 0x9F else if s0 = 0xF4 then 0x8F else 0xBF

/-- Go `utf8.DecodeRuneInString`: the first rune of the string and its width in
bytes.  A malformed or truncated encoding yields `(RuneError, 1)`, the empty
string `(RuneError, 0)`. -/
def DecodeRuneInString : Str → Nat × Nat
  | [] => (RuneError, 0)
  | s0 :: t =>
    if s0 < 0x80 then (s0, 1)
    else if s0 < 0xC2 then (RuneError, 1)
    else if 0xF5 ≤ s0 then (RuneError, 1)
    else
      match t with
      | [] => (RuneError, 1)
      | s1 :: t1 =>
        if s1 < acceptLo s0 ∨ acceptHi s0 < s1 then (RuneError, 1)
        else if s0 < 0xE0 then ((s0 % 32) * 64 + s1 % 64, 2)
        else
          match t1 with
          | [] => (RuneError, 1)
          | s2 :: t2 =>
            if isCont s2 = false then (RuneError, 1)
            else if s0 < 0xF0 then ((s0 % 16) * 4096 + (s1 % 64) * 64 + s2 % 64, 3)
            else
              match t2 with
              | [] => (RuneError, 1)
              | s3 :: _ =>
                if isCont s3 = false then (RuneError, 1)
                else ((s0 % 8) * 262144 + (s1 % 64) * 4096 + (s2 % 64) * 64 + s3 % 64, 4)

/-- Counts the runes of a string; `skip` is the number of bytes still belonging
to the rune counted last. -/
def runeCountFrom : Nat → Str → Nat
  | _, [] => 0
  | 0, b :: t => 1 + runeCountFrom ((DecodeRuneInString (b :: t)).2 - 1) t
  | k + 1, _ :: t => runeCountFrom k t

/-- Go `utf8.RuneCountInString`: the number of runes of the string, a malformed
byte counting as one rune. -/
def RuneCountInString (s : Str) : Nat := runeCountFrom 0 s

/-! ## Regular expressions (Go `regexp`, leftmost-first matching) -/

/-- The regular expressions that occur in `TokenDefinition`. -/
inductive Regex where
  /-- The empty pattern. -/
  | empty : Regex
  /-- The anchor `^`: beginning of the text. -/
  | bot : Regex
  /-- The anchor `$`: end of the text. -/
  | eot : Regex
  /-- A character class given by inclusive rune ranges, negated when `neg`. -/
  | cls (neg : Bool) (ranges : List (Nat × Nat)) : Regex
  /-- Concatenation. -/
  | cat (a b : Regex) : Regex
  /-- Alternation, the left branch preferred. -/
  | alt (a b : Regex) : Regex
  /-- Repetition zero or more times: greedy `a*` or lazy `a*?`. -/
  | star (greedy : Bool) (a : Regex) : Regex
  deriving DecidableEq, Repr

namespace Regex

/-- A single literal character. -/
def lit (c : Nat) : Regex := cls false [(c, c)]

/-- The pattern `a?` (greedy). -/
def opt (a : Regex) : Regex := alt a empty

/-- The pattern `a+` (greedy). -/
def plus (a : Regex) : Regex := cat a (star true a)

/-- A literal word. -/
def word : List Nat → Regex
  | [] => empty
  | [c] => lit c
  | c :: cs => cat (lit c) (word cs)

/-- The class `.`: any rune but the line feed. -/
def dot : Regex := cls true [(0x0A, 0x0A)]

/-- The class `\d`, which in Go is `[0-9]`. -/
def digit : Regex := cls false [(0x30, 0x39)]

/-- The class `\s`, which in Go is `[\t\n\f\r ]`. -/
def space : Regex := cls false [(0x09, 0x0A), (0x0C, 0x0D), (0x20, 0x20)]

/-- Whether the rune lies in one of the ranges. -/
def inRanges (ranges : List (Nat × Nat)) (r : Nat) : Bool :=
  ranges.any (fun p => decide (p.1 ≤ r) && decide (r ≤ p.2))

/-- Whether the class accepts the rune. -/
def classTest (neg : Bool) (ranges : List (Nat × Nat)) (r : Nat) : Bool :=
  if neg then !(inRanges ranges r) else inRanges ranges r

/-- The threads of `step` iterated: every way to repeat the body, as the list
of remaining inputs in the order a backtracking search tries them (greedy: one
more repetition first; lazy: stopping first).  An iteration that consumes
nothing is dropped, as the Go matcher does. -/
def starEnds (greedy : Bool) (step : Str → List Str) : Nat → Str → List Str
  | 0, s => [s]
  | n + 1, s =>
    let more := ((step s).filter (fun s' => decide (s'.length < s.length))).flatMap
      (fun s' => starEnds greedy step n s')
    if greedy then more ++ [s] else s :: more

/-- All matches of the pattern at the current position, in the priority order
of a backtracking search: each match is given by the input that remains after
it.  `total` is the length of the whole text, `s` the text from the current
position on. -/
def ends (total : Nat) : Regex → Str → List Str
  | empty, s => [s]
  | bot, s => if s.length = total then [s] else []
  | eot, s => if s.length = 0 then [s] else []
  | cls neg ranges, s =>
    match s with
    | [] => []
    | b :: t =>
      if classTest neg ranges (DecodeRuneInString (b :: t)).1 then
        [(b :: t).drop (DecodeRuneInString (b :: t)).2]
      else []
  | cat a b, s => (ends total a s).flatMap (fun s' => ends total b s')
  | alt a b, s => ends total a s ++ ends total b s
  | star greedy a, s => starEnds greedy (fun s' => ends total a s') s.length s

/-- The unanchored search: the leftmost position at which the pattern matches
and, there, the match a backtracking search finds first.  Positions are tried
rune by rune; `skip` is the number of bytes left of the rune being stepped
over.  The result is the pair of byte offsets `loc[0]`, `loc[1]`. -/
def searchFrom (re : Regex) (total : Nat) : Nat → Str → Option (Nat × Nat)
  | 0, s =>
    match (ends total re s).head? with
    | some rest => some (total - s.length, total - rest.length)
    | none =>
      match s with
      | [] => none
      | b :: t => searchFrom re total ((DecodeRuneInString (b :: t)).2 - 1) t
  | _ + 1, [] => none
  | k + 1, _ :: t => searchFrom re total k t

/-- Go `(*Regexp).FindStringIndex`: `some (loc[0], loc[1])` for the leftmost
match, `none` (a nil slice) when there is none. -/
def FindStringIndex (re : Regex) (s : Str) : Option (Nat × Nat) :=
  searchFrom re s.length 0 s

/-- Go `(*Regexp).FindString`: the text of the leftmost match, the empty string
when there is none. -/
def FindString (re : Regex) (s : Str) : Str :=
  match FindStringIndex re s with
  | some (i, j) => (s.take j).drop i
  | none => []

end Regex

/-! ## Tokens -/

/-- The token kinds (the Go type `TokenType` with its constants). -/
inductive TokenType where
  | LBRACE | RBRACE | LBRACKET | RBRACKET | COMMA | COLON
  | TRUE | FALSE | NULL | NUMBER | STRING | EOF | WHITESPACE | INVALID
  deriving DecidableEq, Repr

open TokenType

/-- The Go string `string(INVALID)`, a single backslash: the sentinel written
over a claimed span. -/
def sentinel : Nat := 0x5C

/-- The line feed. -/
def newline : Nat := 0x0A

/-- The pattern of `NUMBER`: `-?(?:0|[1-9]\d*)(?:\.\d+)?(?:e[-+]\d+)?`. -/
def numberPattern : Regex :=
  .cat (.opt (.lit 0x2D))
    (.cat (.alt (.lit 0x30) (.cat (.cls false [(0x31, 0x39)]) (.star true .digit)))
      (.cat (.opt (.cat (.lit 0x2E) (.plus .digit)))
        (.opt (.cat (.lit 0x65)
          (.cat (.cls false [(0x2D, 0x2D), (0x2B, 0x2B)]) (.plus .digit))))))

/-- The pattern of `STRING`: `".*?[^\\]"`. -/
def stringPattern : Regex :=
  .cat (.lit 0x22) (.cat (.star false .dot) (.cat (.cls true [(0x5C, 0x5C)]) (.lit 0x22)))

/-- The map `TokenDefinition`: the pattern of each kind (`INVALID` is not a key). -/
def TokenDefinition : TokenType → Option Regex
  | LBRACE => some (.lit 0x7B)
  | RBRACE => some (.lit 0x7D)
  | LBRACKET => some (.lit 0x5B)
  | RBRACKET => some (.lit 0x5D)
  | COMMA => some (.lit 0x2C)
  | COLON => some (.lit 0x3A)
  | TRUE => some (.word [0x74, 0x72, 0x75, 0x65])
  | FALSE => some (.word [0x66, 0x61, 0x6C, 0x73, 0x65])
  | NULL => some (.word [0x6E, 0x75, 0x6C, 0x6C])
  | NUMBER => some numberPattern
  | STRING => some stringPattern
  | WHITESPACE => some (.plus .space)
  | EOF => some (.cat .bot .eot)
  | INVALID => none

/-- The keys of `TokenDefinition`, in the order of the source text.  An
iteration order of the map is a permutation of this list. -/
def tokenKinds : List TokenType :=
  [LBRACE, RBRACE, LBRACKET, RBRACKET, COMMA, COLON, TRUE, FALSE, NULL, NUMBER, STRING,
    WHITESPACE, EOF]

/-- A point in the input. -/
structure Position where
  Line : Nat
  Column : Nat
  Offset : Nat
  deriving DecidableEq, Repr

/-- The span of a token. -/
structure Location where
  Start : Position
  End : Position
  deriving DecidableEq, Repr

/-- A lexical token. -/
structure Token where
  /-- The Go field `Type` (a reserved word here). -/
  Kind : TokenType
  Value : Str
  Loc : Location
  deriving DecidableEq, Repr

/-- Go `newPosition`. -/
def newPosition (line col offset : Nat) : Position :=
  { Line := line, Column := col, Offset := offset }

/-- Go `newToken`. -/
def newToken (tokenType : TokenType) (value : Str) (start stop : Position) : Token :=
  { Kind := tokenType, Value := value, Loc := { Start := start, End := stop } }

/-- The counters of the Go struct `Lexer` (its field `Input` is the stream
handed to `Lex`). -/
structure Lexer where
  lineNumber : Nat
  numberOfChar : Nat
  deriving DecidableEq, Repr

/-! ## The per-line scan `lex` -/

/-- The working copy after a match: `row[0:i] + strings.Repeat("\\", j-i) + row[j:]`. -/
def blank (row : Str) (i j : Nat) : Str :=
  row.take i ++ List.replicate (j - i) sentinel ++ row.drop j

/-- The inner `for` loop of `lex` for one kind `k` with pattern `v`: match,
record the token with positions taken from the original `line`, blank the span
in the working copy `row`, repeat until the pattern no longer matches.  One
unit of `fuel` is spent per iteration; `none` stands for a loop that has not
ended within the fuel. -/
def scanKind (l : Lexer) (k : TokenType) (v : Regex) (line : Str) :
    Nat → Str → List Token → Option (Str × List Token)
  | 0, _, _ => none
  | fuel + 1, row, tokens =>
    match v.FindStringIndex row with
    | none => some (row, tokens)
    | some (i, j) =>
      let value := v.FindString row
      let start := newPosition (l.lineNumber + 1)
        (RuneCountInString (line.take i) + 1)
        (l.numberOfChar + RuneCountInString (line.take i))
      let stop := newPosition (l.lineNumber + 1)
        (RuneCountInString (line.take j))
        (l.numberOfChar + RuneCountInString (line.take j))
      scanKind l k v line fuel (blank row i j) (tokens ++ [newToken k value start stop])

/-- The outer loop of `lex`: the kinds in the iteration order `order`, each
scanned to exhaustion on the working copy left by the kinds before it. -/
def lexKinds (l : Lexer) (line : Str) (fuel : Nat) :
    List TokenType → Str → List Token → Option (Str × List Token)
  | [], row, tokens => some (row, tokens)
  | k :: ks, row, tokens =>
    match TokenDefinition k with
    | none => lexKinds l line fuel ks row tokens
    | some v =>
      match scanKind l k v line fuel row tokens with
      | none => none
      | some (row', tokens') => lexKinds l line fuel ks row' tokens'

/-- Go `(*Lexer).lex` with the iteration order of the pattern table made
explicit and `fuel` iterations allowed to each kind; `none` when some inner
loop did not end within the fuel. -/
def lexFuel (l : Lexer) (order : List TokenType) (fuel : Nat) (line : Str) :
    Option (List Token) :=
  (lexKinds l line fuel order line []).map Prod.snd

/-- Go `(*Lexer).lex`.  On a line that is not empty every iteration that goes
round again blanks at least one byte that was not yet the sentinel, so
`line.length + 1` iterations per kind are enough (`scanKind_isSome`), and more
fuel gives the same result (`scanKind_fuel_mono`); on the empty line the loop
of the `EOF` pattern never ends (`scanKind_empty_row`). -/
def lex (l : Lexer) (order : List TokenType) (line : Str) : Option (List Token) :=
  lexFuel l order (line.length + 1) line

/-! ## Reading lines (`bufio.Scanner` with `bufio.ScanLines`) -/

/-- What `Lex` can return as its error. -/
inductive ScanError where
  /-- Go `bufio.ErrTooLong`: a line does not fit the buffer of the scanner. -/
  | tooLong : ScanError
  /-- An error of the underlying reader. -/
  | read (code : Nat) : ScanError
  deriving DecidableEq, Repr

/-- The stream behind `Lexer.Input`, an `io.Reader`: it delivers the bytes
`data` and then either ends (`fail = none`, Go `io.EOF`) or fails with a read
error.  `errWithData` tells whether the call of `Read` that delivers the last
bytes also returns the end or the error, which `io.Reader` allows, or a later
call that delivers nothing does, as with files, pipes and `strings.Reader`. -/
structure Reader where
  data : Str
  fail : Option Nat
  errWithData : Bool := false
  deriving DecidableEq, Repr

/-- Go `bufio.MaxScanTokenSize`, the buffer limit of a scanner made by
`bufio.NewScanner`. -/
def MaxScanTokenSize : Nat := 64 * 1024

/-- The carriage return. -/
def carriageReturn : Nat := 0x0D

/-- Go `dropCR` of `bufio`: drops one final carriage return. -/
def dropCR (data : Str) : Str :=
  if data.getLast? = some carriageReturn then data.dropLast else data

/-- The input cut at every line feed; what follows the last line feed is a
line when it is not empty. -/
def rawLines : Str → List Str
  | [] => []
  | b :: t =>
    if b = newline then [] :: rawLines t
    else
      match rawLines t with
      | [] => [[b]]
      | cur :: rest => (b :: cur) :: rest

/-- Whether `Scan` has the end of the input (or the read error) on record when
the last bytes are in its buffer, and these are a line without line feed: the
split function then gets them with `atEOF` set and returns them as the last
line, before `Scan` tests whether the buffer is full. -/
def atEOF (input : Reader) : Bool :=
  input.errWithData && decide (input.data.getLast? ≠ some newline)

/-- The tokens `sc.Scan()` delivers, one per line with its terminator and one
final carriage return removed, and the error `sc.Err()` reports afterwards.  A
line that fills the whole buffer of `MaxScanTokenSize` bytes before its line
feed is seen stops the scan with `ErrTooLong`; so does a last line without
line feed that fills the buffer exactly, unless the end of the input is on
record by then (`final`, see `atEOF`).  A read error is reported after the
lines read before it. -/
def scanTokens (fail : Option Nat) (final : Bool) : List Str → List Str × Option ScanError
  | [] => ([], fail.map ScanError.read)
  | raw :: rest =>
    if MaxScanTokenSize ≤ raw.length ∧
        ¬ (raw.length = MaxScanTokenSize ∧ rest = [] ∧ final = true) then
      ([], some ScanError.tooLong)
    else ((dropCR raw) :: (scanTokens fail final rest).1, (scanTokens fail final rest).2)

/-- Some line of the input does not fit the buffer of the scanner: it has
`MaxScanTokenSize` (65536) bytes or more before its line feed, a final carriage
return counted, and it is not a last line without line feed of exactly that
many bytes handed over by the reader together with the end of the input or
with the read error. -/
def LineTooLong (input : Reader) : Prop :=
  ∃ pre raw rest, rawLines input.data = pre ++ raw :: rest ∧
    MaxScanTokenSize ≤ raw.length ∧
    ¬ (raw.length = MaxScanTokenSize ∧ rest = [] ∧ input.errWithData = true ∧
      input.data.getLast? ≠ some newline)

/-! ## `Lex` -/

/-- The `for sc.Scan()` loop of `Lex`: each line gets a line feed appended and
is scanned by `lex`, the line with number `k` in the iteration order
`orders k`; the counters advance by one line and by the rune count of the
line. -/
def lexLines (orders : Nat → List TokenType) :
    Lexer → List Str → List Token → Option (List Token)
  | _, [], tokens => some tokens
  | l, text :: rest, tokens =>
    match lex l (orders l.lineNumber) (text ++ [newline]) with
    | none => none
    | some ts =>
      lexLines orders
        { lineNumber := l.lineNumber + 1,
          numberOfChar := l.numberOfChar + RuneCountInString (text ++ [newline]) }
        rest (tokens ++ ts)

/-- The comparison function handed to `slices.SortFunc`. -/
def compareTokens (a b : Token) : Int :=
  if a.Loc.Start.Line = b.Loc.Start.Line then
    (a.Loc.Start.Column : Int) - (b.Loc.Start.Column : Int)
  else (a.Loc.Start.Line : Int) - (b.Loc.Start.Line : Int)

/-- One token is placed before another by the sort when the comparison is not
positive. -/
def tokenLE (a b : Token) : Prop := compareTokens a b ≤ 0

instance : DecidableRel tokenLE := fun a b => inferInstanceAs (Decidable (compareTokens a b ≤ 0))

/-- Go `slices.SortFunc` with `compareTokens`, as an insertion sort.  The
library sort is not stable; the two agree on every list in which no two tokens
compare equal. -/
def sortTokens (tokens : List Token) : List Token :=
  tokens.insertionSort tokenLE

/-- Go `(*Lexer).Lex` on a fresh lexer, the line with 0-based number `k` being
scanned in the iteration order `orders k` of the pattern table: the pair
`(tokens, err)` it returns, `none` if it does not return. -/
def Lex (orders : Nat → List TokenType) (input : Reader) :
    Option (List Token × Option ScanError) :=
  match lexLines orders { lineNumber := 0, numberOfChar := 0 }
      (scanTokens input.fail (atEOF input) (rawLines input.data)).1 [] with
  | none => none
  | some tokens =>
    match (scanTokens input.fail (atEOF input) (rawLines input.data)).2 with
    | some err => some ([], some err)
    | none => some (sortTokens tokens, none)

/-! ## The language of a pattern -/

/-- Zero or more words of `P` in a row. -/
inductive Repeat (P : Str → Prop) : Str → Prop where
  | nil : Repeat P []
  | cons (u v : Str) : P u → Repeat P v → Repeat P (u ++ v)

namespace Regex

/-- The words a pattern matches, the anchors read as the empty word: a class
matches the encoding of one rune it accepts (or one malformed byte, read as
`RuneError`). -/
def Matches : Regex → Str → Prop
  | empty, w => w = []
  | bot, w => w = []
  | eot, w => w = []
  | cls neg ranges, w =>
    w ≠ [] ∧ (DecodeRuneInString w).2 = w.length ∧
      classTest neg ranges (DecodeRuneInString w).1 = true
  | cat a b, w => ∃ u v, w = u ++ v ∧ Matches a u ∧ Matches b v
  | alt a b, w => Matches a w ∨ Matches b w
  | star _ a, w => Repeat (Matches a) w

/-- Every match of the pattern is non-empty (a syntactic check). -/
def consumes : Regex → Bool
  | empty => false
  | bot => false
  | eot => false
  | cls _ _ => true
  | cat a b => consumes a || consumes b
  | alt a b => consumes a && consumes b
  | star _ _ => false

/-- Every non-empty match of the pattern begins with an ASCII byte other than
the sentinel (a syntactic check). -/
def startsPlain : Regex → Bool
  | empty => true
  | bot => true
  | eot => true
  | cls neg ranges =>
    !neg && ranges.all (fun p => decide (p.2 < 0x80) && (decide (p.2 < 0x5C) || decide (0x5C < p.1)))
  | cat a b => startsPlain a && (consumes a || startsPlain b)
  | alt a b => startsPlain a && startsPlain b
  | star _ a => startsPlain a

/-- An ASCII byte other than the sentinel. -/
def plainByte (b : Nat) : Prop := b < 0x80 ∧ b ≠ 0x5C

end Regex

/-- The token an iteration of the inner loop of `lex` records for the match
`loc = [i, j]` found in the working copy `row`. -/
def matchToken (l : Lexer) (k : TokenType) (v : Regex) (line row : Str) (i j : Nat) : Token :=
  newToken k (v.FindString row)
    (newPosition (l.lineNumber + 1) (RuneCountInString (line.take i) + 1)
      (l.numberOfChar + RuneCountInString (line.take i)))
    (newPosition (l.lineNumber + 1) (RuneCountInString (line.take j))
      (l.numberOfChar + RuneCountInString (line.take j)))

/-- The number of bytes of the working copy that are not the sentinel. -/
def plainCount (row : Str) : Nat := row.countP (fun b => b != sentinel)

/-- The offset at which the line with 0-based index `k` starts: the sum, over
the lines before it, of the rune count of the line plus one for its
terminator. -/
def lineStart (texts : List Str) (k : Nat) : Nat :=
  ((texts.take k).map (fun text => RuneCountInString text + 1)).sum

/-- The invariant of the loops of `lex` on one line: the working copy has the
length of the line and agrees with it wherever it does not hold the sentinel;
every token recorded so far starts at an ASCII byte of the line that is now
blanked, with the positions the code computes for that byte offset; and no two
recorded tokens start in the same column. -/
def LineInv (l : Lexer) (ln row : Str) (tokens : List Token) : Prop :=
  row.length = ln.length ∧
  (∀ (n b : Nat), row[n]? = some b → b ≠ sentinel → ln[n]? = some b) ∧
  (∀ t ∈ tokens, ∃ (n c : Nat), row[n]? = some sentinel ∧ ln[n]? = some c ∧ c < 0x80 ∧
    t.Loc.Start = newPosition (l.lineNumber + 1) (RuneCountInString (ln.take n) + 1)
      (l.numberOfChar + RuneCountInString (ln.take n))) ∧
  tokens.Pairwise (fun a b => a.Loc.Start.Column ≠ b.Loc.Start.Column)

/-- What the loop of `Lex` keeps true of the tokens collected from the lines
`texts`: every token is on one of the lines, starts in a column of that line
(the appended terminator included), and has as start offset the offset of the
start of its line plus its column less one; and no two tokens have the same
start line and column. -/
def DocInv (texts : List Str) (tokens : List Token) : Prop :=
  (∀ t ∈ tokens, 1 ≤ t.Loc.Start.Line ∧ t.Loc.Start.Line ≤ texts.length ∧
    1 ≤ t.Loc.Start.Column ∧
    lineStart texts (t.Loc.Start.Line - 1) + t.Loc.Start.Column ≤
      lineStart texts t.Loc.Start.Line ∧
    t.Loc.Start.Offset + 1 = lineStart texts (t.Loc.Start.Line - 1) + t.Loc.Start.Column) ∧
  tokens.Pairwise (fun a b => a.Loc.Start.Line ≠ b.Loc.Start.Line ∨
    a.Loc.Start.Column ≠ b.Loc.Start.Column)

/-- Every working copy that blanking can make of a line: each byte either kept
or replaced by the sentinel. -/
def allBlankings : Str → List Str
  | [] => [[]]
  | c :: t => (allBlankings t).flatMap (fun r => [c :: r, sentinel :: r])

/-- The kinds outside `rel` match on no working copy of the line, so the scan
of the line passes over them. -/
def idleOn (rel : TokenType → Bool) (ln : Str) : Bool :=
  (allBlankings ln).all (fun row => tokenKinds.all (fun k => rel k ||
    match TokenDefinition k with
    | some v => (v.FindStringIndex row).isNone
    | none => true))

/-- The kinds that can match on a line of braces: the braces and the white
space of the line terminator. -/
def braceKinds (k : TokenType) : Bool :=
  decide (k = LBRACE) || decide (k = RBRACE) || decide (k = WHITESPACE)

/-- A decimal digit `0`..`9`. -/
def isDigit (b : Nat) : Prop := 0x30 ≤ b ∧ b ≤ 0x39

/-- The number grammar in the words of the specification: an optional `-`, then
either `0` or a non-zero digit followed by digits, then optionally `.` and one
or more digits, then optionally `e`, a mandatory sign `+` or `-`, and one or
more digits. -/
def NumberWord (w : Str) : Prop :=
  ∃ sign whole frac expo : Str, w = sign ++ whole ++ frac ++ expo ∧
    (sign = [] ∨ sign = [0x2D]) ∧
    (whole = [0x30] ∨
      ∃ d ds, whole = d :: ds ∧ 0x31 ≤ d ∧ d ≤ 0x39 ∧ ∀ x ∈ ds, isDigit x) ∧
    (frac = [] ∨ ∃ ds, frac = 0x2E :: ds ∧ ds ≠ [] ∧ ∀ x ∈ ds, isDigit x) ∧
    (expo = [] ∨ ∃ s ds, expo = 0x65 :: s :: ds ∧ (s = 0x2B ∨ s = 0x2D) ∧ ds ≠ [] ∧
      ∀ x ∈ ds, isDigit x)

/-- The content of a string literal that the `STRING` pattern matches from the
opening to the closing quote: it is not empty, does not end in a backslash,
holds no line feed, and each double quote in it comes first or directly after
a backslash. -/
def StringBody (body : Str) : Prop :=
  body ≠ [] ∧ body.getLast? ≠ some 0x5C ∧ newline ∉ body ∧
    ∀ u v, body = u ++ 0x22 :: v → u = [] ∨ u.getLast? = some 0x5C

/-- The kinds other than `STRING`, in the order of the source text: after
`STRING` they make an iteration order that scans strings first. -/
def kindsAfterString : List TokenType :=
  [LBRACE, RBRACE, LBRACKET, RBRACKET, COMMA, COLON, TRUE, FALSE, NULL, NUMBER, WHITESPACE, EOF]

/-- Every way to choose one of the orders `perms` for each of `n` lines. -/
def orderChoices (perms : List (List TokenType)) : Nat → List (List (List TokenType))
  | 0 => [[]]
  | n + 1 => perms.flatMap (fun p => (orderChoices perms n).map (fun ps => p :: ps))

/-- The lines `Lex` scans for an input. -/
def scannedLines (input : Reader) : List Str :=
  (scanTokens input.fail (atEOF input) (rawLines input.data)).1

/-- The kinds that can match on a line holding a string literal of letters:
`STRING` and the white space of the line terminator. -/
def stringKinds (k : TokenType) : Bool :=
  decide (k = STRING) || decide (k = WHITESPACE)

namespace Regex

/-- No word of the pattern that is not empty ends in the byte `c` (a syntactic
check). -/
def lastNot (c : Nat) : Regex → Bool
  | empty => true
  | bot => true
  | eot => true
  | cls neg ranges =>
    !neg && ranges.all (fun p => decide (p.2 < 0x80) && (decide (p.2 < c) || decide (c < p.1)))
  | cat a b => lastNot c b && (consumes b || lastNot c a)
  | alt a b => lastNot c a && lastNot c b
  | star _ a => lastNot c a

/-- Every byte of every word of the pattern is an ASCII byte other than the
sentinel (a syntactic check). -/
def plainOnly : Regex → Bool
  | empty => true
  | bot => true
  | eot => true
  | cls neg ranges =>
    !neg && ranges.all (fun p => decide (p.2 < 0x80) && (decide (p.2 < 0x5C) || decide (0x5C < p.1)))
  | cat a b => plainOnly a && plainOnly b
  | alt a b => plainOnly a && plainOnly b
  | star _ a => plainOnly a

end Regex

/-- The text of the token holds a line feed. -/
def hasNewline (t : Token) : Bool := decide (newline ∈ t.Value)

/-- The line terminator of the line `text ++ [newline]` is not yet claimed: it
stands in the working copy, and no token recorded so far holds a line feed. -/
def NewlinePending (text row : Str) (tokens : List Token) : Prop :=
  row[text.length]? = some newline ∧ tokens.filter hasNewline = []

/-- The line terminator of the line `text ++ [newline]` is claimed: exactly one
token `t₀` recorded so far holds a line feed; it is a `WHITESPACE` token, its
text ends in the line feed, it starts at the byte offset `n₀`, the working copy
is blanked from there to the end, and no recorded token starts in a later
column. -/
def NewlineDone (text row : Str) (tokens : List Token) : Prop :=
  ∃ (t₀ : Token) (n₀ : Nat), tokens.filter hasNewline = [t₀] ∧ t₀.Kind = WHITESPACE ∧
    t₀.Value.getLast? = some newline ∧ n₀ ≤ text.length ∧
    t₀.Loc.Start.Column = RuneCountInString ((text ++ [newline]).take n₀) + 1 ∧
    (∀ m : Nat, n₀ ≤ m → m ≤ text.length → row[m]? = some sentinel) ∧
    ∀ t ∈ tokens, t.Loc.Start.Column ≤ t₀.Loc.Start.Column

/-- What the loop of `Lex` keeps true of the tokens collected from `n` lines
when every iteration order visits `WHITESPACE`: every token is on one of the
lines; as many tokens hold a line feed as there are lines; and on each line
exactly one token holds a line feed, a `WHITESPACE` token whose text ends in
the line feed and after whose start column no token of the line starts. -/
def TerminatorInv (n : Nat) (tokens : List Token) : Prop :=
  (∀ t ∈ tokens, 1 ≤ t.Loc.Start.Line ∧ t.Loc.Start.Line ≤ n) ∧
  (tokens.filter hasNewline).length = n ∧
  ∀ k : Nat, k < n → ∃ t₀,
    tokens.filter (fun t => hasNewline t && decide (t.Loc.Start.Line = k + 1)) = [t₀] ∧
    t₀.Kind = WHITESPACE ∧ t₀.Value.getLast? = some newline ∧
    ∀ t ∈ tokens, t.Loc.Start.Line = k + 1 → t.Loc.Start.Column ≤ t₀.Loc.Start.Column

/-- Two bytes that are equal or both ASCII: replacing one by the other changes
no rune boundary. -/
def sameClass (x y : Nat) : Prop := x = y ∨ (x < 0x80 ∧ y < 0x80)

/-- What the loops of `lex` keep true of the working copy `row` of the line
`ln`: between a double quote and a later double quote that does not directly
follow a sentinel, no byte of the line that is not ASCII has been blanked. -/
def QuoteInv (ln row : Str) : Prop :=
  ∀ (q m c x : Nat), q < m → m < c → row[q]? = some 0x22 → row[c]? = some 0x22 →
    row[c - 1]? ≠ some sentinel → row[m]? = some sentinel → ln[m]? = some x → x < 0x80

/-! # Properties -/

/-! ## UTF-8 decoding -/

theorem acceptLo_ge (s0 : Nat) : 0x80 ≤ acceptLo s0 := by
  unfold acceptLo; split_ifs <;> omega

theorem acceptHi_le (s0 : Nat) : acceptHi s0 ≤ 0xBF := by
  unfold acceptHi; split_ifs <;> omega

theorem isCont_iff (b : Nat) : isCont b = true ↔ 0x80 ≤ b ∧ b ≤ 0xBF := by
  simp [isCont]

theorem isCont_false_iff (b : Nat) : isCont b = false ↔ (b < 0x80 ∨ 0xBF < b) := by
  simp [isCont]; omega

theorem decode_ascii (b : Nat) (t : Str) (h : b < 0x80) :
    DecodeRuneInString (b :: t) = (b, 1) := by
  simp [DecodeRuneInString, h]

theorem decode_width_pos (b : Nat) (t : Str) : 1 ≤ (DecodeRuneInString (b :: t)).2 := by
  rcases t with _ | ⟨s1, _ | ⟨s2, _ | ⟨s3, t⟩⟩⟩ <;>
    simp only [DecodeRuneInString] <;> split_ifs <;> simp

theorem decode_width_le (b : Nat) (t : Str) :
    (DecodeRuneInString (b :: t)).2 ≤ (b :: t).length := by
  rcases t with _ | ⟨s1, _ | ⟨s2, _ | ⟨s3, t⟩⟩⟩ <;>
    simp only [DecodeRuneInString] <;> split_ifs <;> simp

theorem decode_rune_ascii (b : Nat) (t : Str) (h : (DecodeRuneInString (b :: t)).1 < 0x80) :
    b < 0x80 := by
  by_contra hb
  have hlo : acceptLo b = if b = 0xE0 then 0xA0 else if b = 0xF0 then 0x90 else 0x80 := rfl
  have hhi := acceptHi_le b
  rcases t with _ | ⟨s1, _ | ⟨s2, _ | ⟨s3, t⟩⟩⟩ <;>
    simp only [DecodeRuneInString, hb, if_false] at h <;> split_ifs at h <;>
    simp only [RuneError, isCont_false_iff] at * <;> (try split_ifs at hlo) <;> omega

theorem decode_cont_bytes (b : Nat) (t : Str) :
    ∀ c ∈ t.take ((DecodeRuneInString (b :: t)).2 - 1), 0x80 ≤ c := by
  have hlo := acceptLo_ge b
  rcases t with _ | ⟨s1, _ | ⟨s2, _ | ⟨s3, t⟩⟩⟩ <;>
    simp only [DecodeRuneInString] <;> split_ifs <;>
    simp_all [isCont_false_iff] <;> omega

theorem decode_append_ascii (b : Nat) (a m : Str) (c : Nat) (hc : c < 0x80) :
    DecodeRuneInString (b :: (a ++ c :: m)) = DecodeRuneInString (b :: a) := by
  have hlo := acceptLo_ge b
  have h1 : isCont c = false := by simp [isCont]; omega
  have h2 : c < acceptLo b := by omega
  rcases a with _ | ⟨s1, _ | ⟨s2, _ | ⟨s3, t⟩⟩⟩ <;>
    simp [DecodeRuneInString, h1, h2]

theorem decode_take (b : Nat) (t : Str) :
    DecodeRuneInString ((b :: t).take (DecodeRuneInString (b :: t)).2) =
      DecodeRuneInString (b :: t) := by
  have key : ∀ r w, DecodeRuneInString (b :: t) = (r, w) →
      DecodeRuneInString ((b :: t).take w) = (r, w) := by
    intro r w h
    rcases t with _ | ⟨s1, _ | ⟨s2, _ | ⟨s3, t⟩⟩⟩ <;>
      simp only [DecodeRuneInString] at h <;> split_ifs at h <;>
      simp only [Prod.mk.injEq] at h <;> obtain ⟨rfl, rfl⟩ := h <;>
      simp [DecodeRuneInString, *]
  exact key _ _ rfl

theorem runeCountFrom_append_ascii (a m : Str) (c : Nat) (hc : c < 0x80) :
    ∀ k, k ≤ a.length →
      runeCountFrom k (a ++ c :: m) = runeCountFrom k a + (1 + runeCountFrom 0 m) := by
  induction a with
  | nil =>
    intro k hk
    have : k = 0 := by simpa using hk
    subst this
    simp [runeCountFrom, decode_ascii c m hc]
  | cons b a ih =>
    intro k hk
    cases k with
    | zero =>
      have hw := decode_width_le b a
      have hd := decode_append_ascii b a m c hc
      simp only [List.length_cons] at hw
      show 1 + runeCountFrom ((DecodeRuneInString (b :: (a ++ c :: m))).2 - 1) (a ++ c :: m) = _
      rw [hd, ih _ (by omega)]
      simp only [runeCountFrom]
      omega
    | succ k =>
      show runeCountFrom k (a ++ c :: m) = runeCountFrom k a + _
      exact ih k (by simpa using hk)

theorem RuneCountInString_append_ascii (a m : Str) (c : Nat) (hc : c < 0x80) :
    RuneCountInString (a ++ c :: m) = RuneCountInString a + 1 + RuneCountInString m := by
  unfold RuneCountInString
  rw [runeCountFrom_append_ascii a m c hc 0 (Nat.zero_le _)]
  omega

/-! ## The matcher is sound for the language of the pattern -/

namespace Regex

theorem starEnds_matches (greedy : Bool) (step : Str → List Str) (P : Str → Prop)
    (hstep : ∀ s s', s' ∈ step s → ∃ w, s = w ++ s' ∧ P w) :
    ∀ n s s', s' ∈ starEnds greedy step n s → ∃ w, s = w ++ s' ∧ Repeat P w := by
  intro n
  induction n with
  | zero =>
    intro s s' h
    simp only [starEnds, List.mem_singleton] at h
    exact ⟨[], by simp [h], Repeat.nil⟩
  | succ n ih =>
    intro s s' h
    have hcases : s' = s ∨ ∃ s1, s1 ∈ step s ∧ s' ∈ starEnds greedy step n s1 := by
      simp only [starEnds] at h
      cases greedy <;> simp only [Bool.false_eq_true, if_false, if_true, List.mem_cons,
        List.mem_append, List.mem_flatMap, List.mem_filter, List.mem_singleton] at h
      · rcases h with h | ⟨s1, ⟨h1, _⟩, h2⟩
        · exact Or.inl h
        · exact Or.inr ⟨s1, h1, h2⟩
      · rcases h with ⟨s1, ⟨h1, _⟩, h2⟩ | h
        · exact Or.inr ⟨s1, h1, h2⟩
        · simp at h
          exact Or.inl h
    rcases hcases with h | ⟨s1, h1, h2⟩
    · exact ⟨[], by simp [h], Repeat.nil⟩
    · obtain ⟨u, hu, hP⟩ := hstep s s1 h1
      obtain ⟨v, hv, hR⟩ := ih s1 s' h2
      exact ⟨u ++ v, by rw [hu, hv, List.append_assoc], Repeat.cons u v hP hR⟩

theorem ends_matches (total : Nat) (r : Regex) :
    ∀ s s', s' ∈ ends total r s → ∃ w, s = w ++ s' ∧ Matches r w := by
  induction r with
  | empty =>
    intro s s' h
    simp only [ends, List.mem_singleton] at h
    exact ⟨[], by simp [h], rfl⟩
  | bot =>
    intro s s' h
    simp only [ends] at h
    split_ifs at h
    · simp only [List.mem_singleton] at h
      exact ⟨[], by simp [h], rfl⟩
    · simp at h
  | eot =>
    intro s s' h
    simp only [ends] at h
    split_ifs at h
    · simp only [List.mem_singleton] at h
      exact ⟨[], by simp [h], rfl⟩
    · simp at h
  | cls neg ranges =>
    intro s s' h
    cases s with
    | nil => simp [ends] at h
    | cons b t =>
      simp only [ends] at h
      split_ifs at h with hc
      · simp only [List.mem_singleton] at h
        refine ⟨(b :: t).take (DecodeRuneInString (b :: t)).2, ?_, ?_, ?_, ?_⟩
        · rw [h, List.take_append_drop]
        · have := decode_width_pos b t
          intro hnil
          have hl := congrArg List.length hnil
          simp only [List.length_take, List.length_cons, List.length_nil] at hl
          omega
        · rw [decode_take]
          have := decode_width_le b t
          simp only [List.length_take, List.length_cons] at this ⊢
          omega
        · rw [decode_take]; exact hc
      · simp at h
  | cat a b iha ihb =>
    intro s s' h
    simp only [ends, List.mem_flatMap] at h
    obtain ⟨s1, h1, h2⟩ := h
    obtain ⟨u, hu, hA⟩ := iha s s1 h1
    obtain ⟨v, hv, hB⟩ := ihb s1 s' h2
    exact ⟨u ++ v, by rw [hu, hv, List.append_assoc], u, v, rfl, hA, hB⟩
  | alt a b iha ihb =>
    intro s s' h
    simp only [ends, List.mem_append] at h
    rcases h with h | h
    · obtain ⟨w, hw, hA⟩ := iha s s' h
      exact ⟨w, hw, Or.inl hA⟩
    · obtain ⟨w, hw, hB⟩ := ihb s s' h
      exact ⟨w, hw, Or.inr hB⟩
  | star greedy a iha =>
    intro s s' h
    simp only [ends] at h
    exact starEnds_matches greedy _ (Matches a) iha _ s s' h

end Regex

namespace Regex

theorem matches_consumes (r : Regex) : ∀ w, consumes r = true → Matches r w → w ≠ [] := by
  induction r with
  | empty => intro w h; simp [consumes] at h
  | bot => intro w h; simp [consumes] at h
  | eot => intro w h; simp [consumes] at h
  | cls neg ranges => intro w _ h; exact h.1
  | cat a b iha ihb =>
    intro w h hm
    obtain ⟨u, v, rfl, hu, hv⟩ := hm
    simp only [consumes, Bool.or_eq_true] at h
    rcases h with h | h
    · have := iha u h hu
      simp [this]
    · have := ihb v h hv
      simp [this]
  | alt a b iha ihb =>
    intro w h hm
    simp only [consumes, Bool.and_eq_true] at h
    rcases hm with hm | hm
    · exact iha w h.1 hm
    · exact ihb w h.2 hm
  | star g a _ => intro w h; simp [consumes] at h

theorem matches_cls_ascii (ranges : List (Nat × Nat)) (w : Str)
    (hr : ∀ p ∈ ranges, p.2 < 0x80) (h : Matches (cls false ranges) w) :
    ∃ b, w = [b] ∧ b < 0x80 ∧ inRanges ranges b = true := by
  obtain ⟨hne, hlen, hc⟩ := h
  cases w with
  | nil => exact absurd rfl hne
  | cons b t =>
    simp only [classTest, Bool.false_eq_true, if_false] at hc
    have hlt : (DecodeRuneInString (b :: t)).1 < 0x80 := by
      simp only [inRanges, List.any_eq_true, Bool.and_eq_true, decide_eq_true_eq] at hc
      obtain ⟨p, hp, _, h2⟩ := hc
      have := hr p hp
      omega
    have hb := decode_rune_ascii b t hlt
    rw [decode_ascii b t hb] at hlen hc
    simp only [List.length_cons] at hlen
    have ht : t = [] := List.length_eq_zero.mp (by omega)
    exact ⟨b, by rw [ht], hb, hc⟩

theorem matches_startsPlain (r : Regex) :
    ∀ w, startsPlain r = true → Matches r w → w ≠ [] →
      ∃ b t, w = b :: t ∧ plainByte b := by
  induction r with
  | empty => intro w _ h hne; exact absurd h hne
  | bot => intro w _ h hne; exact absurd h hne
  | eot => intro w _ h hne; exact absurd h hne
  | cls neg ranges =>
    intro w hs h _
    simp only [startsPlain, Bool.and_eq_true, Bool.not_eq_true', List.all_eq_true,
      Bool.or_eq_true, decide_eq_true_eq] at hs
    obtain ⟨hneg, hall⟩ := hs
    subst hneg
    obtain ⟨b, rfl, hb, hin⟩ := matches_cls_ascii ranges w (fun p hp => (hall p hp).1) h
    refine ⟨b, [], rfl, hb, ?_⟩
    simp only [inRanges, List.any_eq_true, Bool.and_eq_true, decide_eq_true_eq] at hin
    obtain ⟨p, hp, h1, h2⟩ := hin
    have := (hall p hp).2
    omega
  | cat a b iha ihb =>
    intro w hs hm hne
    obtain ⟨u, v, rfl, hu, hv⟩ := hm
    simp only [startsPlain, Bool.and_eq_true, Bool.or_eq_true] at hs
    by_cases hun : u = []
    · subst hun
      rcases hs.2 with hc | hb
      · exact absurd rfl (matches_consumes a [] hc hu)
      · simpa using ihb v hb hv (by simpa using hne)
    · obtain ⟨c, t, rfl, hc⟩ := iha u hs.1 hu hun
      exact ⟨c, t ++ v, rfl, hc⟩
  | alt a b iha ihb =>
    intro w hs hm hne
    simp only [startsPlain, Bool.and_eq_true] at hs
    rcases hm with hm | hm
    · exact iha w hs.1 hm hne
    · exact ihb w hs.2 hm hne
  | star g a iha =>
    intro w hs hm
    simp only [startsPlain] at hs
    induction hm with
    | nil => intro hne; exact absurd rfl hne
    | cons u v hu _ ihv =>
      intro hne
      by_cases hun : u = []
      · subst hun
        simpa using ihv (by simpa using hne)
      · obtain ⟨c, t, rfl, hc⟩ := iha u hs hu hun
        exact ⟨c, t ++ v, rfl, hc⟩

theorem searchFrom_some (re : Regex) (total : Nat) :
    ∀ (s : Str) (k i j : Nat), searchFrom re total k s = some (i, j) →
      ∃ s0 rest, s0 <:+ s ∧ rest ∈ ends total re s0 ∧
        i = total - s0.length ∧ j = total - rest.length := by
  intro s
  induction s with
  | nil =>
    intro k i j h
    cases k with
    | zero =>
      simp only [searchFrom] at h
      split at h
      · rename_i rest hrest
        simp only [Option.some.injEq, Prod.mk.injEq] at h
        exact ⟨[], rest, List.suffix_refl _, List.mem_of_mem_head? hrest, h.1.symm, h.2.symm⟩
      · simp at h
    | succ k => simp [searchFrom] at h
  | cons b t ih =>
    intro k i j h
    cases k with
    | zero =>
      simp only [searchFrom] at h
      split at h
      · rename_i rest hrest
        simp only [Option.some.injEq, Prod.mk.injEq] at h
        exact ⟨b :: t, rest, List.suffix_refl _, List.mem_of_mem_head? hrest, h.1.symm, h.2.symm⟩
      · obtain ⟨s0, rest, hs, hr, hi, hj⟩ := ih _ i j h
        exact ⟨s0, rest, hs.trans (List.suffix_cons b t), hr, hi, hj⟩
    | succ k =>
      simp only [searchFrom] at h
      obtain ⟨s0, rest, hs, hr, hi, hj⟩ := ih _ i j h
      exact ⟨s0, rest, hs.trans (List.suffix_cons b t), hr, hi, hj⟩

theorem FindStringIndex_some (re : Regex) (row : Str) (i j : Nat)
    (h : FindStringIndex re row = some (i, j)) :
    ∃ pre w rest, row = pre ++ (w ++ rest) ∧ i = pre.length ∧ j = pre.length + w.length ∧
      rest ∈ ends row.length re (w ++ rest) ∧ Matches re w := by
  obtain ⟨s0, rest, ⟨pre, hpre⟩, hr, hi, hj⟩ := searchFrom_some re row.length row 0 i j h
  obtain ⟨w, hw, hm⟩ := ends_matches row.length re s0 rest hr
  subst hw
  refine ⟨pre, w, rest, hpre.symm, ?_, ?_, hr, hm⟩
  · rw [hi, ← hpre]; simp
  · rw [hj, ← hpre]; simp; omega

theorem FindString_eq (re : Regex) (pre w rest : Str)
    (h : FindStringIndex re (pre ++ (w ++ rest)) = some (pre.length, pre.length + w.length)) :
    FindString re (pre ++ (w ++ rest)) = w := by
  simp only [FindString, h]
  rw [← List.append_assoc, List.take_left' (by simp), List.drop_left' rfl]

theorem ends_bot_eot (total : Nat) (h : total ≠ 0) (s : Str) :
    ends total (cat bot eot) s = [] := by
  simp only [ends]
  by_cases h1 : s.length = total
  · subst h1
    have h2 : s ≠ [] := fun h0 => h (by rw [h0]; rfl)
    simp [h2]
  · simp [h1]

theorem searchFrom_bot_eot (total : Nat) (h : total ≠ 0) :
    ∀ (s : Str) (k : Nat), searchFrom (cat bot eot) total k s = none := by
  intro s
  induction s with
  | nil =>
    intro k
    cases k with
    | zero => simp [searchFrom, ends_bot_eot total h]
    | succ k => simp [searchFrom]
  | cons b t ih =>
    intro k
    cases k with
    | zero => simp [searchFrom, ends_bot_eot total h, ih]
    | succ k => simp [searchFrom, ih]

end Regex

/-! ## The scan loop -/

theorem tokenDefinition_cases (k : TokenType) (v : Regex) (h : TokenDefinition k = some v) :
    v = Regex.cat Regex.bot Regex.eot ∨ (v.consumes = true ∧ v.startsPlain = true) := by
  cases k <;> simp only [TokenDefinition, Option.some.injEq] at h <;>
    first
    | (subst h; exact Or.inl rfl)
    | (subst h; exact Or.inr (by decide))
    | exact absurd h (by simp)

theorem scanKind_succ_none (l : Lexer) (k : TokenType) (v : Regex) (line : Str) (fuel : Nat)
    (row : Str) (tokens : List Token) (h : v.FindStringIndex row = none) :
    scanKind l k v line (fuel + 1) row tokens = some (row, tokens) := by
  simp [scanKind, h]

theorem scanKind_succ_some (l : Lexer) (k : TokenType) (v : Regex) (line : Str) (fuel : Nat)
    (row : Str) (tokens : List Token) (i j : Nat) (h : v.FindStringIndex row = some (i, j)) :
    scanKind l k v line (fuel + 1) row tokens =
      scanKind l k v line fuel (blank row i j) (tokens ++ [matchToken l k v line row i j]) := by
  simp [scanKind, h, matchToken]

/-- An invariant that every iteration of the inner loop keeps holds of its result,
and the pattern no longer matches the final working copy. -/
theorem scanKind_induct (l : Lexer) (k : TokenType) (v : Regex) (line : Str)
    (P : Str → List Token → Prop)
    (hstep : ∀ row tokens i j, P row tokens → v.FindStringIndex row = some (i, j) →
      P (blank row i j) (tokens ++ [matchToken l k v line row i j])) :
    ∀ fuel row tokens out, P row tokens → scanKind l k v line fuel row tokens = some out →
      P out.1 out.2 ∧ v.FindStringIndex out.1 = none := by
  intro fuel
  induction fuel with
  | zero => intro row tokens out _ h; simp [scanKind] at h
  | succ fuel ih =>
    intro row tokens out hP h
    cases hf : v.FindStringIndex row with
    | none =>
      rw [scanKind_succ_none l k v line fuel row tokens hf] at h
      cases h
      exact ⟨hP, hf⟩
    | some loc =>
      obtain ⟨i, j⟩ := loc
      rw [scanKind_succ_some l k v line fuel row tokens i j hf] at h
      exact ih _ _ out (hstep row tokens i j hP hf) h

/-- An invariant that every iteration of every kind keeps holds of the result of
the outer loop. -/
theorem lexKinds_induct (l : Lexer) (line : Str) (fuel : Nat) (P : Str → List Token → Prop)
    (hstep : ∀ k v, TokenDefinition k = some v → ∀ row tokens i j, P row tokens →
      v.FindStringIndex row = some (i, j) →
      P (blank row i j) (tokens ++ [matchToken l k v line row i j])) :
    ∀ order row tokens out, P row tokens → lexKinds l line fuel order row tokens = some out →
      P out.1 out.2 := by
  intro order
  induction order with
  | nil => intro row tokens out hP h; simp only [lexKinds, Option.some.injEq] at h; subst h; exact hP
  | cons k ks ih =>
    intro row tokens out hP h
    simp only [lexKinds] at h
    cases hv : TokenDefinition k with
    | none => rw [hv] at h; exact ih row tokens out hP h
    | some v =>
      rw [hv] at h
      cases hs : scanKind l k v line fuel row tokens with
      | none => simp [hs] at h
      | some mid =>
        obtain ⟨row', tokens'⟩ := mid
        simp only [hs] at h
        have := (scanKind_induct l k v line P (hstep k v hv) fuel row tokens _ hP hs).1
        exact ih row' tokens' out this h

theorem blank_eq (pre w rest : Str) :
    blank (pre ++ (w ++ rest)) pre.length (pre.length + w.length) =
      pre ++ (List.replicate w.length sentinel ++ rest) := by
  unfold blank
  rw [List.take_left' rfl, ← List.append_assoc pre w rest,
    List.drop_left' (by simp), List.append_assoc]
  simp

/-- What a match of a pattern that consumes input and starts with a plain byte
looks like in the working copy. -/
theorem find_step (v : Regex) (hc : v.consumes = true) (hp : v.startsPlain = true)
    (row : Str) (i j : Nat) (h : v.FindStringIndex row = some (i, j)) :
    ∃ pre b w rest, row = pre ++ ((b :: w) ++ rest) ∧ Regex.plainByte b ∧ i = pre.length ∧
      j = pre.length + (b :: w).length ∧ v.Matches (b :: w) ∧
      blank row i j = pre ++ (List.replicate (b :: w).length sentinel ++ rest) ∧
      v.FindString row = b :: w := by
  obtain ⟨pre, w, rest, hrow, hi, hj, _, hm⟩ := Regex.FindStringIndex_some v row i j h
  have hne := Regex.matches_consumes v w hc hm
  obtain ⟨b, t, rfl, hb⟩ := Regex.matches_startsPlain v w hp hm hne
  subst hrow hi hj
  exact ⟨pre, b, t, rest, rfl, hb, rfl, rfl, hm, blank_eq pre (b :: t) rest,
    Regex.FindString_eq v pre (b :: t) rest h⟩

theorem plainCount_blank (pre w rest : Str) (b : Nat) (hb : Regex.plainByte b) :
    plainCount (pre ++ (List.replicate (b :: w).length sentinel ++ rest)) <
      plainCount (pre ++ ((b :: w) ++ rest)) := by
  have h1 : List.countP (fun b => b != sentinel) (List.replicate (b :: w).length sentinel) = 0 := by
    rw [List.countP_eq_zero]
    intro a ha
    simp [List.eq_of_mem_replicate ha]
  have h2 : 1 ≤ List.countP (fun b => b != sentinel) (b :: w) := by
    have : (b != sentinel) = true := by simpa [sentinel] using hb.2
    simp [List.countP_cons, this]
  simp only [plainCount, List.countP_append, h1]
  omega

theorem plainCount_le (row : Str) : plainCount row ≤ row.length :=
  List.countP_le_length _

/-- The inner loop ends within the fuel when the fuel exceeds the number of
bytes not yet blanked, for a pattern whose matches are non-empty and start with
a plain byte. -/
theorem scanKind_isSome_plain (l : Lexer) (k : TokenType) (v : Regex) (line : Str)
    (hc : v.consumes = true) (hp : v.startsPlain = true) :
    ∀ fuel row tokens, plainCount row < fuel →
      ∃ out, scanKind l k v line fuel row tokens = some out ∧ out.1.length = row.length := by
  intro fuel
  induction fuel with
  | zero => intro row tokens h; omega
  | succ fuel ih =>
    intro row tokens hlt
    cases hf : v.FindStringIndex row with
    | none => exact ⟨_, scanKind_succ_none l k v line fuel row tokens hf, rfl⟩
    | some loc =>
      obtain ⟨i, j⟩ := loc
      rw [scanKind_succ_some l k v line fuel row tokens i j hf]
      obtain ⟨pre, b, w, rest, hrow, hb, _, _, _, hbl, _⟩ := find_step v hc hp row i j hf
      have hdec := plainCount_blank pre w rest b hb
      rw [← hbl, ← hrow] at hdec
      obtain ⟨out, ho, hlen⟩ := ih (blank row i j) (tokens ++ [matchToken l k v line row i j])
        (by omega)
      refine ⟨out, ho, ?_⟩
      rw [hlen, hbl, hrow]
      simp
      omega

/-- The inner loop of the `EOF` pattern ends at once on a working copy that is
not empty. -/
theorem scanKind_bot_eot (l : Lexer) (k : TokenType) (line : Str) (fuel : Nat) (row : Str)
    (tokens : List Token) (hrow : row ≠ []) :
    scanKind l k (Regex.cat Regex.bot Regex.eot) line (fuel + 1) row tokens = some (row, tokens) := by
  apply scanKind_succ_none
  exact Regex.searchFrom_bot_eot row.length (by simpa using hrow) row 0

theorem scanKind_isSome (l : Lexer) (k : TokenType) (v : Regex) (line : Str)
    (hv : TokenDefinition k = some v) (fuel : Nat) (row : Str) (tokens : List Token)
    (hrow : row ≠ []) (hfuel : row.length < fuel) :
    ∃ out, scanKind l k v line fuel row tokens = some out ∧ out.1.length = row.length := by
  rcases tokenDefinition_cases k v hv with rfl | ⟨hc, hp⟩
  · obtain ⟨f, rfl⟩ : ∃ f, fuel = f + 1 := ⟨fuel - 1, by omega⟩
    exact ⟨_, scanKind_bot_eot l k line f row tokens hrow, rfl⟩
  · exact scanKind_isSome_plain l k v line hc hp fuel row tokens
      (lt_of_le_of_lt (plainCount_le row) hfuel)

theorem lexKinds_isSome (l : Lexer) (line : Str) (fuel : Nat) :
    ∀ order row tokens, row ≠ [] → row.length < fuel →
      ∃ out, lexKinds l line fuel order row tokens = some out := by
  intro order
  induction order with
  | nil => intro row tokens _ _; exact ⟨_, rfl⟩
  | cons k ks ih =>
    intro row tokens hrow hfuel
    simp only [lexKinds]
    cases hv : TokenDefinition k with
    | none => exact ih row tokens hrow hfuel
    | some v =>
      obtain ⟨⟨row', tokens'⟩, ho, hlen⟩ := scanKind_isSome l k v line hv fuel row tokens hrow hfuel
      simp only [ho]
      simp only at hlen
      exact ih row' tokens' (by intro h; rw [h] at hlen; exact hrow (List.length_eq_zero.mp hlen.symm))
        (by omega)

/-- The per-line scan returns for every line that is not empty. -/
theorem lex_isSome (l : Lexer) (order : List TokenType) (line : Str) (h : line ≠ []) :
    ∃ tokens, lex l order line = some tokens := by
  obtain ⟨out, ho⟩ := lexKinds_isSome l line (line.length + 1) order line [] h (Nat.lt_succ_self _)
  exact ⟨out.2, by simp [lex, lexFuel, ho]⟩

/-! ## `Lex` returns -/

theorem lexLines_isSome (orders : Nat → List TokenType) :
    ∀ texts l tokens, ∃ out, lexLines orders l texts tokens = some out := by
  intro texts
  induction texts with
  | nil => intro l tokens; exact ⟨tokens, rfl⟩
  | cons text rest ih =>
    intro l tokens
    obtain ⟨ts, hts⟩ := lex_isSome l (orders l.lineNumber) (text ++ [newline]) (by simp)
    simp only [lexLines, hts]
    exact ih _ _

theorem scanTokens_err_fits (fail : Option Nat) (final : Bool) :
    ∀ raws, (∀ pre raw rest, raws = pre ++ raw :: rest →
        ¬ (MaxScanTokenSize ≤ raw.length ∧
          ¬ (raw.length = MaxScanTokenSize ∧ rest = [] ∧ final = true))) →
      (scanTokens fail final raws).2 = fail.map ScanError.read := by
  intro raws
  induction raws with
  | nil => intro _; simp [scanTokens]
  | cons raw rest ih =>
    intro h
    have h1 := h [] raw rest rfl
    simp only [scanTokens, if_neg h1]
    exact ih (fun pre r rs hr => h (raw :: pre) r rs (by rw [hr]; rfl))

theorem scanTokens_err_long (fail : Option Nat) (final : Bool) :
    ∀ raws, (∃ pre raw rest, raws = pre ++ raw :: rest ∧ MaxScanTokenSize ≤ raw.length ∧
        ¬ (raw.length = MaxScanTokenSize ∧ rest = [] ∧ final = true)) →
      (scanTokens fail final raws).2 = some ScanError.tooLong := by
  intro raws
  induction raws with
  | nil =>
    rintro ⟨pre, raw, rest, h, _⟩
    simp at h
  | cons r rs ih =>
    rintro ⟨pre, raw, rest, h, h1, h2⟩
    by_cases hr : MaxScanTokenSize ≤ r.length ∧
        ¬ (r.length = MaxScanTokenSize ∧ rs = [] ∧ final = true)
    · simp only [scanTokens, if_pos hr]
    · simp only [scanTokens, if_neg hr]
      cases pre with
      | nil =>
        simp only [List.nil_append, List.cons.injEq] at h
        obtain ⟨rfl, rfl⟩ := h
        exact absurd ⟨h1, h2⟩ hr
      | cons p pre =>
        simp only [List.cons_append, List.cons.injEq] at h
        exact ih ⟨pre, raw, rest, h.2, h1, h2⟩

theorem scanTokens_err_short (fail : Option Nat) (final : Bool) (raws : List Str)
    (h : ∀ raw ∈ raws, raw.length < MaxScanTokenSize) :
    (scanTokens fail final raws).2 = fail.map ScanError.read := by
  apply scanTokens_err_fits
  intro pre raw rest hr hlong
  have := h raw (by rw [hr]; simp)
  omega

theorem atEOF_eq_true (input : Reader) :
    atEOF input = true ↔
      (input.errWithData = true ∧ input.data.getLast? ≠ some newline) := by
  simp [atEOF]

/-- The error of the scan: `ErrTooLong` when a line does not fit the buffer,
else what the reader ends with. -/
theorem scanTokens_err (input : Reader) :
    (LineTooLong input →
      (scanTokens input.fail (atEOF input) (rawLines input.data)).2 =
        some ScanError.tooLong) ∧
    (¬ LineTooLong input →
      (scanTokens input.fail (atEOF input) (rawLines input.data)).2 =
        input.fail.map ScanError.read) := by
  constructor
  · rintro ⟨pre, raw, rest, h, h1, h2⟩
    apply scanTokens_err_long
    refine ⟨pre, raw, rest, h, h1, ?_⟩
    rw [atEOF_eq_true]
    exact h2
  · intro hno
    apply scanTokens_err_fits
    intro pre raw rest hr hlong
    apply hno
    refine ⟨pre, raw, rest, hr, hlong.1, ?_⟩
    have := hlong.2
    rw [atEOF_eq_true] at this
    exact this

theorem Lex_eq (orders : Nat → List TokenType) (input : Reader) :
    ∃ tokens, lexLines orders { lineNumber := 0, numberOfChar := 0 }
        (scanTokens input.fail (atEOF input) (rawLines input.data)).1 [] = some tokens ∧
      Lex orders input =
        some (match (scanTokens input.fail (atEOF input) (rawLines input.data)).2 with
          | some err => ([], some err)
          | none => (sortTokens tokens, none)) := by
  obtain ⟨tokens, h⟩ := lexLines_isSome orders (scanTokens input.fail (atEOF input) (rawLines input.data)).1
    { lineNumber := 0, numberOfChar := 0 } []
  refine ⟨tokens, h, ?_⟩
  simp only [Lex, h]
  cases (scanTokens input.fail (atEOF input) (rawLines input.data)).2 <;> rfl

theorem tokenLE_iff (a b : Token) :
    tokenLE a b ↔ a.Loc.Start.Line < b.Loc.Start.Line ∨
      (a.Loc.Start.Line = b.Loc.Start.Line ∧ a.Loc.Start.Column ≤ b.Loc.Start.Column) := by
  unfold tokenLE compareTokens
  split_ifs with h <;> omega

theorem tokenLE_total : IsTotal Token tokenLE :=
  ⟨fun a b => by simp only [tokenLE_iff]; omega⟩

theorem tokenLE_trans : IsTrans Token tokenLE :=
  ⟨fun a b c => by simp only [tokenLE_iff]; omega⟩

theorem sortTokens_sorted (tokens : List Token) : (sortTokens tokens).Sorted tokenLE :=
  @List.sorted_insertionSort Token tokenLE _ tokenLE_total tokenLE_trans tokens

theorem sortTokens_perm (tokens : List Token) : (sortTokens tokens).Perm tokens :=
  List.perm_insertionSort tokenLE tokens

/-! ## Positions of the tokens of one line -/

theorem RuneCountInString_take_lt (ln : Str) (n m c : Nat) (hn : ln[n]? = some c)
    (hc : c < 0x80) (hnm : n < m) :
    RuneCountInString (ln.take n) < RuneCountInString (ln.take m) := by
  obtain ⟨hlt, hget⟩ := List.getElem?_eq_some_iff.mp hn
  have hsplit : ln = ln.take n ++ c :: ln.drop (n + 1) := by
    conv_lhs => rw [← List.take_append_drop n ln, List.drop_eq_getElem_cons hlt, hget]
  have hlen : (ln.take n).length = n := by simp; omega
  obtain ⟨d, rfl⟩ : ∃ d, m = n + (d + 1) := ⟨m - n - 1, by omega⟩
  have htake : ln.take (n + (d + 1)) = ln.take n ++ c :: (ln.drop (n + 1)).take d := by
    conv_lhs => rw [hsplit, List.take_append_eq_append_take, hlen]
    have h1 : (ln.take n).take (n + (d + 1)) = ln.take n := by
      rw [List.take_take]; congr 1; omega
    rw [h1, Nat.add_sub_cancel_left, List.take_succ_cons]
  rw [htake, RuneCountInString_append_ascii _ _ _ hc]
  omega

theorem RuneCountInString_take_succ_le (ln : Str) (n c : Nat) (hn : ln[n]? = some c)
    (hc : c < 0x80) :
    RuneCountInString (ln.take n) + 1 ≤ RuneCountInString ln := by
  obtain ⟨hlt, hget⟩ := List.getElem?_eq_some_iff.mp hn
  have hsplit : ln = ln.take n ++ c :: ln.drop (n + 1) := by
    conv_lhs => rw [← List.take_append_drop n ln, List.drop_eq_getElem_cons hlt, hget]
  conv_rhs => rw [hsplit, RuneCountInString_append_ascii _ _ _ hc]
  omega

theorem getElem?_blanked (pre w rest : Str) (n : Nat) :
    (pre ++ (List.replicate w.length sentinel ++ rest))[n]? =
      if pre.length ≤ n ∧ n < pre.length + w.length then some sentinel
      else (pre ++ (w ++ rest))[n]? := by
  simp only [List.getElem?_append, List.length_replicate, List.getElem?_replicate]
  split_ifs <;> first | rfl | omega

theorem lineInv_init (l : Lexer) (ln : Str) : LineInv l ln ln [] :=
  ⟨rfl, fun _ _ h _ => h, by simp, List.Pairwise.nil⟩

theorem lineInv_step (l : Lexer) (ln : Str) (hline : ln ≠ []) (k : TokenType) (v : Regex)
    (hv : TokenDefinition k = some v) (row : Str) (tokens : List Token) (i j : Nat)
    (hinv : LineInv l ln row tokens) (hf : v.FindStringIndex row = some (i, j)) :
    LineInv l ln (blank row i j) (tokens ++ [matchToken l k v ln row i j]) := by
  obtain ⟨hlen, hagree, htok, hpw⟩ := hinv
  rcases tokenDefinition_cases k v hv with rfl | ⟨hc, hp⟩
  · have hne : row.length ≠ 0 := by
      rw [hlen]; exact fun h => hline (List.length_eq_zero.mp h)
    have := Regex.searchFrom_bot_eot row.length hne row 0
    unfold Regex.FindStringIndex at hf
    rw [this] at hf
    exact absurd hf (by simp)
  · obtain ⟨pre, b, w, rest, hrow, hb, hi, _, _, hbl, _⟩ := find_step v hc hp row i j hf
    have hrowi : row[i]? = some b := by
      rw [hrow, hi, List.getElem?_append_right (le_refl _)]
      simp
    have hlinei : ln[i]? = some b := hagree i b hrowi (by
      intro h; exact hb.2 (by rw [h]; rfl))
    have hpt : ∀ n : Nat, (blank row i j)[n]? =
        if pre.length ≤ n ∧ n < pre.length + (b :: w).length then some sentinel else row[n]? := by
      intro n
      rw [hbl, getElem?_blanked, ← hrow]
    have hbi : (blank row i j)[i]? = some sentinel := by
      rw [hpt, if_pos (by rw [hi]; simp)]
    have hkeep : ∀ n : Nat, row[n]? = some sentinel → (blank row i j)[n]? = some sentinel := by
      intro n h
      rw [hpt]
      split_ifs
      · rfl
      · exact h
    refine ⟨?_, ?_, ?_, ?_⟩
    · rw [hbl, ← hlen, hrow]
      simp
      omega
    · intro n b' h hb'
      rw [hpt] at h
      split_ifs at h with hcond
      · exact absurd (Option.some.inj h).symm hb'
      · exact hagree n b' h hb'
    · intro t ht
      rcases List.mem_append.mp ht with ht | ht
      · obtain ⟨n, c, h1, h2, h3, h4⟩ := htok t ht
        exact ⟨n, c, hkeep n h1, h2, h3, h4⟩
      · rw [List.mem_singleton.mp ht]
        exact ⟨i, b, hbi, hlinei, hb.1, rfl⟩
    · rw [List.pairwise_append]
      refine ⟨hpw, List.pairwise_singleton _ _, ?_⟩
      intro a ha t ht
      rw [List.mem_singleton.mp ht]
      obtain ⟨n, c, h1, h2, h3, h4⟩ := htok a ha
      have hni : n ≠ i := by
        intro h
        rw [h, hrowi] at h1
        exact hb.2 (by rw [Option.some.inj h1]; rfl)
      rw [h4]
      show RuneCountInString (ln.take n) + 1 ≠ RuneCountInString (ln.take i) + 1
      rcases Nat.lt_or_gt_of_ne hni with hlt | hgt
      · have := RuneCountInString_take_lt ln n i c h2 h3 hlt
        omega
      · have := RuneCountInString_take_lt ln i n b hlinei hb.1 hgt
        omega

theorem lex_lineInv (l : Lexer) (order : List TokenType) (ln : Str) (hline : ln ≠ [])
    (tokens : List Token) (h : lex l order ln = some tokens) :
    ∃ row, LineInv l ln row tokens := by
  unfold lex lexFuel at h
  cases hk : lexKinds l ln (ln.length + 1) order ln [] with
  | none => rw [hk] at h; simp at h
  | some out =>
    rw [hk] at h
    simp only [Option.map_some', Option.some.injEq] at h
    subst h
    exact ⟨out.1, lexKinds_induct l ln _ (LineInv l ln)
      (fun k v hv row tokens i j hP hf => lineInv_step l ln hline k v hv row tokens i j hP hf)
      order ln [] out (lineInv_init l ln) hk⟩

/-- What `lex` guarantees of the start positions on one line. -/
theorem lex_start_facts (l : Lexer) (order : List TokenType) (ln : Str) (hline : ln ≠ [])
    (tokens : List Token) (h : lex l order ln = some tokens) :
    (∀ t ∈ tokens, t.Loc.Start.Line = l.lineNumber + 1 ∧ 1 ≤ t.Loc.Start.Column ∧
      t.Loc.Start.Column ≤ RuneCountInString ln ∧
      t.Loc.Start.Offset + 1 = l.numberOfChar + t.Loc.Start.Column) ∧
    tokens.Pairwise (fun a b => a.Loc.Start.Column ≠ b.Loc.Start.Column) := by
  obtain ⟨row, _, _, htok, hpw⟩ := lex_lineInv l order ln hline tokens h
  refine ⟨?_, hpw⟩
  intro t ht
  obtain ⟨n, c, _, h2, h3, h4⟩ := htok t ht
  have := RuneCountInString_take_succ_le ln n c h2 h3
  rw [h4]
  refine ⟨rfl, ?_, ?_, ?_⟩ <;> simp only [newPosition] <;> omega

/-! ## Positions across lines -/

theorem lineStart_append (done more : List Str) (k : Nat) (hk : k ≤ done.length) :
    lineStart (done ++ more) k = lineStart done k := by
  unfold lineStart
  rw [List.take_append_of_le_length hk]

theorem lineStart_snoc (done : List Str) (text : Str) :
    lineStart (done ++ [text]) (done.length + 1) =
      lineStart done done.length + (RuneCountInString text + 1) := by
  unfold lineStart
  rw [List.take_of_length_le (by simp), List.take_of_length_le (le_refl _)]
  simp

theorem lineStart_mono (texts : List Str) : ∀ k k', k ≤ k' →
    lineStart texts k ≤ lineStart texts k' := by
  induction texts with
  | nil => intro k k' _; simp [lineStart]
  | cons t ts ih =>
    intro k k' h
    cases k with
    | zero => simp [lineStart]
    | succ k =>
      cases k' with
      | zero => omega
      | succ k' =>
        have := ih k k' (by omega)
        unfold lineStart at this ⊢
        simp only [List.take_succ_cons, List.map_cons, List.sum_cons]
        omega

theorem RuneCountInString_line (text : Str) :
    RuneCountInString (text ++ [newline]) = RuneCountInString text + 1 := by
  rw [RuneCountInString_append_ascii text [] newline (by decide)]
  rfl

theorem lexLines_docInv (orders : Nat → List TokenType) :
    ∀ (rest done : List Str) (l : Lexer) (tokens out : List Token),
      l.lineNumber = done.length → l.numberOfChar = lineStart done done.length →
      DocInv done tokens → lexLines orders l rest tokens = some out →
      DocInv (done ++ rest) out := by
  intro rest
  induction rest with
  | nil =>
    intro done l tokens out _ _ hinv h
    simp only [lexLines, Option.some.injEq] at h
    subst h
    simpa using hinv
  | cons text rest ih =>
    intro done l tokens out hln hnc hinv h
    simp only [lexLines] at h
    cases hlex : lex l (orders l.lineNumber) (text ++ [newline]) with
    | none => simp [hlex] at h
    | some ts =>
      simp only [hlex] at h
      obtain ⟨hfacts, hpw⟩ := lex_start_facts l (orders l.lineNumber) (text ++ [newline])
        (by simp) ts hlex
      rw [RuneCountInString_line] at hfacts
      have hstep : DocInv (done ++ [text]) (tokens ++ ts) := by
        obtain ⟨hold, hpwold⟩ := hinv
        have hsn := lineStart_snoc done text
        have hsame := lineStart_append done [text] done.length (le_refl _)
        constructor
        · intro t ht
          rcases List.mem_append.mp ht with ht | ht
          · obtain ⟨h1, h2, h3, h4, h5⟩ := hold t ht
            rw [lineStart_append done [text] _ (by omega),
              lineStart_append done [text] _ h2]
            refine ⟨h1, ?_, h3, h4, h5⟩
            simp only [List.length_append, List.length_singleton]
            omega
          · obtain ⟨h1, h2, h3, h4⟩ := hfacts t ht
            rw [h1, hln, Nat.add_sub_cancel, hsn, hsame]
            simp only [List.length_append, List.length_singleton]
            refine ⟨by omega, by omega, h2, by omega, by omega⟩
        · rw [List.pairwise_append]
          refine ⟨hpwold, hpw.imp (fun h => Or.inr h), ?_⟩
          intro a ha b hb
          left
          have := (hold a ha).2.1
          have := (hfacts b hb).1
          omega
      have := ih (done ++ [text])
        { lineNumber := l.lineNumber + 1,
          numberOfChar := l.numberOfChar + RuneCountInString (text ++ [newline]) }
        (tokens ++ ts) out (by simp [hln])
        (by
          show l.numberOfChar + RuneCountInString (text ++ [newline]) = _
          rw [RuneCountInString_line, hnc]
          have := lineStart_snoc done text
          simp only [List.length_append, List.length_singleton]
          omega)
        hstep h
      simpa using this

theorem docInv_perm (texts : List Str) (tokens tokens' : List Token) (hp : tokens'.Perm tokens)
    (h : DocInv texts tokens) : DocInv texts tokens' := by
  refine ⟨fun t ht => h.1 t (hp.mem_iff.mp ht), ?_⟩
  refine (hp.pairwise_iff ?_).mpr h.2
  intro a b hab
  rcases hab with h1 | h1
  · exact Or.inl (Ne.symm h1)
  · exact Or.inr (Ne.symm h1)

/-- The tokens `Lex` returns without an error satisfy the invariant for the
scanned lines and are sorted. -/
theorem Lex_docInv (orders : Nat → List TokenType) (input : Reader) (tokens : List Token)
    (h : Lex orders input = some (tokens, none)) :
    DocInv (scanTokens input.fail (atEOF input) (rawLines input.data)).1 tokens ∧ tokens.Sorted tokenLE := by
  obtain ⟨ts, hts, hL⟩ := Lex_eq orders input
  rw [hL] at h
  cases hs : (scanTokens input.fail (atEOF input) (rawLines input.data)).2 with
  | some e => simp [hs] at h
  | none =>
    simp only [hs, Option.some.injEq, Prod.mk.injEq, and_true] at h
    subst h
    have := lexLines_docInv orders _ [] { lineNumber := 0, numberOfChar := 0 } [] ts rfl rfl
      ⟨by simp, List.Pairwise.nil⟩ hts
    simp only [List.nil_append] at this
    exact ⟨docInv_perm _ _ _ (sortTokens_perm ts) this, sortTokens_sorted ts⟩

theorem Lex_error_tokens (orders : Nat → List TokenType) (input : Reader)
    (tokens : List Token) (e : ScanError) (h : Lex orders input = some (tokens, some e)) :
    tokens = [] := by
  obtain ⟨ts, _, hL⟩ := Lex_eq orders input
  rw [hL] at h
  cases hs : (scanTokens input.fail (atEOF input) (rawLines input.data)).2 with
  | some e' =>
    simp only [hs, Option.some.injEq, Prod.mk.injEq] at h
    exact h.1.symm
  | none => simp [hs] at h

/-! ## Iteration orders: the kinds that never match can be left out -/

theorem mem_allBlankings : ∀ (ln row : Str), row.length = ln.length →
    (∀ (n b : Nat), row[n]? = some b → b ≠ sentinel → ln[n]? = some b) →
    row ∈ allBlankings ln := by
  intro ln
  induction ln with
  | nil =>
    intro row hlen _
    have : row = [] := List.length_eq_zero.mp hlen
    simp [allBlankings, this]
  | cons c t ih =>
    intro row hlen hagree
    cases row with
    | nil => simp at hlen
    | cons r rs =>
      have hrs : rs ∈ allBlankings t := by
        apply ih rs (by simpa using hlen)
        intro n b hn hb
        have := hagree (n + 1) b (by simpa using hn) hb
        simpa using this
      simp only [allBlankings, List.mem_flatMap, List.mem_cons, List.cons.injEq,
        List.mem_singleton]
      refine ⟨rs, hrs, ?_⟩
      by_cases hr : r = sentinel
      · right; simp [hr]
      · left
        have := hagree 0 r (by simp) hr
        simp only [List.getElem?_cons_zero, Option.some.injEq] at this
        simp [this]

theorem tokenDefinition_mem (k : TokenType) (v : Regex) (h : TokenDefinition k = some v) :
    k ∈ tokenKinds := by
  cases k <;> first | decide | exact absurd h (by simp [TokenDefinition])

theorem lexKinds_filter (l : Lexer) (ln : Str) (hline : ln ≠ []) (rel : TokenType → Bool)
    (hidle : idleOn rel ln = true) (fuel : Nat) :
    ∀ order row tokens, LineInv l ln row tokens →
      lexKinds l ln (fuel + 1) order row tokens =
        lexKinds l ln (fuel + 1) (order.filter rel) row tokens := by
  intro order
  induction order with
  | nil => intro row tokens _; rfl
  | cons k ks ih =>
    intro row tokens hinv
    cases hv : TokenDefinition k with
    | none =>
      by_cases hr : rel k = true
      · simp only [List.filter_cons, hr, if_true, lexKinds, hv]
        exact ih row tokens hinv
      · simp only [List.filter_cons, hr, lexKinds, hv]
        exact ih row tokens hinv
    | some v =>
      by_cases hr : rel k = true
      · simp only [List.filter_cons, hr, if_true, lexKinds, hv]
        cases hs : scanKind l k v ln (fuel + 1) row tokens with
        | none => rfl
        | some out =>
          obtain ⟨row', tokens'⟩ := out
          have := (scanKind_induct l k v ln (LineInv l ln)
            (fun row tokens i j hP hf => lineInv_step l ln hline k v hv row tokens i j hP hf)
            (fuel + 1) row tokens _ hinv hs).1
          exact ih row' tokens' this
      · have hmem := mem_allBlankings ln row hinv.1 hinv.2.1
        have hk := tokenDefinition_mem k v hv
        simp only [idleOn, List.all_eq_true] at hidle
        have hnone := hidle row hmem k hk
        simp only [hv, Bool.or_eq_true, Option.isNone_iff_eq_none] at hnone
        have hnone' : v.FindStringIndex row = none := hnone.resolve_left hr
        have hf : rel k = false := by simpa using hr
        simp only [List.filter_cons, hf, lexKinds, hv,
          scanKind_succ_none l k v ln fuel row tokens hnone']
        exact ih row tokens hinv

theorem lex_filter (l : Lexer) (order : List TokenType) (ln : Str) (hline : ln ≠ [])
    (rel : TokenType → Bool) (hidle : idleOn rel ln = true) :
    lex l order ln = lex l (order.filter rel) ln := by
  unfold lex lexFuel
  rw [lexKinds_filter l ln hline rel hidle ln.length order ln [] (lineInv_init l ln)]

theorem lexLines_filter (orders : Nat → List TokenType) (rel : TokenType → Bool) :
    ∀ (texts : List Str) (l : Lexer) (tokens : List Token),
      (∀ text ∈ texts, idleOn rel (text ++ [newline]) = true) →
      lexLines orders l texts tokens =
        lexLines (fun k => (orders k).filter rel) l texts tokens := by
  intro texts
  induction texts with
  | nil => intro l tokens _; rfl
  | cons text rest ih =>
    intro l tokens h
    simp only [lexLines]
    rw [lex_filter l (orders l.lineNumber) (text ++ [newline]) (by simp) rel
      (h text (List.mem_cons_self _ _))]
    cases lex l ((orders l.lineNumber).filter rel) (text ++ [newline]) with
    | none => rfl
    | some ts => exact ih _ _ (fun t ht => h t (List.mem_cons_of_mem _ ht))

theorem Lex_filter (orders : Nat → List TokenType) (rel : TokenType → Bool) (input : Reader)
    (h : ∀ text ∈ scannedLines input, idleOn rel (text ++ [newline]) = true) :
    Lex orders input = Lex (fun k => (orders k).filter rel) input := by
  unfold Lex
  rw [lexLines_filter orders rel (scanTokens input.fail (atEOF input) (rawLines input.data)).1 _ _ h]

/-- The loop of `Lex` uses only the orders of the lines it scans. -/
theorem lexLines_congr (orders orders' : Nat → List TokenType) :
    ∀ (texts : List Str) (l : Lexer) (tokens : List Token),
      (∀ k, l.lineNumber ≤ k → k < l.lineNumber + texts.length → orders k = orders' k) →
      lexLines orders l texts tokens = lexLines orders' l texts tokens := by
  intro texts
  induction texts with
  | nil => intro l tokens _; rfl
  | cons text rest ih =>
    intro l tokens h
    simp only [lexLines]
    rw [h l.lineNumber (le_refl _) (by simp)]
    cases lex l (orders' l.lineNumber) (text ++ [newline]) with
    | none => rfl
    | some ts =>
      apply ih
      intro k hk1 hk2
      simp only [List.length_cons] at h
      exact h k (by simp only at hk1; omega) (by simp only at hk2; omega)

theorem Lex_congr (orders orders' : Nat → List TokenType) (input : Reader)
    (h : ∀ k, k < (scannedLines input).length → orders k = orders' k) :
    Lex orders input = Lex orders' input := by
  unfold Lex
  rw [lexLines_congr orders orders' (scanTokens input.fail (atEOF input) (rawLines input.data)).1 _ _
    (fun k _ hk => h k (by simpa [scannedLines] using hk))]

theorem mem_orderChoices (perms : List (List TokenType)) :
    ∀ (n : Nat) (ps : List (List TokenType)), ps.length = n → (∀ p ∈ ps, p ∈ perms) →
      ps ∈ orderChoices perms n := by
  intro n
  induction n with
  | zero =>
    intro ps hlen _
    simp [orderChoices, List.length_eq_zero.mp hlen]
  | succ n ih =>
    intro ps hlen hall
    cases ps with
    | nil => simp at hlen
    | cons p ps =>
      simp only [orderChoices, List.mem_flatMap, List.mem_map]
      exact ⟨p, hall p (List.mem_cons_self _ _), ps,
        ih ps (by simpa using hlen) (fun q hq => hall q (List.mem_cons_of_mem _ hq)), rfl⟩

/-- A property of the result of `Lex` holds for every choice of iteration orders
of the pattern table once it holds for every choice, for the lines of the
input, of an order of the kinds that can match at all on these lines. -/
theorem Lex_perm_cases (rel : TokenType → Bool) (input : Reader)
    (Q : Option (List Token × Option ScanError) → Prop)
    (hidle : ∀ text ∈ scannedLines input, idleOn rel (text ++ [newline]) = true)
    (hQ : ∀ ps ∈ orderChoices (tokenKinds.filter rel).permutations'
      (scannedLines input).length, Q (Lex (fun k => ps.getD k []) input))
    (orders : Nat → List TokenType) (hperm : ∀ k, (orders k).Perm tokenKinds) :
    Q (Lex orders input) := by
  rw [Lex_filter orders rel input hidle,
    Lex_congr _ (fun k => ((List.range (scannedLines input).length).map
      (fun k => (orders k).filter rel)).getD k []) input
      (by
        intro k hk
        simp [List.getD_eq_getElem?_getD, List.getElem?_map, List.getElem?_range hk])]
  apply hQ
  apply mem_orderChoices
  · simp
  · intro p hp
    obtain ⟨k, _, rfl⟩ := List.mem_map.mp hp
    exact List.mem_permutations'.mpr ((hperm k).filter _)

/-! ## The text of a token is a word of the pattern of its kind -/

theorem lex_token_matches (l : Lexer) (order : List TokenType) (ln : Str) (hline : ln ≠ [])
    (tokens : List Token) (h : lex l order ln = some tokens) :
    ∀ t ∈ tokens, ∃ v, TokenDefinition t.Kind = some v ∧ v.consumes = true ∧
      v.startsPlain = true ∧ v.Matches t.Value := by
  unfold lex lexFuel at h
  cases hk : lexKinds l ln (ln.length + 1) order ln [] with
  | none => rw [hk] at h; simp at h
  | some out =>
    rw [hk] at h
    simp only [Option.map_some', Option.some.injEq] at h
    subst h
    have := lexKinds_induct l ln _
      (fun row tokens => row.length = ln.length ∧
        ∀ t ∈ tokens, ∃ v, TokenDefinition t.Kind = some v ∧ v.consumes = true ∧
          v.startsPlain = true ∧ v.Matches t.Value)
      (by
        intro k v hv row tokens i j hP hf
        obtain ⟨hlen, htok⟩ := hP
        rcases tokenDefinition_cases k v hv with rfl | ⟨hc, hp⟩
        · have hne : row.length ≠ 0 := by
            rw [hlen]; exact fun h => hline (List.length_eq_zero.mp h)
          have := Regex.searchFrom_bot_eot row.length hne row 0
          unfold Regex.FindStringIndex at hf
          rw [this] at hf
          exact absurd hf (by simp)
        · obtain ⟨pre, b, w, rest, hrow, _, _, _, hm, hbl, hfs⟩ := find_step v hc hp row i j hf
          constructor
          · rw [hbl, ← hlen, hrow]
            simp
            omega
          · intro t ht
            rcases List.mem_append.mp ht with ht | ht
            · exact htok t ht
            · rw [List.mem_singleton.mp ht]
              refine ⟨v, hv, hc, hp, ?_⟩
              show v.Matches (v.FindString row)
              rw [hfs]
              exact hm)
      order ln [] out ⟨rfl, by simp⟩ hk
    exact this.2

theorem lexLines_mem (orders : Nat → List TokenType) :
    ∀ (texts : List Str) (l : Lexer) (tokens out : List Token),
      lexLines orders l texts tokens = some out →
      ∀ t ∈ out, t ∈ tokens ∨ ∃ l' text ts, text ∈ texts ∧
        lex l' (orders l'.lineNumber) (text ++ [newline]) = some ts ∧ t ∈ ts := by
  intro texts
  induction texts with
  | nil =>
    intro l tokens out h t ht
    simp only [lexLines, Option.some.injEq] at h
    subst h
    exact Or.inl ht
  | cons text rest ih =>
    intro l tokens out h t ht
    simp only [lexLines] at h
    cases hlex : lex l (orders l.lineNumber) (text ++ [newline]) with
    | none => simp [hlex] at h
    | some ts =>
      simp only [hlex] at h
      rcases ih _ _ out h t ht with h1 | ⟨l', text', ts', h2, h3, h4⟩
      · rcases List.mem_append.mp h1 with h1 | h1
        · exact Or.inl h1
        · exact Or.inr ⟨l, text, ts, List.mem_cons_self _ _, hlex, h1⟩
      · exact Or.inr ⟨l', text', ts', List.mem_cons_of_mem _ h2, h3, h4⟩

/-- Every token `Lex` returns was recorded by `lex` on one of the scanned lines. -/
theorem Lex_mem (orders : Nat → List TokenType) (input : Reader) (tokens : List Token)
    (err : Option ScanError) (h : Lex orders input = some (tokens, err)) :
    ∀ t ∈ tokens, ∃ l text ts, text ∈ (scanTokens input.fail (atEOF input) (rawLines input.data)).1 ∧
      lex l (orders l.lineNumber) (text ++ [newline]) = some ts ∧ t ∈ ts := by
  intro t ht
  obtain ⟨ts, hts, hL⟩ := Lex_eq orders input
  rw [hL] at h
  cases hs : (scanTokens input.fail (atEOF input) (rawLines input.data)).2 with
  | some e =>
    simp only [hs, Option.some.injEq, Prod.mk.injEq] at h
    rw [← h.1] at ht
    simp at ht
  | none =>
    simp only [hs, Option.some.injEq, Prod.mk.injEq] at h
    rw [← h.1] at ht
    have ht' : t ∈ ts := (sortTokens_perm ts).mem_iff.mp ht
    rcases lexLines_mem orders _ _ [] ts hts t ht' with h1 | h1
    · simp at h1
    · exact h1

/-- The text of every token `Lex` returns is a word of the pattern of its kind,
a pattern that matches no empty word. -/
theorem Lex_token_matches (orders : Nat → List TokenType) (input : Reader)
    (tokens : List Token) (err : Option ScanError)
    (h : Lex orders input = some (tokens, err)) :
    ∀ t ∈ tokens, ∃ v, TokenDefinition t.Kind = some v ∧ v.consumes = true ∧
      v.startsPlain = true ∧ v.Matches t.Value := by
  intro t ht
  obtain ⟨l, text, ts, _, hlex, hmem⟩ := Lex_mem orders input tokens err h t ht
  exact lex_token_matches l _ (text ++ [newline]) (by simp) ts hlex t hmem

/-! ## The words of the `NUMBER` pattern -/

namespace Regex

theorem matches_lit (c : Nat) (hc : c < 0x80) (w : Str) (h : Matches (lit c) w) : w = [c] := by
  obtain ⟨b, rfl, _, hin⟩ := matches_cls_ascii [(c, c)] w (by simpa using hc) h
  simp only [inRanges, List.any_cons, List.any_nil, Bool.or_false, Bool.and_eq_true,
    decide_eq_true_eq] at hin
  have : b = c := by omega
  rw [this]

theorem matches_digit (w : Str) (h : Matches digit w) : ∃ d, w = [d] ∧ isDigit d := by
  obtain ⟨b, rfl, _, hin⟩ := matches_cls_ascii [(0x30, 0x39)] w (by simp) h
  simp only [inRanges, List.any_cons, List.any_nil, Bool.or_false, Bool.and_eq_true,
    decide_eq_true_eq] at hin
  exact ⟨b, rfl, hin⟩

theorem matches_star_digit (g : Bool) (w : Str) (h : Matches (star g digit) w) :
    ∀ x ∈ w, isDigit x := by
  change Repeat (Matches digit) w at h
  induction h with
  | nil => simp
  | cons u v hu _ ih =>
    obtain ⟨d, rfl, hd⟩ := matches_digit u hu
    intro x hx
    rcases List.mem_append.mp hx with hx | hx
    · rw [List.mem_singleton.mp hx]; exact hd
    · exact ih x hx

theorem matches_plus_digit (w : Str) (h : Matches (plus digit) w) :
    w ≠ [] ∧ ∀ x ∈ w, isDigit x := by
  obtain ⟨u, v, rfl, hu, hv⟩ := h
  obtain ⟨d, rfl, hd⟩ := matches_digit u hu
  refine ⟨by simp, ?_⟩
  intro x hx
  rcases List.mem_append.mp hx with hx | hx
  · rw [List.mem_singleton.mp hx]; exact hd
  · exact matches_star_digit true v hv x hx

end Regex

theorem numberPattern_matches (w : Str) (h : numberPattern.Matches w) : NumberWord w := by
  obtain ⟨sign, r1, rfl, hsign, whole, r2, rfl, hwhole, frac, expo, rfl, hfrac, hexpo⟩ := h
  refine ⟨sign, whole, frac, expo, by simp [List.append_assoc], ?_, ?_, ?_, ?_⟩
  · rcases hsign with hs | hs
    · exact Or.inr (Regex.matches_lit 0x2D (by decide) sign hs)
    · exact Or.inl hs
  · rcases hwhole with hz | ⟨d, ds, rfl, hd, hds⟩
    · exact Or.inl (Regex.matches_lit 0x30 (by decide) whole hz)
    · right
      obtain ⟨b, rfl, _, hin⟩ := Regex.matches_cls_ascii [(0x31, 0x39)] d (by simp) hd
      simp only [Regex.inRanges, List.any_cons, List.any_nil, Bool.or_false, Bool.and_eq_true,
        decide_eq_true_eq] at hin
      exact ⟨b, ds, rfl, hin.1, hin.2, Regex.matches_star_digit true ds hds⟩
  · rcases hfrac with ⟨p, ds, rfl, hp, hds⟩ | hf
    · right
      rw [Regex.matches_lit 0x2E (by decide) p hp]
      obtain ⟨hne, hall⟩ := Regex.matches_plus_digit ds hds
      exact ⟨ds, rfl, hne, hall⟩
    · exact Or.inl hf
  · rcases hexpo with ⟨e, r3, rfl, he, s, ds, rfl, hs, hds⟩ | hx
    · right
      rw [Regex.matches_lit 0x65 (by decide) e he]
      obtain ⟨b, rfl, _, hin⟩ := Regex.matches_cls_ascii [(0x2D, 0x2D), (0x2B, 0x2B)] s
        (by simp) hs
      simp only [Regex.inRanges, List.any_cons, List.any_nil, Bool.or_false, Bool.and_eq_true,
        decide_eq_true_eq, Bool.or_eq_true] at hin
      obtain ⟨hne, hall⟩ := Regex.matches_plus_digit ds hds
      exact ⟨b, ds, rfl, by omega, hne, hall⟩
    · exact Or.inl hx

theorem not_numberWord_leading_zero (d : Nat) (rest : Str) (hd : isDigit d) :
    ¬ NumberWord (0x30 :: d :: rest) := by
  rintro ⟨sign, whole, frac, expo, hw, hsign, hwhole, hfrac, hexpo⟩
  unfold isDigit at hd
  rcases hsign with rfl | rfl
  · rcases hwhole with rfl | ⟨d', ds, rfl, h1, _, _⟩
    · rcases hfrac with rfl | ⟨ds, rfl, _, _⟩
      · rcases hexpo with rfl | ⟨s, ds, rfl, _, _, _⟩
        · simp at hw
        · simp at hw
          omega
      · simp at hw
        omega
    · simp at hw
      omega
  · simp at hw

/-! ## The `STRING` pattern on a literal -/

namespace Regex

/-- The end of the `STRING` pattern: `[^\\]"`. -/
theorem stringPattern_eq :
    stringPattern = cat (lit 0x22) (cat (star false dot) (cat (cls true [(0x5C, 0x5C)]) (lit 0x22))) :=
  rfl

theorem ends_lit_cons (total c : Nat) (hc : c < 0x80) (s : Str) :
    ends total (lit c) (c :: s) = [s] := by
  simp [ends, lit, decode_ascii c s hc, classTest, inRanges]

theorem ends_lit_ne (total c : Nat) (hc : c < 0x80) (s : Str) (h : s.head? ≠ some c) :
    ends total (lit c) s = [] := by
  cases s with
  | nil => simp [ends, lit]
  | cons b t =>
    simp only [ends, lit]
    rw [if_neg]
    intro hcl
    simp only [classTest, Bool.false_eq_true, if_false, inRanges, List.any_cons, List.any_nil,
      Bool.or_false, Bool.and_eq_true, decide_eq_true_eq] at hcl
    have hr : (DecodeRuneInString (b :: t)).1 = c := by omega
    have hb := decode_rune_ascii b t (by omega)
    rw [decode_ascii b t hb] at hr
    simp only at hr
    exact h (by simp [hr])

end Regex

namespace Regex

theorem ends_cat (total : Nat) (a b : Regex) (s : Str) :
    ends total (cat a b) s = (ends total a s).flatMap (fun s' => ends total b s') := rfl

theorem ends_cls_cons (total : Nat) (neg : Bool) (ranges : List (Nat × Nat)) (b : Nat)
    (t : Str) :
    ends total (cls neg ranges) (b :: t) =
      if classTest neg ranges (DecodeRuneInString (b :: t)).1 then
        [(b :: t).drop (DecodeRuneInString (b :: t)).2]
      else [] := rfl

theorem classTest_not (c r : Nat) : classTest true [(c, c)] r = true ↔ r ≠ c := by
  simp only [classTest, if_true, inRanges, List.any_cons, List.any_nil, Bool.or_false,
    Bool.not_eq_true', Bool.and_eq_false_iff, decide_eq_false_iff_not]
  omega

/-- The first rune of the content lies within the content. -/
theorem stringBody_decode (b : Nat) (body' post : Str) :
    DecodeRuneInString (b :: body' ++ 0x22 :: post) = DecodeRuneInString (b :: body') ∧
      1 ≤ (DecodeRuneInString (b :: body')).2 ∧
      (DecodeRuneInString (b :: body')).2 ≤ (b :: body').length :=
  ⟨decode_append_ascii b body' post 0x22 (by decide), decode_width_pos b body',
    decode_width_le b body'⟩

theorem stringBody_rune_ne (b : Nat) (body' : Str) (c : Nat) (hc : c < 0x80)
    (h : (DecodeRuneInString (b :: body')).1 = c) :
    b = c ∧ (DecodeRuneInString (b :: body')).2 = 1 := by
  have hb := decode_rune_ascii b body' (by omega)
  rw [decode_ascii b body' hb] at h ⊢
  exact ⟨h, rfl⟩

theorem stringBody_drop (body : Str) (w : Nat) (hw : w < body.length) (h : StringBody body) :
    StringBody (body.drop w) := by
  obtain ⟨_, hlast, hnl, hq⟩ := h
  have hne : body.drop w ≠ [] := by
    intro h0
    have := congrArg List.length h0
    simp at this
    omega
  refine ⟨hne, ?_, ?_, ?_⟩
  · rw [List.getLast?_drop, if_neg (by omega)]
    exact hlast
  · intro hmem
    exact hnl (List.mem_of_mem_drop hmem)
  · intro u v huv
    have hbody : body = (body.take w ++ u) ++ 0x22 :: v := by
      rw [List.append_assoc, ← huv, List.take_append_drop]
    rcases hq _ _ hbody with h0 | h1
    · left
      simp only [List.append_eq_nil] at h0
      exact h0.2
    · by_cases hu : u = []
      · exact Or.inl hu
      · right
        rw [List.getLast?_append_of_ne_nil _ hu] at h1
        exact h1

/-- On a content of one rune the rest of the pattern matches up to the closing
quote. -/
theorem ends_tail_one (total : Nat) (b : Nat) (body' post : Str) (h : StringBody (b :: body'))
    (hw : (DecodeRuneInString (b :: body')).2 = (b :: body').length) :
    ends total (cat (cls true [(0x5C, 0x5C)]) (lit 0x22)) (b :: body' ++ 0x22 :: post) =
      [post] := by
  obtain ⟨hd, _, _⟩ := stringBody_decode b body' post
  have hne : (DecodeRuneInString (b :: body')).1 ≠ 0x5C := by
    intro h5
    obtain ⟨hb, h1⟩ := stringBody_rune_ne b body' 0x5C (by decide) h5
    rw [h1] at hw
    have hl : (b :: body').length = 1 := hw.symm
    simp only [List.length_cons] at hl
    have : body' = [] := List.length_eq_zero.mp (by omega)
    subst this
    exact h.2.1 (by simp [hb])
  have hdrop : (b :: body' ++ 0x22 :: post).drop (DecodeRuneInString (b :: body')).2 =
      0x22 :: post := by
    rw [hw]
    exact List.drop_left' rfl
  simp only [List.cons_append] at hd hdrop ⊢
  rw [ends_cat, ends_cls_cons, hd, if_pos ((classTest_not 0x5C _).mpr hne), hdrop]
  simp only [List.flatMap_cons, List.flatMap_nil, List.append_nil]
  exact ends_lit_cons total 0x22 (by decide) post

/-- On a longer content the rest of the pattern does not match yet. -/
theorem ends_tail_more (total : Nat) (b : Nat) (body' post : Str) (h : StringBody (b :: body'))
    (hw : (DecodeRuneInString (b :: body')).2 < (b :: body').length) :
    ends total (cat (cls true [(0x5C, 0x5C)]) (lit 0x22)) (b :: body' ++ 0x22 :: post) = [] := by
  obtain ⟨hd, hpos, _⟩ := stringBody_decode b body' post
  have hdrop : (b :: body' ++ 0x22 :: post).drop (DecodeRuneInString (b :: body')).2 =
      (b :: body').drop (DecodeRuneInString (b :: body')).2 ++ 0x22 :: post :=
    List.drop_append_of_le_length (le_of_lt hw)
  simp only [List.cons_append] at hd ⊢
  rw [ends_cat, ends_cls_cons, hd]
  split_ifs with hcl
  · have := hdrop
    simp only [List.cons_append] at this
    rw [this]
    simp only [List.flatMap_cons, List.flatMap_nil, List.append_nil]
    apply ends_lit_ne total 0x22 (by decide)
    intro hhead
    obtain ⟨v, hv⟩ : ∃ v, (b :: body').drop (DecodeRuneInString (b :: body')).2 = 0x22 :: v := by
      cases hdr : (b :: body').drop (DecodeRuneInString (b :: body')).2 with
      | nil =>
        have := congrArg List.length hdr
        simp only [List.length_drop, List.length_nil] at this
        omega
      | cons x v =>
        rw [hdr] at hhead
        simp only [List.cons_append, List.head?_cons, Option.some.injEq] at hhead
        exact ⟨v, by rw [hhead]⟩
    have hsplit : b :: body' =
        (b :: body').take (DecodeRuneInString (b :: body')).2 ++ 0x22 :: v := by
      rw [← hv, List.take_append_drop]
    obtain ⟨w', hw'⟩ : ∃ w', (DecodeRuneInString (b :: body')).2 = w' + 1 :=
      ⟨(DecodeRuneInString (b :: body')).2 - 1, by omega⟩
    rcases h.2.2.2 _ _ hsplit with h0 | h1
    · rw [hw'] at h0
      simp at h0
    · have hr := (classTest_not 0x5C _).mp hcl
      rw [hw', List.take_succ_cons] at h1
      by_cases hnil : body'.take w' = []
      · rw [hnil] at h1
        simp only [List.getLast?_singleton, Option.some.injEq] at h1
        have hb : b < 0x80 := by omega
        rw [decode_ascii b body' hb] at hr
        exact hr h1
      · obtain ⟨x, xs, hx⟩ := List.exists_cons_of_ne_nil hnil
        rw [hx, List.getLast?_cons_cons, ← hx] at h1
        have hmem := List.mem_of_getLast?_eq_some h1
        have := decode_cont_bytes b body' 0x5C (by
          rw [hw', Nat.add_sub_cancel]
          exact hmem)
        omega
  · rfl

/-- Away from the end of the content `.` steps over one rune. -/
theorem ends_dot_body (total : Nat) (b : Nat) (body' post : Str) (h : StringBody (b :: body'))
    (hw : (DecodeRuneInString (b :: body')).2 < (b :: body').length) :
    ends total dot (b :: body' ++ 0x22 :: post) =
      [(b :: body').drop (DecodeRuneInString (b :: body')).2 ++ 0x22 :: post] := by
  obtain ⟨hd, _, _⟩ := stringBody_decode b body' post
  have hne : (DecodeRuneInString (b :: body')).1 ≠ 0x0A := by
    intro h5
    obtain ⟨hb, _⟩ := stringBody_rune_ne b body' 0x0A (by decide) h5
    exact h.2.2.1 (by rw [hb]; exact List.mem_cons_self _ _)
  have hdrop : (b :: body' ++ 0x22 :: post).drop (DecodeRuneInString (b :: body')).2 =
      (b :: body').drop (DecodeRuneInString (b :: body')).2 ++ 0x22 :: post :=
    List.drop_append_of_le_length (le_of_lt hw)
  simp only [dot, List.cons_append] at hd hdrop ⊢
  rw [ends_cls_cons, hd, if_pos ((classTest_not 0x0A _).mpr hne), hdrop]

end Regex

namespace Regex

/-- The lazy `.*?` followed by `[^\\]"` stops at the closing quote of the
literal. -/
theorem lazy_body_head (total : Nat) (post : Str) :
    ∀ (n : Nat) (body : Str), body.length ≤ n → StringBody body →
      ((starEnds false (fun s' => ends total dot s') n (body ++ 0x22 :: post)).flatMap
        (fun s' => ends total (cat (cls true [(0x5C, 0x5C)]) (lit 0x22)) s')).head? =
        some post := by
  intro n
  induction n with
  | zero =>
    intro body hlen h
    exact absurd (List.length_eq_zero.mp (Nat.le_zero.mp hlen)) h.1
  | succ n ih =>
    intro body hlen h
    cases body with
    | nil => exact absurd rfl h.1
    | cons b body' =>
      obtain ⟨_, hpos, hle⟩ := stringBody_decode b body' post
      simp only [starEnds, Bool.false_eq_true, if_false, List.flatMap_cons]
      rcases Nat.lt_or_ge (DecodeRuneInString (b :: body')).2 (b :: body').length with hw | hw
      · rw [ends_tail_more total b body' post h hw, ends_dot_body total b body' post h hw]
        have hfilter : List.filter (fun s' : Str =>
            decide (s'.length < (b :: body' ++ 0x22 :: post).length))
            [(b :: body').drop (DecodeRuneInString (b :: body')).2 ++ 0x22 :: post] =
            [(b :: body').drop (DecodeRuneInString (b :: body')).2 ++ 0x22 :: post] := by
          rw [List.filter_cons_of_pos, List.filter_nil]
          simp only [List.length_append, List.length_drop, List.length_cons, decide_eq_true_eq]
          simp only [List.length_cons] at hw
          omega
        rw [hfilter]
        simp only [List.flatMap_cons, List.flatMap_nil, List.append_nil, List.nil_append]
        apply ih _ _ (stringBody_drop (b :: body') _ hw h)
        simp only [List.length_drop]
        simp only [List.length_cons] at hlen ⊢
        omega
      · rw [ends_tail_one total b body' post h (le_antisymm hle hw)]
        rfl

theorem ends_stringPattern_ne (total : Nat) (s : Str) (h : s.head? ≠ some 0x22) :
    ends total stringPattern s = [] := by
  rw [stringPattern_eq, ends_cat, ends_lit_ne total 0x22 (by decide) s h]
  rfl

theorem searchFrom_literal (total : Nat) (body post : Str) (h : StringBody body) :
    searchFrom stringPattern total 0 (0x22 :: (body ++ 0x22 :: post)) =
      some (total - (0x22 :: (body ++ 0x22 :: post)).length, total - post.length) := by
  have hhead := lazy_body_head total post (body ++ 0x22 :: post).length body (by simp) h
  have hends : (ends total stringPattern (0x22 :: (body ++ 0x22 :: post))).head? = some post := by
    rw [stringPattern_eq, ends_cat, ends_lit_cons _ 0x22 (by decide)]
    simp only [List.flatMap_cons, List.flatMap_nil, List.append_nil]
    exact hhead
  simp only [searchFrom, hends]

theorem searchFrom_succ_cons (re : Regex) (total k b : Nat) (t : Str) :
    searchFrom re total (k + 1) (b :: t) = searchFrom re total k t := rfl

theorem searchFrom_zero_cons (re : Regex) (total b : Nat) (t : Str)
    (h : ends total re (b :: t) = []) :
    searchFrom re total 0 (b :: t) =
      searchFrom re total ((DecodeRuneInString (b :: t)).2 - 1) t := by
  simp only [searchFrom, h, List.head?_nil]

/-- The search steps over text that holds no double quote. -/
theorem searchFrom_skip (total : Nat) (s0 : Str) :
    ∀ (pre : Str) (k : Nat), k ≤ pre.length → 0x22 ∉ pre →
      searchFrom stringPattern total k (pre ++ 0x22 :: s0) =
        searchFrom stringPattern total 0 (0x22 :: s0) := by
  intro pre
  induction pre with
  | nil =>
    intro k hk _
    have : k = 0 := by simpa using hk
    subst this
    rfl
  | cons b pre' ih =>
    intro k hk hq
    have hq' : 0x22 ∉ pre' := fun h => hq (List.mem_cons_of_mem _ h)
    cases k with
    | succ k =>
      rw [List.cons_append, searchFrom_succ_cons]
      exact ih k (by simpa using hk) hq'
    | zero =>
      have hb : (b :: pre' ++ 0x22 :: s0).head? ≠ some 0x22 := by
        simp only [List.cons_append, List.head?_cons, ne_eq, Option.some.injEq]
        intro h
        exact hq (by rw [h]; exact List.mem_cons_self _ _)
      have hd := decode_append_ascii b pre' s0 0x22 (by decide)
      have hw := decode_width_le b pre'
      simp only [List.cons_append] at hb ⊢
      rw [searchFrom_zero_cons _ _ _ _ (ends_stringPattern_ne total _ hb), hd]
      simp only [List.length_cons] at hw
      exact ih _ (by omega) hq'

/-- The `STRING` pattern matches from the leftmost double quote of the line to
the closing quote of a literal whose content is a `StringBody`. -/
theorem FindStringIndex_literal (pre body post : Str) (hpre : 0x22 ∉ pre)
    (h : StringBody body) :
    FindStringIndex stringPattern (pre ++ 0x22 :: (body ++ 0x22 :: post)) =
      some (pre.length, pre.length + (body.length + 2)) := by
  unfold FindStringIndex
  rw [searchFrom_skip _ _ pre 0 (Nat.zero_le _) hpre, searchFrom_literal _ body post h]
  simp only [List.length_append, List.length_cons, Option.some.injEq, Prod.mk.injEq]
  omega

/-- A word of the `STRING` pattern begins with a double quote. -/
theorem stringPattern_matches_head (w : Str) (h : Matches stringPattern w) :
    ∃ t, w = 0x22 :: t := by
  obtain ⟨u, v, rfl, hu, _⟩ := h
  rw [matches_lit 0x22 (by decide) u hu]
  exact ⟨v, rfl⟩

theorem FindStringIndex_no_quote (row : Str) (h : 0x22 ∉ row) :
    FindStringIndex stringPattern row = none := by
  cases hf : FindStringIndex stringPattern row with
  | none => rfl
  | some loc =>
    obtain ⟨i, j⟩ := loc
    obtain ⟨pre, w, rest, hrow, _, _, _, hm⟩ := FindStringIndex_some stringPattern row i j hf
    obtain ⟨t, rfl⟩ := stringPattern_matches_head w hm
    exact absurd (by rw [hrow]; simp) h

end Regex

/-! ## The kinds of the tokens a scan records -/

theorem scanKind_kinds (l : Lexer) (k : TokenType) (v : Regex) (ln : Str) (fuel : Nat)
    (row : Str) (tokens : List Token) (out : Str × List Token)
    (h : scanKind l k v ln fuel row tokens = some out) :
    ∃ new, out.2 = tokens ++ new ∧ ∀ t ∈ new, t.Kind = k := by
  refine (scanKind_induct l k v ln
    (fun _ toks => ∃ new, toks = tokens ++ new ∧ ∀ t ∈ new, t.Kind = k) ?_
    fuel row tokens out ⟨[], by simp, by simp⟩ h).1
  rintro row' toks i j ⟨new, rfl, hnew⟩ _
  refine ⟨new ++ [matchToken l k v ln row' i j], by simp, ?_⟩
  intro t ht
  rcases List.mem_append.mp ht with ht | ht
  · exact hnew t ht
  · rw [List.mem_singleton.mp ht]
    rfl

theorem lexKinds_kinds (l : Lexer) (ln : Str) (fuel : Nat) :
    ∀ (order : List TokenType) (row : Str) (tokens : List Token) (out : Str × List Token),
      lexKinds l ln fuel order row tokens = some out →
      ∃ new, out.2 = tokens ++ new ∧ ∀ t ∈ new, t.Kind ∈ order := by
  intro order
  induction order with
  | nil =>
    intro row tokens out h
    simp only [lexKinds, Option.some.injEq] at h
    subst h
    exact ⟨[], by simp, by simp⟩
  | cons k ks ih =>
    intro row tokens out h
    simp only [lexKinds] at h
    cases hv : TokenDefinition k with
    | none =>
      rw [hv] at h
      obtain ⟨new, h1, h2⟩ := ih row tokens out h
      exact ⟨new, h1, fun t ht => List.mem_cons_of_mem _ (h2 t ht)⟩
    | some v =>
      rw [hv] at h
      cases hs : scanKind l k v ln fuel row tokens with
      | none => simp [hs] at h
      | some mid =>
        obtain ⟨row', tokens'⟩ := mid
        simp only [hs] at h
        obtain ⟨new1, h1, h2⟩ := scanKind_kinds l k v ln fuel row tokens _ hs
        obtain ⟨new2, h3, h4⟩ := ih row' tokens' out h
        simp only at h1
        refine ⟨new1 ++ new2, by rw [h3, h1, List.append_assoc], ?_⟩
        intro t ht
        rcases List.mem_append.mp ht with ht | ht
        · rw [h2 t ht]; exact List.mem_cons_self _ _
        · exact List.mem_cons_of_mem _ (h4 t ht)

/-! ## Input of one line -/

theorem rawLines_single : ∀ (s : Str), s ≠ [] → newline ∉ s → rawLines s = [s] := by
  intro s
  induction s with
  | nil => intro h; exact absurd rfl h
  | cons b t ih =>
    intro _ hnl
    have hb : b ≠ newline := fun h => hnl (by rw [h]; exact List.mem_cons_self _ _)
    have ht : newline ∉ t := fun h => hnl (List.mem_cons_of_mem _ h)
    simp only [rawLines, if_neg hb]
    cases t with
    | nil => rfl
    | cons c t' => rw [ih (by simp) ht]

theorem scanTokens_single (s : Str) (h1 : s ≠ []) (h2 : newline ∉ s)
    (h3 : s.length < MaxScanTokenSize) (h4 : s.getLast? ≠ some carriageReturn)
    (final : Bool) :
    scanTokens none final (rawLines s) = ([s], none) := by
  rw [rawLines_single s h1 h2]
  have h5 : ¬ (MaxScanTokenSize ≤ s.length ∧
      ¬ (s.length = MaxScanTokenSize ∧ ([] : List Str) = [] ∧ final = true)) :=
    fun h => absurd h.1 (not_le.mpr h3)
  rw [scanTokens, if_neg h5]
  simp only [scanTokens, dropCR, if_neg h4, Option.map_none']

/-! ## The scan of a line that is one string literal -/

theorem lex_literal (l : Lexer) (order : List TokenType) (body : Str) (hbody : StringBody body)
    (horder : STRING ∉ order) :
    ∃ ts, lex l (STRING :: order) ((0x22 :: (body ++ [0x22])) ++ [newline]) = some ts ∧
      ts.filter (fun t => decide (t.Kind = STRING)) =
        [newToken STRING (0x22 :: (body ++ [0x22]))
          (newPosition (l.lineNumber + 1) 1 l.numberOfChar)
          (newPosition (l.lineNumber + 1) (RuneCountInString (0x22 :: (body ++ [0x22])))
            (l.numberOfChar + RuneCountInString (0x22 :: (body ++ [0x22]))))] := by
  generalize hlit : 0x22 :: (body ++ [0x22]) = lit
  have hlen : lit.length = body.length + 2 := by rw [← hlit]; simp
  have hfind : stringPattern.FindStringIndex (lit ++ [newline]) = some (0, lit.length) := by
    have := Regex.FindStringIndex_literal [] body [newline] (by simp) hbody
    rw [hlen, ← hlit]
    simpa using this
  have hfind' : stringPattern.FindStringIndex ([] ++ (lit ++ [newline])) =
      some (([] : Str).length, ([] : Str).length + lit.length) := by
    simpa using hfind
  have hvalue : stringPattern.FindString (lit ++ [newline]) = lit := by
    have := Regex.FindString_eq stringPattern [] lit [newline] hfind'
    simpa using this
  have hblank : blank (lit ++ [newline]) 0 lit.length =
      List.replicate lit.length sentinel ++ [newline] := by
    have := blank_eq [] lit [newline]
    simpa using this
  have hnone : stringPattern.FindStringIndex (List.replicate lit.length sentinel ++ [newline]) =
      none := by
    apply Regex.FindStringIndex_no_quote
    simp [List.mem_replicate, sentinel, newline]
  have htok : matchToken l STRING stringPattern (lit ++ [newline]) (lit ++ [newline]) 0
      lit.length =
      newToken STRING lit (newPosition (l.lineNumber + 1) 1 l.numberOfChar)
        (newPosition (l.lineNumber + 1) (RuneCountInString lit)
          (l.numberOfChar + RuneCountInString lit)) := by
    simp only [matchToken, hvalue, List.take_zero, List.take_left' rfl]
    rfl
  have hscan : scanKind l STRING stringPattern (lit ++ [newline])
      ((lit ++ [newline]).length + 1) (lit ++ [newline]) [] =
      some (List.replicate lit.length sentinel ++ [newline],
        [newToken STRING lit (newPosition (l.lineNumber + 1) 1 l.numberOfChar)
          (newPosition (l.lineNumber + 1) (RuneCountInString lit)
            (l.numberOfChar + RuneCountInString lit))]) := by
    have hf : (lit ++ [newline]).length = lit.length + 1 := by simp
    rw [scanKind_succ_some l STRING stringPattern _ _ _ _ 0 lit.length hfind, hf,
      hblank, scanKind_succ_none l STRING stringPattern _ _ _ _ hnone, htok]
    rfl
  obtain ⟨out, ho⟩ := lexKinds_isSome l (lit ++ [newline]) ((lit ++ [newline]).length + 1) order
    (List.replicate lit.length sentinel ++ [newline])
    [newToken STRING lit (newPosition (l.lineNumber + 1) 1 l.numberOfChar)
      (newPosition (l.lineNumber + 1) (RuneCountInString lit)
        (l.numberOfChar + RuneCountInString lit))]
    (by simp) (by simp)
  obtain ⟨new, hnew, hkinds⟩ := lexKinds_kinds l _ _ order _ _ out ho
  refine ⟨out.2, ?_, ?_⟩
  · have hdef : TokenDefinition STRING = some stringPattern := rfl
    simp only [lex, lexFuel, lexKinds, hdef, hscan, ho, Option.map_some']
  · rw [hnew, List.filter_append]
    have h1 : List.filter (fun t : Token => decide (t.Kind = STRING)) new = [] := by
      rw [List.filter_eq_nil_iff]
      intro t ht
      have := hkinds t ht
      simp only [decide_eq_true_eq]
      intro hk
      rw [hk] at this
      exact horder this
    rw [h1]
    rfl

theorem Lex_literal (orders : Nat → List TokenType) (order : List TokenType) (body : Str)
    (hbody : StringBody body) (hlen : body.length + 2 < MaxScanTokenSize)
    (hfirst : orders 0 = STRING :: order) (horder : STRING ∉ order) :
    ∃ tokens, Lex orders { data := 0x22 :: (body ++ [0x22]), fail := none } =
        some (tokens, none) ∧
      tokens.filter (fun t => decide (t.Kind = STRING)) =
        [newToken STRING (0x22 :: (body ++ [0x22])) (newPosition 1 1 0)
          (newPosition 1 (RuneCountInString (0x22 :: (body ++ [0x22])))
            (RuneCountInString (0x22 :: (body ++ [0x22]))))] := by
  obtain ⟨ts, hts, hfilter⟩ := lex_literal { lineNumber := 0, numberOfChar := 0 } order body
    hbody horder
  have hscan : ∀ final, scanTokens none final (rawLines (0x22 :: (body ++ [0x22]))) =
      ([0x22 :: (body ++ [0x22])], none) := by
    intro final
    refine scanTokens_single _ ?_ ?_ ?_ ?_ final
    · simp
    · have := hbody.2.2.1
      simp only [List.mem_cons, List.mem_append, List.mem_singleton, not_or]
      exact ⟨by decide, this, by decide⟩
    · simpa using hlen
    · rw [← List.cons_append, List.getLast?_append_of_ne_nil _ (by simp)]
      simp [carriageReturn]
  refine ⟨sortTokens ts, ?_, ?_⟩
  · simp only [Lex, hscan, lexLines, hfirst, hts, List.nil_append]
  · have hperm := (sortTokens_perm ts).filter (fun t => decide (t.Kind = STRING))
    rw [hfilter] at hperm
    simpa using List.perm_singleton.mp hperm

/-! ## The fuel of the scan loop -/

/-- More fuel does not change the result of an inner loop that has ended. -/
theorem scanKind_fuel_mono (l : Lexer) (k : TokenType) (v : Regex) (ln : Str) (n : Nat) :
    ∀ (fuel : Nat) (row : Str) (tokens : List Token) (out : Str × List Token),
      scanKind l k v ln fuel row tokens = some out →
      scanKind l k v ln (fuel + n) row tokens = some out := by
  intro fuel
  induction fuel with
  | zero => intro row tokens out h; simp [scanKind] at h
  | succ fuel ih =>
    intro row tokens out h
    have hf : fuel + 1 + n = (fuel + n) + 1 := by omega
    rw [hf]
    cases hfind : v.FindStringIndex row with
    | none =>
      rw [scanKind_succ_none l k v ln fuel row tokens hfind] at h
      rw [scanKind_succ_none l k v ln (fuel + n) row tokens hfind]
      exact h
    | some loc =>
      obtain ⟨i, j⟩ := loc
      rw [scanKind_succ_some l k v ln fuel row tokens i j hfind] at h
      rw [scanKind_succ_some l k v ln (fuel + n) row tokens i j hfind]
      exact ih _ _ out h

/-- On an empty working copy the `EOF` pattern matches the empty span, the
blanking changes nothing, and the inner loop never ends. -/
theorem scanKind_empty_row (l : Lexer) (k : TokenType) (ln : Str) :
    ∀ (fuel : Nat) (tokens : List Token),
      scanKind l k (Regex.cat Regex.bot Regex.eot) ln fuel [] tokens = none := by
  intro fuel
  induction fuel with
  | zero => intro tokens; rfl
  | succ fuel ih =>
    intro tokens
    have hfind : (Regex.cat Regex.bot Regex.eot).FindStringIndex [] = some (0, 0) := by decide
    rw [scanKind_succ_some l k _ ln fuel [] tokens 0 0 hfind]
    exact ih _

/-! ## No ties in the sort -/

theorem compareTokens_eq_zero (a b : Token) :
    compareTokens a b = 0 ↔
      a.Loc.Start.Line = b.Loc.Start.Line ∧ a.Loc.Start.Column = b.Loc.Start.Column := by
  unfold compareTokens
  split_ifs with h <;> omega

/-- A list in which no two tokens have the same start line and column has only
one sorted arrangement. -/
theorem sorted_unique (collected : List Token)
    (hpw : collected.Pairwise (fun a b => a.Loc.Start.Line ≠ b.Loc.Start.Line ∨
      a.Loc.Start.Column ≠ b.Loc.Start.Column))
    (l₁ l₂ : List Token) (h₁ : l₁.Perm collected) (h₂ : l₂.Perm collected)
    (s₁ : l₁.Sorted tokenLE) (s₂ : l₂.Sorted tokenLE) : l₁ = l₂ := by
  have hsymm : Symmetric (fun a b : Token => a.Loc.Start.Line ≠ b.Loc.Start.Line ∨
      a.Loc.Start.Column ≠ b.Loc.Start.Column) := by
    intro a b hab
    rcases hab with h | h
    · exact Or.inl (Ne.symm h)
    · exact Or.inr (Ne.symm h)
  have hanti : IsAntisymm Token (fun a b => tokenLE a b ∧ a ∈ collected ∧ b ∈ collected) := by
    refine ⟨?_⟩
    rintro a b ⟨hab, ha, hb⟩ ⟨hba, _, _⟩
    by_contra hne
    have := hpw.forall hsymm ha hb hne
    rw [tokenLE_iff] at hab hba
    omega
  have hs : ∀ l : List Token, l.Perm collected → l.Sorted tokenLE →
      l.Sorted (fun a b => tokenLE a b ∧ a ∈ collected ∧ b ∈ collected) := by
    intro l hp hsorted
    exact List.Pairwise.imp_of_mem
      (fun ha hb hab => ⟨hab, hp.mem_iff.mp ha, hp.mem_iff.mp hb⟩) hsorted
  exact @List.eq_of_perm_of_sorted Token _ hanti l₁ l₂ (h₁.trans h₂.symm) (hs l₁ h₁ s₁)
    (hs l₂ h₂ s₂)

/-- The tokens the loop of `Lex` collects satisfy the invariant of the
document. -/
theorem lexLines_collected (orders : Nat → List TokenType) (input : Reader) :
    ∃ collected, lexLines orders { lineNumber := 0, numberOfChar := 0 }
        (scannedLines input) [] = some collected ∧
      DocInv (scannedLines input) collected := by
  obtain ⟨collected, h⟩ := lexLines_isSome orders (scannedLines input)
    { lineNumber := 0, numberOfChar := 0 } []
  refine ⟨collected, h, ?_⟩
  have := lexLines_docInv orders _ [] { lineNumber := 0, numberOfChar := 0 } [] collected
    rfl rfl ⟨by simp, List.Pairwise.nil⟩ h
  simpa using this

theorem lexKinds_fuel_mono (l : Lexer) (ln : Str) (fuel n : Nat) :
    ∀ (order : List TokenType) (row : Str) (tokens : List Token) (out : Str × List Token),
      lexKinds l ln fuel order row tokens = some out →
      lexKinds l ln (fuel + n) order row tokens = some out := by
  intro order
  induction order with
  | nil => intro row tokens out h; exact h
  | cons k ks ih =>
    intro row tokens out h
    simp only [lexKinds] at h ⊢
    cases hv : TokenDefinition k with
    | none =>
      rw [hv] at h
      exact ih row tokens out h
    | some v =>
      rw [hv] at h
      cases hs : scanKind l k v ln fuel row tokens with
      | none => simp [hs] at h
      | some mid =>
        obtain ⟨row', tokens'⟩ := mid
        simp only [hs] at h
        simp only [scanKind_fuel_mono l k v ln n fuel row tokens _ hs]
        exact ih row' tokens' out h

/-- More fuel does not change the result of a scan that has ended. -/
theorem lexFuel_mono (l : Lexer) (order : List TokenType) (ln : Str) (fuel n : Nat)
    (tokens : List Token) (h : lexFuel l order fuel ln = some tokens) :
    lexFuel l order (fuel + n) ln = some tokens := by
  unfold lexFuel at h ⊢
  cases hk : lexKinds l ln fuel order ln [] with
  | none => simp [hk] at h
  | some out =>
    rw [hk] at h
    rw [lexKinds_fuel_mono l ln fuel n order ln [] out hk]
    exact h

/-- A match of the pattern of a kind in a working copy that is not empty is not
empty, starts at a byte that is not the sentinel, and its blanking lowers the
number of bytes that are not the sentinel. -/
theorem find_progress (k : TokenType) (v : Regex) (hv : TokenDefinition k = some v) (row : Str)
    (hrow : row ≠ []) (i j : Nat) (hf : v.FindStringIndex row = some (i, j)) :
    i < j ∧ (∃ b, row[i]? = some b ∧ b ≠ sentinel) ∧
      plainCount (blank row i j) < plainCount row := by
  rcases tokenDefinition_cases k v hv with rfl | ⟨hc, hp⟩
  · have := Regex.searchFrom_bot_eot row.length (by simpa using hrow) row 0
    unfold Regex.FindStringIndex at hf
    rw [this] at hf
    exact absurd hf (by simp)
  · obtain ⟨pre, b, w, rest, hr, hb, hi, hj, _, hbl, _⟩ := find_step v hc hp row i j hf
    refine ⟨by rw [hi, hj]; simp, ⟨b, ?_, ?_⟩, ?_⟩
    · rw [hr, hi, List.getElem?_append_right (le_refl _)]
      simp
    · intro h
      exact hb.2 (by rw [h]; rfl)
    · rw [hbl, hr]
      exact plainCount_blank pre w rest b hb

/-! ## Last bytes and plain words -/

namespace Regex

theorem matches_lastNot (c : Nat) (r : Regex) :
    ∀ w, lastNot c r = true → Matches r w → w.getLast? ≠ some c := by
  induction r with
  | empty => intro w _ h; rw [show w = [] from h]; simp
  | bot => intro w _ h; rw [show w = [] from h]; simp
  | eot => intro w _ h; rw [show w = [] from h]; simp
  | cls neg ranges =>
    intro w hs h
    simp only [lastNot, Bool.and_eq_true, Bool.not_eq_true', List.all_eq_true,
      Bool.or_eq_true, decide_eq_true_eq] at hs
    obtain ⟨hneg, hall⟩ := hs
    subst hneg
    obtain ⟨b, rfl, _, hin⟩ := matches_cls_ascii ranges w (fun p hp => (hall p hp).1) h
    simp only [inRanges, List.any_eq_true, Bool.and_eq_true, decide_eq_true_eq] at hin
    obtain ⟨p, hp, h1, h2⟩ := hin
    have := (hall p hp).2
    simp only [List.getLast?_singleton, ne_eq, Option.some.injEq]
    omega
  | cat a b iha ihb =>
    intro w hs hm
    obtain ⟨u, v, rfl, hu, hv⟩ := hm
    simp only [lastNot, Bool.and_eq_true, Bool.or_eq_true] at hs
    by_cases hvn : v = []
    · subst hvn
      rcases hs.2 with hc | ha
      · exact absurd rfl (matches_consumes b [] hc hv)
      · simpa using iha u ha hu
    · rw [List.getLast?_append_of_ne_nil _ hvn]
      exact ihb v hs.1 hv
  | alt a b iha ihb =>
    intro w hs hm
    simp only [lastNot, Bool.and_eq_true] at hs
    rcases hm with hm | hm
    · exact iha w hs.1 hm
    · exact ihb w hs.2 hm
  | star g a iha =>
    intro w hs hm
    simp only [lastNot] at hs
    induction hm with
    | nil => simp
    | cons u v hu _ ihv =>
      by_cases hvn : v = []
      · subst hvn
        simpa using iha u hs hu
      · rw [List.getLast?_append_of_ne_nil _ hvn]
        exact ihv

theorem matches_plainOnly (r : Regex) :
    ∀ w, plainOnly r = true → Matches r w → ∀ c ∈ w, plainByte c := by
  induction r with
  | empty => intro w _ h; rw [show w = [] from h]; simp
  | bot => intro w _ h; rw [show w = [] from h]; simp
  | eot => intro w _ h; rw [show w = [] from h]; simp
  | cls neg ranges =>
    intro w hs h
    simp only [plainOnly, Bool.and_eq_true, Bool.not_eq_true', List.all_eq_true,
      Bool.or_eq_true, decide_eq_true_eq] at hs
    obtain ⟨hneg, hall⟩ := hs
    subst hneg
    obtain ⟨b, rfl, hb, hin⟩ := matches_cls_ascii ranges w (fun p hp => (hall p hp).1) h
    simp only [inRanges, List.any_eq_true, Bool.and_eq_true, decide_eq_true_eq] at hin
    obtain ⟨p, hp, h1, h2⟩ := hin
    have := (hall p hp).2
    intro c hc
    rw [List.mem_singleton.mp hc]
    exact ⟨hb, by omega⟩
  | cat a b iha ihb =>
    intro w hs hm
    obtain ⟨u, v, rfl, hu, hv⟩ := hm
    simp only [plainOnly, Bool.and_eq_true] at hs
    intro c hc
    rcases List.mem_append.mp hc with hc | hc
    · exact iha u hs.1 hu c hc
    · exact ihb v hs.2 hv c hc
  | alt a b iha ihb =>
    intro w hs hm
    simp only [plainOnly, Bool.and_eq_true] at hs
    rcases hm with hm | hm
    · exact iha w hs.1 hm
    · exact ihb w hs.2 hm
  | star g a iha =>
    intro w hs hm
    simp only [plainOnly] at hs
    induction hm with
    | nil => simp
    | cons u v hu _ ihv =>
      intro c hc
      rcases List.mem_append.mp hc with hc | hc
      · exact iha u hs hu c hc
      · exact ihv c hc

end Regex

/-- Only the `WHITESPACE` pattern has words that end in a line feed. -/
theorem tokenDefinition_lastNot (k : TokenType) (v : Regex) (h : TokenDefinition k = some v)
    (hk : k ≠ WHITESPACE) : v.lastNot newline = true := by
  cases k <;> simp only [TokenDefinition, Option.some.injEq] at h <;>
    first
    | exact absurd rfl hk
    | (subst h; decide)
    | exact absurd h (by simp)

/-- The words of every pattern but that of `STRING` hold only ASCII bytes other
than the sentinel. -/
theorem tokenDefinition_plainOnly (k : TokenType) (v : Regex) (h : TokenDefinition k = some v)
    (hk : k ≠ STRING) : v.plainOnly = true := by
  cases k <;> simp only [TokenDefinition, Option.some.injEq] at h <;>
    first
    | exact absurd rfl hk
    | (subst h; decide)
    | exact absurd h (by simp)

/-! ## The search reaches every ASCII byte -/

namespace Regex

theorem searchFrom_zero_some (re : Regex) (total : Nat) (s rest : Str)
    (h : (ends total re s).head? = some rest) :
    searchFrom re total 0 s = some (total - s.length, total - rest.length) := by
  cases s with
  | nil => simp only [searchFrom, h]
  | cons b t => simp only [searchFrom, h]

/-- When the pattern matches at an ASCII byte of the text, the search finds a
match that starts at that byte or before it. -/
theorem searchFrom_at_ascii (re : Regex) (total c₀ : Nat) (rest : Str) (hc : c₀ < 0x80)
    (hne : ends total re (c₀ :: rest) ≠ []) :
    ∀ (pre : Str) (k : Nat), k ≤ pre.length →
      ∃ i j, searchFrom re total k (pre ++ c₀ :: rest) = some (i, j) ∧
        i ≤ total - (c₀ :: rest).length := by
  intro pre
  induction pre with
  | nil =>
    intro k hk
    have hk0 : k = 0 := by simpa using hk
    subst hk0
    obtain ⟨r, hr⟩ : ∃ r, (ends total re (c₀ :: rest)).head? = some r := by
      cases he : ends total re (c₀ :: rest) with
      | nil => exact absurd he hne
      | cons r _ => exact ⟨r, rfl⟩
    exact ⟨_, _, searchFrom_zero_some re total _ r hr, le_refl _⟩
  | cons b pre' ih =>
    intro k hk
    cases k with
    | succ k =>
      rw [List.cons_append, searchFrom_succ_cons]
      exact ih k (by simpa using hk)
    | zero =>
      rw [List.cons_append]
      cases he : ends total re (b :: (pre' ++ c₀ :: rest)) with
      | cons r rs =>
        refine ⟨_, _, searchFrom_zero_some re total _ r (by rw [he]; rfl), ?_⟩
        simp only [List.length_cons, List.length_append]
        omega
      | nil =>
        rw [searchFrom_zero_cons re total b _ he, decode_append_ascii b pre' rest c₀ hc]
        have hw := decode_width_le b pre'
        simp only [List.length_cons] at hw
        exact ih _ (by omega)

theorem FindStringIndex_at_ascii (re : Regex) (pre rest : Str) (c₀ : Nat) (hc : c₀ < 0x80)
    (hne : ends (pre ++ c₀ :: rest).length re (c₀ :: rest) ≠ []) :
    ∃ i j, FindStringIndex re (pre ++ c₀ :: rest) = some (i, j) ∧ i ≤ pre.length := by
  obtain ⟨i, j, h, hi⟩ := searchFrom_at_ascii re _ c₀ rest hc hne pre 0 (Nat.zero_le _)
  refine ⟨i, j, h, ?_⟩
  simp only [List.length_append, List.length_cons] at hi
  omega

theorem starEnds_ne_nil (greedy : Bool) (step : Str → List Str) (n : Nat) (s : Str) :
    starEnds greedy step n s ≠ [] := by
  cases n with
  | zero => simp [starEnds]
  | succ n =>
    simp only [starEnds]
    cases greedy <;> simp

/-- The `WHITESPACE` pattern matches at a line feed. -/
theorem ends_space_newline (total : Nat) (rest : Str) :
    ends total (plus space) (newline :: rest) ≠ [] := by
  have h1 : ends total space (newline :: rest) = [rest] := by
    rw [space, ends_cls_cons, decode_ascii newline rest (by decide)]
    rfl
  rw [plus, ends_cat, h1]
  simp only [List.flatMap_cons, List.flatMap_nil, List.append_nil]
  exact starEnds_ne_nil _ _ _ _

end Regex

/-! ## The token of the line terminator -/

theorem getElem?_segment (pre seg rest : Str) (idx : Nat) (h : idx < seg.length) :
    (pre ++ (seg ++ rest))[pre.length + idx]? = seg[idx]? := by
  rw [List.getElem?_append_right (Nat.le_add_right _ _), Nat.add_sub_cancel_left,
    List.getElem?_append_left h]

theorem newline_index (text : Str) (hnl : newline ∉ text) (m : Nat)
    (h : (text ++ [newline])[m]? = some newline) : m = text.length := by
  by_cases hm : m < text.length
  · rw [List.getElem?_append_left hm] at h
    exact absurd (List.getElem?_mem h) hnl
  · obtain ⟨hlt, _⟩ := List.getElem?_eq_some_iff.mp h
    simp only [List.length_append, List.length_singleton] at hlt
    omega

/-- What a match looks like on the working copy of a line: the facts of
`find_step` and `LineInv` that the steps below use. -/
theorem line_step_facts (l : Lexer) (text : Str) (hnl : newline ∉ text) (k : TokenType)
    (v : Regex) (hv : TokenDefinition k = some v) (row : Str) (tokens : List Token) (i j : Nat)
    (hinv : LineInv l (text ++ [newline]) row tokens)
    (hf : v.FindStringIndex row = some (i, j)) :
    ∃ (b : Nat) (w : Str), Regex.plainByte b ∧ v.Matches (b :: w) ∧ v.FindString row = b :: w ∧
      j = i + (b :: w).length ∧ j ≤ text.length + 1 ∧
      (∀ idx : Nat, idx < (b :: w).length → row[i + idx]? = (b :: w)[idx]?) ∧
      (text ++ [newline])[i]? = some b ∧
      (∀ m : Nat, (blank row i j)[m]? = if i ≤ m ∧ m < j then some sentinel else row[m]?) ∧
      (∀ (m x : Nat), row[m]? = some x → x = newline → m = text.length) := by
  obtain ⟨hlen, hagree, _, _⟩ := hinv
  rcases tokenDefinition_cases k v hv with rfl | ⟨hc, hp⟩
  · have hne : row.length ≠ 0 := by rw [hlen]; simp
    have := Regex.searchFrom_bot_eot row.length hne row 0
    unfold Regex.FindStringIndex at hf
    rw [this] at hf
    exact absurd hf (by simp)
  · obtain ⟨pre, b, w, rest, hrow, hb, hi, hj, hm, hbl, hfs⟩ := find_step v hc hp row i j hf
    have hseg : ∀ idx : Nat, idx < (b :: w).length → row[i + idx]? = (b :: w)[idx]? := by
      intro idx hidx
      rw [hrow, hi]
      exact getElem?_segment pre (b :: w) rest idx hidx
    have hrowi : row[i]? = some b := by
      have := hseg 0 (by simp)
      simpa using this
    refine ⟨b, w, hb, hm, hfs, by rw [hj, hi], ?_, hseg, ?_, ?_, ?_⟩
    · have : row.length = pre.length + ((b :: w).length + rest.length) := by
        rw [hrow]; simp; omega
      rw [hlen] at this
      simp only [List.length_append, List.length_singleton] at this
      omega
    · exact hagree i b hrowi (fun h => hb.2 (by rw [h]; rfl))
    · intro m
      rw [hbl, getElem?_blanked, ← hrow, hj, hi]
    · intro m x hx hxn
      subst hxn
      exact newline_index text hnl m (hagree m newline hx (by decide))

theorem filter_hasNewline_snoc (tokens : List Token) (tok : Token) :
    (tokens ++ [tok]).filter hasNewline =
      tokens.filter hasNewline ++ (if hasNewline tok = true then [tok] else []) := by
  rw [List.filter_append]
  by_cases h : hasNewline tok = true
  · simp [h]
  · simp [h]

theorem matchToken_value (l : Lexer) (k : TokenType) (v : Regex) (ln row : Str) (i j : Nat) :
    (matchToken l k v ln row i j).Value = v.FindString row := rfl

theorem matchToken_kind (l : Lexer) (k : TokenType) (v : Regex) (ln row : Str) (i j : Nat) :
    (matchToken l k v ln row i j).Kind = k := rfl

theorem matchToken_column (l : Lexer) (k : TokenType) (v : Regex) (ln row : Str) (i j : Nat) :
    (matchToken l k v ln row i j).Loc.Start.Column = RuneCountInString (ln.take i) + 1 := rfl

/-- Once the line terminator is claimed, every later match lies before its
token and holds no line feed. -/
theorem newline_step_done (l : Lexer) (text : Str) (hnl : newline ∉ text) (k : TokenType)
    (v : Regex) (hv : TokenDefinition k = some v) (row : Str) (tokens : List Token) (i j : Nat)
    (hinv : LineInv l (text ++ [newline]) row tokens) (hdone : NewlineDone text row tokens)
    (hf : v.FindStringIndex row = some (i, j)) :
    NewlineDone text (blank row i j)
      (tokens ++ [matchToken l k v (text ++ [newline]) row i j]) := by
  obtain ⟨b, w, hb, _, hfs, hj, hjle, hseg, hlni, hpt, hnlidx⟩ :=
    line_step_facts l text hnl k v hv row tokens i j hinv hf
  obtain ⟨t₀, n₀, hfil, hkind, hlast, hn₀, hcol, hsent, hmax⟩ := hdone
  have hrowi : row[i]? = some b := by simpa using hseg 0 (by simp)
  have hlt : i < n₀ := by
    by_contra hge
    have := hsent i (by omega) (by simp only [List.length_cons] at hj; omega)
    rw [hrowi] at this
    exact hb.2 (by rw [Option.some.inj this]; rfl)
  have hnomem : newline ∉ b :: w := by
    intro hmem
    obtain ⟨idx, hidx⟩ := List.mem_iff_getElem?.mp hmem
    have hlt' : idx < (b :: w).length := (List.getElem?_eq_some_iff.mp hidx).1
    have hrow := hseg idx hlt'
    rw [hidx] at hrow
    have hN := hnlidx _ _ hrow rfl
    have := hsent (i + idx) (by omega) (by omega)
    rw [hrow] at this
    exact absurd (Option.some.inj this) (by decide)
  refine ⟨t₀, n₀, ?_, hkind, hlast, hn₀, hcol, ?_, ?_⟩
  · rw [filter_hasNewline_snoc, hfil]
    have : hasNewline (matchToken l k v (text ++ [newline]) row i j) = false := by
      simp only [hasNewline, matchToken_value, hfs, decide_eq_false_iff_not]
      exact hnomem
    simp [this]
  · intro m h1 h2
    rw [hpt]
    split_ifs
    · rfl
    · exact hsent m h1 h2
  · intro t ht
    rcases List.mem_append.mp ht with ht | ht
    · exact hmax t ht
    · rw [List.mem_singleton.mp ht, matchToken_column, hcol]
      have := RuneCountInString_take_lt (text ++ [newline]) i n₀ b hlni hb.1 hlt
      omega

/-- While the line terminator is not claimed, a match either leaves it so or is
the `WHITESPACE` match that claims it. -/
theorem newline_step_pending (l : Lexer) (text : Str) (hnl : newline ∉ text) (k : TokenType)
    (v : Regex) (hv : TokenDefinition k = some v) (row : Str) (tokens : List Token) (i j : Nat)
    (hinv : LineInv l (text ++ [newline]) row tokens)
    (hpend : NewlinePending text row tokens)
    (hf : v.FindStringIndex row = some (i, j)) :
    NewlinePending text (blank row i j)
        (tokens ++ [matchToken l k v (text ++ [newline]) row i j]) ∨
      NewlineDone text (blank row i j)
        (tokens ++ [matchToken l k v (text ++ [newline]) row i j]) := by
  obtain ⟨b, w, hb, hm, hfs, hj, hjle, hseg, hlni, hpt, hnlidx⟩ :=
    line_step_facts l text hnl k v hv row tokens i j hinv hf
  obtain ⟨hrowN, hfil⟩ := hpend
  by_cases hmem : newline ∈ b :: w
  · right
    obtain ⟨idx, hidx⟩ := List.mem_iff_getElem?.mp hmem
    have hlt' : idx < (b :: w).length := (List.getElem?_eq_some_iff.mp hidx).1
    have hrow := hseg idx hlt'
    rw [hidx] at hrow
    have hN := hnlidx _ _ hrow rfl
    have hjN : j = text.length + 1 := by omega
    have hlast : (b :: w).getLast? = some newline := by
      rw [List.getLast?_eq_getElem?]
      have : (b :: w).length - 1 = idx := by omega
      rw [this]
      exact hidx
    have hk : k = WHITESPACE := by
      by_contra hk
      exact Regex.matches_lastNot newline v (b :: w) (tokenDefinition_lastNot k v hv hk) hm hlast
    have hplain : ∀ c ∈ b :: w, Regex.plainByte c := by
      subst hk
      exact Regex.matches_plainOnly v (b :: w)
        (tokenDefinition_plainOnly WHITESPACE v hv (by decide)) hm
    refine ⟨matchToken l k v (text ++ [newline]) row i j, i, ?_, ?_, ?_, by omega, rfl, ?_, ?_⟩
    · rw [filter_hasNewline_snoc, hfil]
      have : hasNewline (matchToken l k v (text ++ [newline]) row i j) = true := by
        simp only [hasNewline, matchToken_value, hfs, decide_eq_true_eq]
        exact hmem
      simp [this]
    · rw [matchToken_kind, hk]
    · rw [matchToken_value, hfs]
      exact hlast
    · intro m h1 h2
      rw [hpt, if_pos ⟨h1, by omega⟩]
    · intro t ht
      rcases List.mem_append.mp ht with ht | ht
      · obtain ⟨n, c, h1, h2, h3, h4⟩ := hinv.2.2.1 t ht
        have hnN : n < text.length + 1 := by
          have := (List.getElem?_eq_some_iff.mp h2).1
          simpa using this
        have hni : n < i := by
          by_contra hge
          have hidx' : n - i < (b :: w).length := by omega
          have hr := hseg (n - i) hidx'
          rw [show i + (n - i) = n by omega, h1] at hr
          have hmem' := List.getElem?_mem hr.symm
          exact (hplain sentinel hmem').2 rfl
        rw [h4, matchToken_column]
        have := RuneCountInString_take_lt (text ++ [newline]) n i c h2 h3 hni
        simp only [newPosition]
        omega
      · rw [List.mem_singleton.mp ht]
  · left
    constructor
    · rw [hpt, if_neg]
      · exact hrowN
      · rintro ⟨h1, h2⟩
        have hidx' : text.length - i < (b :: w).length := by omega
        have hr := hseg (text.length - i) hidx'
        rw [show i + (text.length - i) = text.length by omega, hrowN] at hr
        exact hmem (List.getElem?_mem hr.symm)
    · rw [filter_hasNewline_snoc, hfil]
      have : hasNewline (matchToken l k v (text ++ [newline]) row i j) = false := by
        simp only [hasNewline, matchToken_value, hfs, decide_eq_false_iff_not]
        exact hmem
      simp [this]

theorem pending_has_match (text row : Str) (tokens : List Token)
    (hp : NewlinePending text row tokens) :
    ∃ i j, (Regex.plus Regex.space).FindStringIndex row = some (i, j) := by
  have hlt : text.length < row.length := (List.getElem?_eq_some_iff.mp hp.1).1
  have hget : row[text.length] = newline := (List.getElem?_eq_some_iff.mp hp.1).2
  have hrow : row = row.take text.length ++ newline :: row.drop (text.length + 1) := by
    rw [← hget, ← List.drop_eq_getElem_cons hlt, List.take_append_drop]
  obtain ⟨i, j, h, _⟩ := Regex.FindStringIndex_at_ascii (Regex.plus Regex.space)
    (row.take text.length) (row.drop (text.length + 1)) newline (by decide)
    (Regex.ends_space_newline _ _)
  rw [← hrow] at h
  exact ⟨i, j, h⟩

theorem scanKind_newline (l : Lexer) (text : Str) (hnl : newline ∉ text) (k : TokenType)
    (v : Regex) (hv : TokenDefinition k = some v) (fuel : Nat) (row : Str)
    (tokens : List Token) (out : Str × List Token)
    (hinv : LineInv l (text ++ [newline]) row tokens)
    (hst : NewlinePending text row tokens ∨ NewlineDone text row tokens)
    (h : scanKind l k v (text ++ [newline]) fuel row tokens = some out) :
    LineInv l (text ++ [newline]) out.1 out.2 ∧
      (NewlinePending text out.1 out.2 ∨ NewlineDone text out.1 out.2) ∧
      ((NewlineDone text row tokens ∨ k = WHITESPACE) → NewlineDone text out.1 out.2) := by
  have hP := scanKind_induct l k v (text ++ [newline])
    (fun r t => LineInv l (text ++ [newline]) r t ∧
      (NewlinePending text r t ∨ NewlineDone text r t) ∧
      (NewlineDone text row tokens → NewlineDone text r t))
    (by
      intro r t i j ⟨h1, h2, h3⟩ hf
      refine ⟨lineInv_step l _ (by simp) k v hv r t i j h1 hf, ?_, ?_⟩
      · rcases h2 with h2 | h2
        · exact newline_step_pending l text hnl k v hv r t i j h1 h2 hf
        · exact Or.inr (newline_step_done l text hnl k v hv r t i j h1 h2 hf)
      · intro hd
        exact newline_step_done l text hnl k v hv r t i j h1 (h3 hd) hf)
    fuel row tokens out ⟨hinv, hst, id⟩ h
  obtain ⟨⟨h1, h2, h3⟩, hnone⟩ := hP
  refine ⟨h1, h2, ?_⟩
  rintro (hd | hk)
  · exact h3 hd
  · rcases h2 with h2 | h2
    · subst hk
      have hv' : v = Regex.plus Regex.space := by
        have : TokenDefinition WHITESPACE = some (Regex.plus Regex.space) := rfl
        rw [this] at hv
        exact (Option.some.inj hv).symm
      subst hv'
      obtain ⟨i, j, hm⟩ := pending_has_match text out.1 out.2 h2
      rw [hm] at hnone
      cases hnone
    · exact h2

theorem lexKinds_newline (l : Lexer) (text : Str) (hnl : newline ∉ text) (fuel : Nat) :
    ∀ (order : List TokenType) (row : Str) (tokens : List Token) (out : Str × List Token),
      LineInv l (text ++ [newline]) row tokens →
      (NewlinePending text row tokens ∨ NewlineDone text row tokens) →
      lexKinds l (text ++ [newline]) fuel order row tokens = some out →
      (NewlineDone text row tokens ∨ WHITESPACE ∈ order) →
      LineInv l (text ++ [newline]) out.1 out.2 ∧ NewlineDone text out.1 out.2 := by
  intro order
  induction order with
  | nil =>
    intro row tokens out hinv _ h hd
    simp only [lexKinds, Option.some.injEq] at h
    subst h
    rcases hd with hd | hd
    · exact ⟨hinv, hd⟩
    · simp at hd
  | cons k ks ih =>
    intro row tokens out hinv hst h hd
    simp only [lexKinds] at h
    cases hv : TokenDefinition k with
    | none =>
      rw [hv] at h
      refine ih row tokens out hinv hst h ?_
      rcases hd with hd | hd
      · exact Or.inl hd
      · rcases List.mem_cons.mp hd with hd | hd
        · subst hd
          simp [TokenDefinition] at hv
        · exact Or.inr hd
    | some v =>
      rw [hv] at h
      simp only at h
      cases hs : scanKind l k v (text ++ [newline]) fuel row tokens with
      | none => rw [hs] at h; simp at h
      | some mid =>
        rw [hs] at h
        simp only at h
        obtain ⟨h1, h2, h3⟩ := scanKind_newline l text hnl k v hv fuel row tokens mid hinv hst hs
        refine ih mid.1 mid.2 out h1 h2 h ?_
        rcases hd with hd | hd
        · exact Or.inl (h3 (Or.inl hd))
        · rcases List.mem_cons.mp hd with hd | hd
          · exact Or.inl (h3 (Or.inr hd.symm))
          · exact Or.inr hd

/-- The tokens of one line, scanned in an order that visits `WHITESPACE`:
exactly one of them holds a line feed; it is a `WHITESPACE` token, its text
ends in the line feed, and no token of the line starts in a later column. -/
theorem lex_newline (l : Lexer) (order : List TokenType) (hws : WHITESPACE ∈ order)
    (text : Str) (hnl : newline ∉ text) (ts : List Token)
    (h : lex l order (text ++ [newline]) = some ts) :
    ∃ t₀, ts.filter hasNewline = [t₀] ∧ t₀.Kind = WHITESPACE ∧
      t₀.Value.getLast? = some newline ∧
      ∀ t ∈ ts, t.Loc.Start.Column ≤ t₀.Loc.Start.Column := by
  unfold lex lexFuel at h
  cases hk : lexKinds l (text ++ [newline]) ((text ++ [newline]).length + 1) order
      (text ++ [newline]) [] with
  | none => rw [hk] at h; simp at h
  | some out =>
    rw [hk] at h
    simp only [Option.map_some', Option.some.injEq] at h
    subst h
    have hpend : NewlinePending text (text ++ [newline]) [] := by
      refine ⟨?_, rfl⟩
      simp
    obtain ⟨_, t₀, n₀, h1, h2, h3, _, _, _, h7⟩ := lexKinds_newline l text hnl _ order
      (text ++ [newline]) [] out (lineInv_init l _) (Or.inl hpend) hk (Or.inr hws)
    exact ⟨t₀, h1, h2, h3, h7⟩

theorem rawLines_no_newline (data : Str) : ∀ raw ∈ rawLines data, newline ∉ raw := by
  induction data with
  | nil => simp [rawLines]
  | cons b t ih =>
    intro raw hraw
    simp only [rawLines] at hraw
    split_ifs at hraw with hb
    · rcases List.mem_cons.mp hraw with h | h
      · subst h; simp
      · exact ih raw h
    · cases hr : rawLines t with
      | nil =>
        rw [hr] at hraw
        simp only [List.mem_singleton] at hraw
        subst hraw
        simpa using Ne.symm hb
      | cons cur rest =>
        rw [hr] at hraw ih
        rcases List.mem_cons.mp hraw with h | h
        · subst h
          have := ih cur (List.mem_cons_self _ _)
          simp only [List.mem_cons, not_or]
          exact ⟨Ne.symm hb, this⟩
        · exact ih raw (List.mem_cons_of_mem _ h)

theorem scanTokens_no_newline (fail : Option Nat) (final : Bool) (raws : List Str)
    (h : ∀ raw ∈ raws, newline ∉ raw) :
    ∀ text ∈ (scanTokens fail final raws).1, newline ∉ text := by
  induction raws with
  | nil => simp [scanTokens]
  | cons raw rest ih =>
    intro text ht
    simp only [scanTokens] at ht
    split_ifs at ht with hlen
    · simp at ht
    · rcases List.mem_cons.mp ht with ht | ht
      · subst ht
        have hraw := h raw (List.mem_cons_self _ _)
        unfold dropCR
        split_ifs
        · exact fun hm => hraw (List.mem_of_mem_dropLast hm)
        · exact hraw
      · exact ih (fun r hr => h r (List.mem_cons_of_mem _ hr)) text ht

theorem scannedLines_no_newline (input : Reader) :
    ∀ text ∈ scannedLines input, newline ∉ text :=
  scanTokens_no_newline _ _ _ (rawLines_no_newline _)

theorem terminatorInv_snoc (n : Nat) (tokens ts : List Token) (t₀ : Token)
    (hinv : TerminatorInv n tokens)
    (hline : ∀ t ∈ ts, t.Loc.Start.Line = n + 1)
    (hfil : ts.filter hasNewline = [t₀]) (hkind : t₀.Kind = WHITESPACE)
    (hlast : t₀.Value.getLast? = some newline)
    (hmax : ∀ t ∈ ts, t.Loc.Start.Column ≤ t₀.Loc.Start.Column) :
    TerminatorInv (n + 1) (tokens ++ ts) := by
  obtain ⟨h1, h2, h3⟩ := hinv
  refine ⟨?_, ?_, ?_⟩
  · intro t ht
    rcases List.mem_append.mp ht with ht | ht
    · have := h1 t ht
      omega
    · have := hline t ht
      omega
  · rw [List.filter_append, List.length_append, h2, hfil]
    rfl
  · intro k hk
    by_cases hkn : k = n
    · subst hkn
      refine ⟨t₀, ?_, hkind, hlast, ?_⟩
      · rw [List.filter_append]
        have e1 : tokens.filter
            (fun t => hasNewline t && decide (t.Loc.Start.Line = k + 1)) = [] := by
          rw [List.filter_eq_nil_iff]
          intro t ht
          have := h1 t ht
          simp only [Bool.and_eq_true, decide_eq_true_eq, not_and]
          intro _
          omega
        have e2 : ts.filter (fun t => hasNewline t && decide (t.Loc.Start.Line = k + 1)) =
            ts.filter hasNewline := by
          apply List.filter_congr
          intro t ht
          simp [hline t ht]
        rw [e1, e2, hfil]
        rfl
      · intro t ht hl
        rcases List.mem_append.mp ht with ht | ht
        · have := h1 t ht
          omega
        · exact hmax t ht
    · obtain ⟨t₁, g1, g2, g3, g4⟩ := h3 k (by omega)
      refine ⟨t₁, ?_, g2, g3, ?_⟩
      · rw [List.filter_append, g1]
        have e2 : ts.filter (fun t => hasNewline t && decide (t.Loc.Start.Line = k + 1)) =
            [] := by
          rw [List.filter_eq_nil_iff]
          intro t ht
          have := hline t ht
          simp only [Bool.and_eq_true, decide_eq_true_eq, not_and]
          intro _
          omega
        rw [e2]
        rfl
      · intro t ht hl
        rcases List.mem_append.mp ht with ht | ht
        · exact g4 t ht hl
        · have := hline t ht
          omega

theorem lexLines_terminator (orders : Nat → List TokenType)
    (hws : ∀ k, WHITESPACE ∈ orders k) :
    ∀ (rest : List Str) (l : Lexer) (tokens out : List Token),
      (∀ text ∈ rest, newline ∉ text) → TerminatorInv l.lineNumber tokens →
      lexLines orders l rest tokens = some out →
      TerminatorInv (l.lineNumber + rest.length) out := by
  intro rest
  induction rest with
  | nil =>
    intro l tokens out _ hinv h
    simp only [lexLines, Option.some.injEq] at h
    subst h
    simpa using hinv
  | cons text rest ih =>
    intro l tokens out hnl hinv h
    simp only [lexLines] at h
    cases hl : lex l (orders l.lineNumber) (text ++ [newline]) with
    | none => rw [hl] at h; simp at h
    | some ts =>
      rw [hl] at h
      simp only at h
      have hno := hnl text (List.mem_cons_self _ _)
      obtain ⟨t₀, f1, f2, f3, f4⟩ := lex_newline l _ (hws _) text hno ts hl
      have hline := (lex_start_facts l _ (text ++ [newline]) (by simp) ts hl).1
      have := ih _ (tokens ++ ts) out (fun t ht => hnl t (List.mem_cons_of_mem _ ht))
        (terminatorInv_snoc l.lineNumber tokens ts t₀ hinv (fun t ht => (hline t ht).1)
          f1 f2 f3 f4) h
      simp only [List.length_cons]
      rw [show l.lineNumber + (rest.length + 1) = l.lineNumber + 1 + rest.length by omega]
      exact this

theorem terminatorInv_perm (n : Nat) (tokens tokens' : List Token)
    (hp : tokens'.Perm tokens) (h : TerminatorInv n tokens) : TerminatorInv n tokens' := by
  obtain ⟨h1, h2, h3⟩ := h
  refine ⟨fun t ht => h1 t (hp.mem_iff.mp ht), ?_, ?_⟩
  · rw [(hp.filter _).length_eq, h2]
  · intro k hk
    obtain ⟨t₀, g1, g2, g3, g4⟩ := h3 k hk
    refine ⟨t₀, ?_, g2, g3, fun t ht => g4 t (hp.mem_iff.mp ht)⟩
    have := hp.filter (fun t => hasNewline t && decide (t.Loc.Start.Line = k + 1))
    rw [g1] at this
    exact List.perm_singleton.mp this

/-- In a sorted list without two tokens of the same start line and column, a
token of a line after whose start column no token of the line starts is the
last token of the line. -/
theorem last_of_line (tokens : List Token) (hs : tokens.Sorted tokenLE)
    (hpw : tokens.Pairwise (fun a b => a.Loc.Start.Line ≠ b.Loc.Start.Line ∨
      a.Loc.Start.Column ≠ b.Loc.Start.Column))
    (n : Nat) (t₀ : Token) (hmem : t₀ ∈ tokens) (hline : t₀.Loc.Start.Line = n)
    (hmax : ∀ t ∈ tokens, t.Loc.Start.Line = n → t.Loc.Start.Column ≤ t₀.Loc.Start.Column) :
    (tokens.filter (fun t => decide (t.Loc.Start.Line = n))).getLast? = some t₀ := by
  have hin : t₀ ∈ tokens.filter (fun t => decide (t.Loc.Start.Line = n)) := by
    rw [List.mem_filter]
    exact ⟨hmem, by simpa using hline⟩
  have hs' : (tokens.filter (fun t => decide (t.Loc.Start.Line = n))).Pairwise tokenLE :=
    List.Pairwise.filter _ hs
  have hpw' := List.Pairwise.filter (fun t => decide (t.Loc.Start.Line = n)) hpw
  cases hx : (tokens.filter (fun t => decide (t.Loc.Start.Line = n))).getLast? with
  | none =>
    rw [List.getLast?_eq_none_iff] at hx
    rw [hx] at hin
    simp at hin
  | some x =>
    have hsplit := List.dropLast_append_getLast? x hx
    have hxin : x ∈ tokens.filter (fun t => decide (t.Loc.Start.Line = n)) :=
      List.mem_of_mem_getLast? hx
    rw [List.mem_filter] at hxin
    have hxl : x.Loc.Start.Line = n := by simpa using hxin.2
    rw [← hsplit] at hin hs' hpw'
    rcases List.mem_append.mp hin with hin | hin
    · have hle := (List.pairwise_append.mp hs').2.2 t₀ hin x (List.mem_singleton_self _)
      have hne := (List.pairwise_append.mp hpw').2.2 t₀ hin x (List.mem_singleton_self _)
      have hcol := hmax x hxin.1 hxl
      rw [tokenLE_iff] at hle
      omega
    · rw [List.mem_singleton.mp hin]

theorem isCont_ascii (b : Nat) (h : b < 0x80) : isCont b = false := by
  simp only [isCont, Bool.and_eq_false_iff, decide_eq_false_iff_not]
  left; omega

theorem decode_width_congr (s s' : Str) (h : List.Forall₂ sameClass s s') :
    (DecodeRuneInString s).2 = (DecodeRuneInString s').2 := by
  rcases h with _ | ⟨h0, h⟩
  · rfl
  rename_i x0 y0 t t'
  rcases h0 with rfl | ⟨hx, hy⟩
  swap
  · rw [decode_ascii _ _ hx, decode_ascii _ _ hy]
  simp only [DecodeRuneInString]
  by_cases c1 : x0 < 0x80
  · simp [c1]
  by_cases c2 : x0 < 0xC2
  · simp [c1, c2]
  by_cases c3 : 0xF5 ≤ x0
  · simp [c1, c2, c3]
  simp only [c1, c2, c3, if_false]
  rcases h with _ | ⟨h1, h⟩
  · rfl
  rename_i x1 y1 t1 t1'
  rcases h1 with rfl | ⟨hx, hy⟩
  swap
  · have := acceptLo_ge x0
    have e1 : x1 < acceptLo x0 ∨ acceptHi x0 < x1 := Or.inl (by omega)
    have e2 : y1 < acceptLo x0 ∨ acceptHi x0 < y1 := Or.inl (by omega)
    simp only [e1, e2, if_true]
  by_cases c4 : x1 < acceptLo x0 ∨ acceptHi x0 < x1
  · simp only [c4, if_true]
  by_cases c5 : x0 < 0xE0
  · simp only [c4, c5, if_true, if_false]
  simp only [c4, c5, if_false]
  rcases h with _ | ⟨h2, h⟩
  · rfl
  rename_i x2 y2 t2 t2'
  rcases h2 with rfl | ⟨hx, hy⟩
  swap
  · simp only [isCont_ascii _ hx, isCont_ascii _ hy, if_true]
  by_cases c6 : isCont x2 = false
  · simp only [c6, if_true]
  by_cases c7 : x0 < 0xF0
  · simp only [c6, c7, if_true, if_false]
  simp only [c6, c7, if_false]
  rcases h with _ | ⟨h3, h⟩
  · rfl
  rename_i x3 y3 t3 t3'
  rcases h3 with rfl | ⟨hx, hy⟩
  swap
  · simp only [isCont_ascii _ hx, isCont_ascii _ hy, if_true]
  by_cases c8 : isCont x3 = false
  · simp only [c8, if_true]
  · simp only [c8, if_false]

theorem runeCountFrom_congr (s s' : Str) (h : List.Forall₂ sameClass s s') :
    ∀ k, runeCountFrom k s = runeCountFrom k s' := by
  induction h with
  | nil => intro k; cases k <;> rfl
  | cons h0 ht ih =>
    rename_i x y t t'
    intro k
    cases k with
    | zero =>
      simp only [runeCountFrom]
      rw [decode_width_congr (x :: t) (y :: t') (List.Forall₂.cons h0 ht), ih]
    | succ k =>
      simp only [runeCountFrom]
      exact ih k

theorem RuneCountInString_congr (s s' : Str) (h : List.Forall₂ sameClass s s') :
    RuneCountInString s = RuneCountInString s' :=
  runeCountFrom_congr s s' h 0

/-- The rune count of a prefix that ends where an ASCII byte begins adds up
with the rune count of what follows within a longer prefix. -/
theorem RuneCountInString_take_add (ln : Str) (i j c : Nat) (hij : i < j)
    (hc : ln[i]? = some c) (hascii : c < 0x80) :
    RuneCountInString (ln.take j) =
      RuneCountInString (ln.take i) + RuneCountInString ((ln.take j).drop i) := by
  have hlt : i < ln.length := (List.getElem?_eq_some_iff.mp hc).1
  have hget : ln[i] = c := (List.getElem?_eq_some_iff.mp hc).2
  have h1 : ln.take j = ln.take i ++ c :: (ln.take j).drop (i + 1) := by
    have hlt' : i < (ln.take j).length := by
      rw [List.length_take]; omega
    have e : (ln.take j)[i] = c := by
      rw [List.getElem_take]; exact hget
    have : (ln.take j).take i = ln.take i := by
      rw [List.take_take, Nat.min_eq_left (by omega)]
    rw [← this, ← e, ← List.drop_eq_getElem_cons hlt', List.take_append_drop]
  have h2 : (ln.take j).drop i = c :: (ln.take j).drop (i + 1) := by
    conv_lhs => rw [h1]
    rw [List.drop_left' (by rw [List.length_take]; omega)]
  rw [h2]
  conv_lhs => rw [h1]
  rw [RuneCountInString_append_ascii _ _ c hascii]
  have : RuneCountInString (c :: (ln.take j).drop (i + 1)) =
      1 + RuneCountInString ((ln.take j).drop (i + 1)) := by
    unfold RuneCountInString
    simp only [runeCountFrom, decode_ascii c _ hascii]
  rw [this]
  omega

namespace Regex

/-- On a content of one rune that does not end in a backslash the rest of the
pattern matches up to the quote after it. -/
theorem ends_tail_last (total : Nat) (b : Nat) (body' post : Str)
    (hlast : (b :: body').getLast? ≠ some 0x5C)
    (hw : (DecodeRuneInString (b :: body')).2 = (b :: body').length) :
    ends total (cat (cls true [(0x5C, 0x5C)]) (lit 0x22)) (b :: body' ++ 0x22 :: post) =
      [post] := by
  obtain ⟨hd, _, _⟩ := stringBody_decode b body' post
  have hne : (DecodeRuneInString (b :: body')).1 ≠ 0x5C := by
    intro h5
    obtain ⟨hb, h1⟩ := stringBody_rune_ne b body' 0x5C (by decide) h5
    rw [h1] at hw
    have hl : (b :: body').length = 1 := hw.symm
    simp only [List.length_cons] at hl
    have : body' = [] := List.length_eq_zero.mp (by omega)
    subst this
    exact hlast (by simp [hb])
  have hdrop : (b :: body' ++ 0x22 :: post).drop (DecodeRuneInString (b :: body')).2 =
      0x22 :: post := by
    rw [hw]
    exact List.drop_left' rfl
  simp only [List.cons_append] at hd hdrop ⊢
  rw [ends_cat, ends_cls_cons, hd, if_pos ((classTest_not 0x5C _).mpr hne), hdrop]
  simp only [List.flatMap_cons, List.flatMap_nil, List.append_nil]
  exact ends_lit_cons total 0x22 (by decide) post

/-- Before the end of a content without line feed `.` steps over one rune. -/
theorem ends_dot_open (total : Nat) (b : Nat) (body' post : Str)
    (hnl : newline ∉ b :: body')
    (hw : (DecodeRuneInString (b :: body')).2 < (b :: body').length) :
    ends total dot (b :: body' ++ 0x22 :: post) =
      [(b :: body').drop (DecodeRuneInString (b :: body')).2 ++ 0x22 :: post] := by
  obtain ⟨hd, _, _⟩ := stringBody_decode b body' post
  have hne : (DecodeRuneInString (b :: body')).1 ≠ 0x0A := by
    intro h5
    obtain ⟨hb, _⟩ := stringBody_rune_ne b body' 0x0A (by decide) h5
    exact hnl (by rw [hb]; exact List.mem_cons_self _ _)
  have hdrop : (b :: body' ++ 0x22 :: post).drop (DecodeRuneInString (b :: body')).2 =
      (b :: body').drop (DecodeRuneInString (b :: body')).2 ++ 0x22 :: post :=
    List.drop_append_of_le_length (le_of_lt hw)
  simp only [dot, List.cons_append] at hd hdrop ⊢
  rw [ends_cls_cons, hd, if_pos ((classTest_not 0x0A _).mpr hne), hdrop]

/-- After an opening quote, a content that is not empty, does not end in a
backslash and holds no line feed, followed by a quote, is matched in some way
by the rest of the `STRING` pattern. -/
theorem open_body_match (total : Nat) (post : Str) :
    ∀ (n : Nat) (body : Str), body.length ≤ n → body ≠ [] →
      body.getLast? ≠ some 0x5C → newline ∉ body →
      (starEnds false (fun s' => ends total dot s') n (body ++ 0x22 :: post)).flatMap
        (fun s' => ends total (cat (cls true [(0x5C, 0x5C)]) (lit 0x22)) s') ≠ [] := by
  intro n
  induction n with
  | zero =>
    intro body hlen h _ _
    exact absurd (List.length_eq_zero.mp (Nat.le_zero.mp hlen)) h
  | succ n ih =>
    intro body hlen hne hlast hnl
    cases body with
    | nil => exact absurd rfl hne
    | cons b body' =>
      obtain ⟨_, hpos, hle⟩ := stringBody_decode b body' post
      simp only [starEnds, Bool.false_eq_true, if_false, List.flatMap_cons]
      rcases Nat.lt_or_ge (DecodeRuneInString (b :: body')).2 (b :: body').length with hw | hw
      · rw [ends_dot_open total b body' post hnl hw]
        have hfilter : List.filter (fun s' : Str =>
            decide (s'.length < (b :: body' ++ 0x22 :: post).length))
            [(b :: body').drop (DecodeRuneInString (b :: body')).2 ++ 0x22 :: post] =
            [(b :: body').drop (DecodeRuneInString (b :: body')).2 ++ 0x22 :: post] := by
          rw [List.filter_cons_of_pos, List.filter_nil]
          simp only [List.length_append, List.length_drop, List.length_cons, decide_eq_true_eq]
          simp only [List.length_cons] at hw
          omega
        rw [hfilter]
        simp only [List.flatMap_cons, List.flatMap_nil, List.append_nil]
        have hdne : (b :: body').drop (DecodeRuneInString (b :: body')).2 ≠ [] := by
          intro h0
          have := congrArg List.length h0
          simp only [List.length_drop, List.length_nil] at this
          omega
        have := ih ((b :: body').drop (DecodeRuneInString (b :: body')).2)
          (by
            simp only [List.length_drop]
            simp only [List.length_cons] at hlen ⊢
            omega)
          hdne
          (by rw [List.getLast?_drop, if_neg (by omega)]; exact hlast)
          (fun hmem => hnl (List.mem_of_mem_drop hmem))
        intro h0
        exact this (List.append_eq_nil.mp h0).2
      · rw [ends_tail_last total b body' post hlast (le_antisymm hle hw)]
        simp

theorem ends_stringPattern_open (total : Nat) (body post : Str) (hne : body ≠ [])
    (hlast : body.getLast? ≠ some 0x5C) (hnl : newline ∉ body) :
    ends total stringPattern (0x22 :: (body ++ 0x22 :: post)) ≠ [] := by
  rw [stringPattern_eq, ends_cat, ends_lit_cons _ 0x22 (by decide)]
  simp only [List.flatMap_cons, List.flatMap_nil, List.append_nil]
  exact open_body_match total post (body ++ 0x22 :: post).length body (by simp) hne hlast hnl

/-- A quote of the row that a later quote, not directly after a backslash,
follows at a distance, without a line feed between them, bounds the start of
the leftmost `STRING` match from the right. -/
theorem FindStringIndex_quote_pair (row : Str) (q c : Nat) (hqc : q + 1 < c)
    (hq : row[q]? = some 0x22) (hcq : row[c]? = some 0x22)
    (hprev : row[c - 1]? ≠ some 0x5C)
    (hnl : ∀ m : Nat, q < m → m < c → row[m]? ≠ some newline) :
    ∃ i j, FindStringIndex stringPattern row = some (i, j) ∧ i ≤ q := by
  have hclt : c < row.length := (List.getElem?_eq_some_iff.mp hcq).1
  have e1 : row = row.take q ++ 0x22 :: row.drop (q + 1) := by
    have hlt : q < row.length := by omega
    have hget : row[q] = 0x22 := (List.getElem?_eq_some_iff.mp hq).2
    rw [← hget, ← List.drop_eq_getElem_cons hlt, List.take_append_drop]
  have e2 : row.drop (q + 1) =
      (row.drop (q + 1)).take (c - (q + 1)) ++ 0x22 :: row.drop (c + 1) := by
    have hlt : c - (q + 1) < (row.drop (q + 1)).length := by
      rw [List.length_drop]; omega
    have hget : (row.drop (q + 1))[c - (q + 1)] = 0x22 := by
      rw [List.getElem_drop]
      have := (List.getElem?_eq_some_iff.mp hcq).2
      simp only [show q + 1 + (c - (q + 1)) = c by omega]
      exact this
    have hd : (row.drop (q + 1)).drop (c - (q + 1) + 1) = row.drop (c + 1) := by
      rw [List.drop_drop]
      congr 1
      omega
    rw [← hd, ← hget, ← List.drop_eq_getElem_cons hlt, List.take_append_drop]
  have hbody : ∀ idx : Nat, idx < c - (q + 1) →
      ((row.drop (q + 1)).take (c - (q + 1)))[idx]? = row[q + 1 + idx]? := by
    intro idx hidx
    rw [List.getElem?_take_of_lt hidx, List.getElem?_drop]
  have hlen : ((row.drop (q + 1)).take (c - (q + 1))).length = c - (q + 1) := by
    rw [List.length_take, List.length_drop]; omega
  have hne : (row.drop (q + 1)).take (c - (q + 1)) ≠ [] := by
    intro h0
    have := congrArg List.length h0
    rw [hlen] at this
    simp only [List.length_nil] at this
    omega
  have hlast : ((row.drop (q + 1)).take (c - (q + 1))).getLast? ≠ some 0x5C := by
    rw [List.getLast?_eq_getElem?, hlen, hbody _ (by omega)]
    rw [show q + 1 + (c - (q + 1) - 1) = c - 1 by omega]
    exact hprev
  have hnl' : newline ∉ (row.drop (q + 1)).take (c - (q + 1)) := by
    intro hmem
    obtain ⟨idx, hidx⟩ := List.mem_iff_getElem?.mp hmem
    have hlt : idx < c - (q + 1) := by
      have := (List.getElem?_eq_some_iff.mp hidx).1
      rw [hlen] at this
      exact this
    rw [hbody idx hlt] at hidx
    exact hnl (q + 1 + idx) (by omega) (by omega) hidx
  have := FindStringIndex_at_ascii stringPattern (row.take q)
    ((row.drop (q + 1)).take (c - (q + 1)) ++ 0x22 :: row.drop (c + 1)) 0x22 (by decide)
    (ends_stringPattern_open _ _ _ hne hlast hnl')
  rw [← e2, ← e1] at this
  obtain ⟨i, j, h, hi⟩ := this
  refine ⟨i, j, h, ?_⟩
  rw [List.length_take] at hi
  omega

end Regex

theorem forall₂_of_getElem? {R : Nat → Nat → Prop} :
    ∀ (l₁ l₂ : Str), l₁.length = l₂.length →
      (∀ (idx x y : Nat), l₁[idx]? = some x → l₂[idx]? = some y → R x y) →
      List.Forall₂ R l₁ l₂ := by
  intro l₁
  induction l₁ with
  | nil =>
    intro l₂ hlen _
    have : l₂ = [] := List.length_eq_zero.mp hlen.symm
    subst this
    exact List.Forall₂.nil
  | cons a t ih =>
    intro l₂ hlen h
    cases l₂ with
    | nil => simp at hlen
    | cons b t' =>
      refine List.Forall₂.cons (h 0 a b (by simp) (by simp)) (ih _ ?_ ?_)
      · simpa using hlen
      · intro idx x y hx hy
        exact h (idx + 1) x y (by simpa using hx) (by simpa using hy)

namespace Regex

/-- A word of the `STRING` pattern: a quote, a content that is not empty and
does not end in a backslash, a quote. -/
theorem stringPattern_matches_shape (w : Str) (h : Matches stringPattern w) :
    ∃ mid, w = 0x22 :: (mid ++ [0x22]) ∧ mid ≠ [] ∧ mid.getLast? ≠ some 0x5C := by
  rw [stringPattern_eq] at h
  obtain ⟨u, v, rfl, hu, u2, v2, rfl, _, u3, v3, rfl, hu3, hv3⟩ := h
  rw [matches_lit 0x22 (by decide) u hu, matches_lit 0x22 (by decide) v3 hv3]
  obtain ⟨hne, hlen, hc⟩ := hu3
  refine ⟨u2 ++ u3, by simp, by simp [hne], ?_⟩
  rw [List.getLast?_append_of_ne_nil _ hne]
  have hr := (classTest_not 0x5C _).mp hc
  cases u3 with
  | nil => exact absurd rfl hne
  | cons b t =>
    cases t with
    | nil =>
      simp only [List.getLast?_singleton, ne_eq, Option.some.injEq]
      intro hb
      rw [decode_ascii b [] (by omega)] at hr
      exact hr hb
    | cons x xs =>
      rw [List.getLast?_cons_cons]
      intro hl
      have hmem := List.mem_of_getLast?_eq_some hl
      have := decode_cont_bytes b (x :: xs) 0x5C (by
        rw [hlen]
        simp only [List.length_cons, Nat.add_sub_cancel]
        rw [List.take_of_length_le (by simp)]
        exact hmem)
      omega

end Regex

/-- One iteration of the inner loop of `lex` on a line without inner line
feed: the text of the match and the span of the line it is found at agree up
to ASCII bytes replaced by the sentinel, and the working copy keeps its
invariant on quotes. -/
theorem span_step (l : Lexer) (text : Str) (hnl : newline ∉ text) (k : TokenType)
    (v : Regex) (hv : TokenDefinition k = some v) (row : Str) (tokens : List Token) (i j : Nat)
    (hinv : LineInv l (text ++ [newline]) row tokens)
    (hq : QuoteInv (text ++ [newline]) row)
    (hf : v.FindStringIndex row = some (i, j)) :
    QuoteInv (text ++ [newline]) (blank row i j) ∧ i < j ∧
      (∃ c, (text ++ [newline])[i]? = some c ∧ c < 0x80) ∧
      List.Forall₂ sameClass (v.FindString row) (((text ++ [newline]).take j).drop i) := by
  obtain ⟨b, w, hb, hm, hfs, hj, hjle, hseg, hlni, hpt, hnlidx⟩ :=
    line_step_facts l text hnl k v hv row tokens i j hinv hf
  obtain ⟨hlen, hagree, _, _⟩ := hinv
  have hlnlen : (text ++ [newline]).length = text.length + 1 := by simp
  have hij : i < j := by simp only [List.length_cons] at hj; omega
  have hrowat : ∀ m : Nat, i ≤ m → m < j → row[m]? = (b :: w)[m - i]? := by
    intro m h1 h2
    have := hseg (m - i) (by omega)
    rwa [show i + (m - i) = m by omega] at this
  have hshape : k = STRING → ∃ mid, b :: w = 0x22 :: (mid ++ [0x22]) ∧ mid ≠ [] ∧
      mid.getLast? ≠ some 0x5C := by
    intro hk
    subst hk
    have : v = stringPattern := by
      have e : TokenDefinition STRING = some stringPattern := rfl
      rw [e] at hv
      exact (Option.some.inj hv).symm
    subst this
    exact Regex.stringPattern_matches_shape _ hm
  have hplain : k ≠ STRING → ∀ c ∈ b :: w, Regex.plainByte c := fun hk =>
    Regex.matches_plainOnly v (b :: w) (tokenDefinition_plainOnly k v hv hk) hm
  refine ⟨?_, hij, ⟨b, hlni, hb.1⟩, ?_⟩
  · intro q m c x hqm hmc hrq hrc hprev hrm hlm
    rw [hpt] at hrq hrc hrm
    rw [hpt] at hprev
    have hqout : ¬ (i ≤ q ∧ q < j) := by
      intro hin
      rw [if_pos hin] at hrq
      exact absurd (Option.some.inj hrq) (by decide)
    have hcout : ¬ (i ≤ c ∧ c < j) := by
      intro hin
      rw [if_pos hin] at hrc
      exact absurd (Option.some.inj hrc) (by decide)
    have hpout : ¬ (i ≤ c - 1 ∧ c - 1 < j) := by
      intro hin
      rw [if_pos hin] at hprev
      exact hprev rfl
    rw [if_neg hqout] at hrq
    rw [if_neg hcout] at hrc
    rw [if_neg hpout] at hprev
    by_cases hmin : i ≤ m ∧ m < j
    · by_cases hk : k = STRING
      · subst hk
        have hv' : v = stringPattern := by
          have e : TokenDefinition STRING = some stringPattern := rfl
          rw [e] at hv
          exact (Option.some.inj hv).symm
        subst hv'
        have hclt : c < row.length := (List.getElem?_eq_some_iff.mp hrc).1
        obtain ⟨i', j', hf', hi'⟩ := Regex.FindStringIndex_quote_pair row q c (by omega) hrq hrc
          hprev (by
            intro m' h1 h2 h3
            have := hnlidx m' newline h3 rfl
            omega)
        rw [hf] at hf'
        simp only [Option.some.injEq, Prod.mk.injEq] at hf'
        omega
      · have hr := hrowat m hmin.1 hmin.2
        cases hx : (b :: w)[m - i]? with
        | none =>
          have := List.getElem?_eq_none_iff.mp hx
          omega
        | some y =>
          rw [hx] at hr
          have hy := hplain hk y (List.getElem?_mem hx)
          have := hagree m y hr hy.2
          rw [hlm] at this
          rw [Option.some.inj this]
          exact hy.1
    · rw [if_neg hmin] at hrm
      exact hq q m c x hqm hmc hrq hrc hprev hrm hlm
  · rw [hfs]
    apply forall₂_of_getElem?
    · rw [List.length_drop, List.length_take, hlnlen]
      omega
    · intro idx x y hx hy
      have hidx : idx < (b :: w).length := (List.getElem?_eq_some_iff.mp hx).1
      have hrx : row[i + idx]? = some x := by rw [hseg idx hidx]; exact hx
      have hly : (text ++ [newline])[i + idx]? = some y := by
        rw [List.getElem?_drop, List.getElem?_take_of_lt (by omega)] at hy
        exact hy
      by_cases hxs : x = sentinel
      · right
        refine ⟨by rw [hxs]; decide, ?_⟩
        by_cases hk : k = STRING
        · obtain ⟨mid, hw, hmne, hmlast⟩ := hshape hk
          have hlen' : (b :: w).length = mid.length + 2 := by rw [hw]; simp
          have hmpos : 0 < mid.length := List.length_pos.mpr hmne
          have h0 : idx ≠ 0 := by
            intro h0
            rw [h0, hw] at hx
            simp only [List.getElem?_cons_zero, Option.some.injEq] at hx
            rw [hxs] at hx
            exact absurd hx (by decide)
          have hlastq : (b :: w)[mid.length + 1]? = some 0x22 := by
            rw [hw]
            simp
          have hprevq : (b :: w)[mid.length]? ≠ some 0x5C := by
            rw [hw]
            rw [List.getLast?_eq_getElem?] at hmlast
            intro h5
            apply hmlast
            rw [← h5]
            rw [show mid.length = (mid.length - 1) + 1 by omega, List.getElem?_cons_succ,
              List.getElem?_append_left (by omega)]
            simp
          have h1 : idx ≠ mid.length + 1 := by
            intro h1
            rw [h1, hlastq] at hx
            rw [hxs] at hx
            exact absurd (Option.some.inj hx) (by decide)
          have hrq : row[i]? = some 0x22 := by
            have := hseg 0 (by omega)
            rw [hw] at this
            simpa using this
          have hrc : row[i + (mid.length + 1)]? = some 0x22 := by
            rw [hseg _ (by omega)]; exact hlastq
          have hrp : row[i + (mid.length + 1) - 1]? ≠ some sentinel := by
            rw [show i + (mid.length + 1) - 1 = i + mid.length by omega, hseg _ (by omega)]
            exact hprevq
          exact hq i (i + idx) (i + (mid.length + 1)) y (by omega) (by omega) hrq hrc hrp
            (by rw [hrx, hxs]) hly
        · exact absurd hxs (hplain hk x (List.getElem?_mem hx)).2
      · left
        have := hagree (i + idx) x hrx hxs
        rw [hly] at this
        exact (Option.some.inj this).symm

theorem quoteInv_init (ln : Str) : QuoteInv ln ln := by
  intro q m c x _ _ _ _ _ hm hx
  rw [hm] at hx
  rw [← Option.some.inj hx]
  decide

/-- The end position of the token an iteration records, against its start
position and the rune count of its text. -/
theorem matchToken_span (l : Lexer) (k : TokenType) (v : Regex) (ln row : Str) (i j c : Nat)
    (hij : i < j) (hc : ln[i]? = some c) (hascii : c < 0x80)
    (hrel : List.Forall₂ sameClass (v.FindString row) ((ln.take j).drop i)) :
    (matchToken l k v ln row i j).Loc.End.Line = (matchToken l k v ln row i j).Loc.Start.Line ∧
      (matchToken l k v ln row i j).Loc.End.Offset =
        (matchToken l k v ln row i j).Loc.Start.Offset +
          RuneCountInString (matchToken l k v ln row i j).Value ∧
      (matchToken l k v ln row i j).Loc.End.Column + 1 =
        (matchToken l k v ln row i j).Loc.Start.Column +
          RuneCountInString (matchToken l k v ln row i j).Value ∧
      1 ≤ RuneCountInString (matchToken l k v ln row i j).Value := by
  have h1 := RuneCountInString_take_add ln i j c hij hc hascii
  have h2 := RuneCountInString_congr _ _ hrel
  have h3 := RuneCountInString_take_lt ln i j c hc hascii hij
  simp only [matchToken, newToken, newPosition]
  refine ⟨trivial, ?_, ?_, ?_⟩ <;> omega

theorem lex_span (l : Lexer) (order : List TokenType) (text : Str) (hnl : newline ∉ text)
    (ts : List Token) (h : lex l order (text ++ [newline]) = some ts) :
    ∀ t ∈ ts, t.Loc.End.Line = t.Loc.Start.Line ∧
      t.Loc.End.Offset = t.Loc.Start.Offset + RuneCountInString t.Value ∧
      t.Loc.End.Column + 1 = t.Loc.Start.Column + RuneCountInString t.Value ∧
      1 ≤ RuneCountInString t.Value := by
  unfold lex lexFuel at h
  cases hk : lexKinds l (text ++ [newline]) ((text ++ [newline]).length + 1) order
      (text ++ [newline]) [] with
  | none => rw [hk] at h; simp at h
  | some out =>
    rw [hk] at h
    simp only [Option.map_some', Option.some.injEq] at h
    subst h
    have := lexKinds_induct l (text ++ [newline]) ((text ++ [newline]).length + 1)
      (fun row tokens => LineInv l (text ++ [newline]) row tokens ∧
        QuoteInv (text ++ [newline]) row ∧
        ∀ t ∈ tokens, t.Loc.End.Line = t.Loc.Start.Line ∧
          t.Loc.End.Offset = t.Loc.Start.Offset + RuneCountInString t.Value ∧
          t.Loc.End.Column + 1 = t.Loc.Start.Column + RuneCountInString t.Value ∧
          1 ≤ RuneCountInString t.Value)
      (by
        intro k v hv row tokens i j ⟨h1, h2, h3⟩ hf
        obtain ⟨g1, g2, ⟨c, g3, g4⟩, g5⟩ := span_step l text hnl k v hv row tokens i j h1 h2 hf
        refine ⟨lineInv_step l _ (by simp) k v hv row tokens i j h1 hf, g1, ?_⟩
        intro t ht
        rcases List.mem_append.mp ht with ht | ht
        · exact h3 t ht
        · rw [List.mem_singleton.mp ht]
          exact matchToken_span l k v _ row i j c g2 g3 g4 g5)
      order (text ++ [newline]) [] out ⟨lineInv_init l _, quoteInv_init _, by simp⟩ hk
    exact this.2.2

theorem Lex_span (orders : Nat → List TokenType) (input : Reader) (tokens : List Token)
    (err : Option ScanError) (h : Lex orders input = some (tokens, err)) :
    ∀ t ∈ tokens, t.Loc.End.Line = t.Loc.Start.Line ∧
      t.Loc.End.Offset = t.Loc.Start.Offset + RuneCountInString t.Value ∧
      t.Loc.End.Column + 1 = t.Loc.Start.Column + RuneCountInString t.Value ∧
      1 ≤ RuneCountInString t.Value := by
  intro t ht
  obtain ⟨l, text, ts, htext, hl, hts⟩ := Lex_mem orders input tokens err h t ht
  exact lex_span l _ text (scannedLines_no_newline input text htext) ts hl t hts

/-! # The claims -/

/-- C1: whatever the input and the iteration orders of the token kinds (one for
each line, `orders k` for line `k`), the token list `Lex` returns is sorted by
start position: of two adjacent tokens the first starts on an earlier line, or
on the same line at a column that is not greater. -/
theorem Lex_sorted_by_start (orders : Nat → List TokenType) (input : Reader)
    (tokens : List Token) (err : Option ScanError)
    (h : Lex orders input = some (tokens, err)) :
    tokens.Chain' (fun a b => a.Loc.Start.Line < b.Loc.Start.Line ∨
      (a.Loc.Start.Line = b.Loc.Start.Line ∧ a.Loc.Start.Column ≤ b.Loc.Start.Column)) := by
  obtain ⟨ts, _, hL⟩ := Lex_eq orders input
  rw [hL] at h
  cases hs : (scanTokens input.fail (atEOF input) (rawLines input.data)).2 with
  | some e =>
    simp only [hs, Option.some.injEq, Prod.mk.injEq] at h
    rw [← h.1]
    exact List.chain'_nil
  | none =>
    simp only [hs, Option.some.injEq, Prod.mk.injEq] at h
    rw [← h.1]
    have := (sortTokens_sorted ts).chain'
    exact this.imp (fun {a b} hab => (tokenLE_iff a b).mp hab)

/-- C1 at the input `{}` with the kinds in the order of the source text. -/
theorem Lex_sorted_by_start_witness :
    Lex (fun _ => tokenKinds) { data := [0x7B, 0x7D], fail := none } =
        some ([newToken LBRACE [0x7B] (newPosition 1 1 0) (newPosition 1 1 1),
          newToken RBRACE [0x7D] (newPosition 1 2 1) (newPosition 1 2 2),
          newToken WHITESPACE [0x0A] (newPosition 1 3 2) (newPosition 1 3 3)], none) ∧
      [newToken LBRACE [0x7B] (newPosition 1 1 0) (newPosition 1 1 1),
        newToken RBRACE [0x7D] (newPosition 1 2 1) (newPosition 1 2 2),
        newToken WHITESPACE [0x0A] (newPosition 1 3 2) (newPosition 1 3 3)].Chain'
        (fun a b => a.Loc.Start.Line < b.Loc.Start.Line ∨
          (a.Loc.Start.Line = b.Loc.Start.Line ∧ a.Loc.Start.Column ≤ b.Loc.Start.Column)) :=
  ⟨by decide, Lex_sorted_by_start (fun _ => tokenKinds)
    { data := [0x7B, 0x7D], fail := none } _ none (by decide)⟩

/-- C2 at the input `":a"` with the kinds in the order of the source text
(`COLON` before `STRING`): the colon is claimed and blanked to a backslash, and
the `STRING` token matched afterwards spans offsets 0 to 4 of the same line,
over the `COLON` token at offset 1. -/
theorem Lex_string_overlaps_colon :
    ∃ tokens a b,
      Lex (fun _ => tokenKinds) { data := [0x22, 0x3A, 0x61, 0x22], fail := none } =
        some (tokens, none) ∧
      a ∈ tokens ∧ b ∈ tokens ∧ a.Kind = STRING ∧ b.Kind = COLON ∧
      a.Loc.Start.Line = b.Loc.Start.Line ∧
      a.Loc.Start.Offset < b.Loc.Start.Offset ∧ b.Loc.End.Offset < a.Loc.End.Offset :=
  ⟨[newToken STRING [0x22, 0x5C, 0x61, 0x22] (newPosition 1 1 0) (newPosition 1 4 4),
      newToken COLON [0x3A] (newPosition 1 2 1) (newPosition 1 2 2),
      newToken WHITESPACE [0x0A] (newPosition 1 5 4) (newPosition 1 5 5)],
    newToken STRING [0x22, 0x5C, 0x61, 0x22] (newPosition 1 1 0) (newPosition 1 4 4),
    newToken COLON [0x3A] (newPosition 1 2 1) (newPosition 1 2 2),
    by decide, by decide, by decide, rfl, rfl, rfl, by decide, by decide⟩

/-- C3 at the input `":a"` with the kinds in the order of the source text: the
`STRING` token that spans the whole input (offsets 0 to 4) has as its text
`"\a"`, with the sentinel backslash where the input has the colon. -/
theorem Lex_string_value_has_sentinel :
    ∃ tokens t,
      Lex (fun _ => tokenKinds) { data := [0x22, 0x3A, 0x61, 0x22], fail := none } =
        some (tokens, none) ∧
      t ∈ tokens ∧ t.Kind = STRING ∧ t.Loc.Start.Offset = 0 ∧ t.Loc.End.Offset = 4 ∧
      t.Value = [0x22, sentinel, 0x61, 0x22] ∧
      t.Value ≠ ([0x22, 0x3A, 0x61, 0x22].take 4).drop 0 :=
  ⟨[newToken STRING [0x22, 0x5C, 0x61, 0x22] (newPosition 1 1 0) (newPosition 1 4 4),
      newToken COLON [0x3A] (newPosition 1 2 1) (newPosition 1 2 2),
      newToken WHITESPACE [0x0A] (newPosition 1 5 4) (newPosition 1 5 5)],
    newToken STRING [0x22, 0x5C, 0x61, 0x22] (newPosition 1 1 0) (newPosition 1 4 4),
    by decide, by decide, rfl, rfl, rfl, rfl, by decide⟩

/-- C4 at the input `{`, carriage return, line feed, `}` with the kinds in the
order of the source text: the `RBRACE` token starts at line 2, column 1, offset
2, while three code points of the input come before it. -/
theorem Lex_crlf_offset :
    ∃ tokens t,
      Lex (fun _ => tokenKinds) { data := [0x7B, 0x0D, 0x0A, 0x7D], fail := none } =
        some (tokens, none) ∧
      t ∈ tokens ∧ t.Kind = RBRACE ∧ t.Value = [0x7D] ∧ t.Loc.Start = newPosition 2 1 2 ∧
      RuneCountInString ([0x7B, 0x0D, 0x0A, 0x7D].take 3) = 3 :=
  ⟨[newToken LBRACE [0x7B] (newPosition 1 1 0) (newPosition 1 1 1),
      newToken WHITESPACE [0x0A] (newPosition 1 2 1) (newPosition 1 2 2),
      newToken RBRACE [0x7D] (newPosition 2 1 2) (newPosition 2 1 3),
      newToken WHITESPACE [0x0A] (newPosition 2 2 3) (newPosition 2 2 4)],
    newToken RBRACE [0x7D] (newPosition 2 1 2) (newPosition 2 1 3),
    by decide, by decide, rfl, rfl, rfl, by decide⟩

/-- C5: whatever the input and the iteration orders of the token kinds, the
start offset strictly increases along the token list `Lex` returns, within a
line and across lines. -/
theorem Lex_start_offset_increasing (orders : Nat → List TokenType) (input : Reader)
    (tokens : List Token) (err : Option ScanError)
    (h : Lex orders input = some (tokens, err)) :
    tokens.Chain' (fun a b => a.Loc.Start.Offset < b.Loc.Start.Offset) := by
  cases err with
  | some e =>
    rw [Lex_error_tokens orders input tokens e h]
    exact List.chain'_nil
  | none =>
    obtain ⟨⟨hfacts, hdistinct⟩, hsorted⟩ := Lex_docInv orders input tokens h
    have hpw : tokens.Pairwise (fun a b => a.Loc.Start.Offset < b.Loc.Start.Offset) := by
      refine List.Pairwise.imp_of_mem ?_ (List.Pairwise.and hsorted hdistinct)
      intro a b ha hb hab
      obtain ⟨hle, hne⟩ := hab
      rw [tokenLE_iff] at hle
      obtain ⟨a1, a2, a3, a4, a5⟩ := hfacts a ha
      obtain ⟨b1, b2, b3, b4, b5⟩ := hfacts b hb
      by_cases hl : a.Loc.Start.Line = b.Loc.Start.Line
      · rw [hl] at a5
        omega
      · have hlt : a.Loc.Start.Line < b.Loc.Start.Line := by omega
        have := lineStart_mono (scanTokens input.fail (atEOF input) (rawLines input.data)).1
          a.Loc.Start.Line (b.Loc.Start.Line - 1) (by omega)
        omega
    exact hpw.chain'

/-- C5 at the two-line input `{`, line feed, `}` with the kinds in the order of
the source text. -/
theorem Lex_start_offset_increasing_witness :
    Lex (fun _ => tokenKinds) { data := [0x7B, 0x0A, 0x7D], fail := none } =
        some ([newToken LBRACE [0x7B] (newPosition 1 1 0) (newPosition 1 1 1),
          newToken WHITESPACE [0x0A] (newPosition 1 2 1) (newPosition 1 2 2),
          newToken RBRACE [0x7D] (newPosition 2 1 2) (newPosition 2 1 3),
          newToken WHITESPACE [0x0A] (newPosition 2 2 3) (newPosition 2 2 4)], none) ∧
      [newToken LBRACE [0x7B] (newPosition 1 1 0) (newPosition 1 1 1),
        newToken WHITESPACE [0x0A] (newPosition 1 2 1) (newPosition 1 2 2),
        newToken RBRACE [0x7D] (newPosition 2 1 2) (newPosition 2 1 3),
        newToken WHITESPACE [0x0A] (newPosition 2 2 3) (newPosition 2 2 4)].Chain'
        (fun a b => a.Loc.Start.Offset < b.Loc.Start.Offset) :=
  ⟨by decide, Lex_start_offset_increasing (fun _ => tokenKinds)
    { data := [0x7B, 0x0A, 0x7D], fail := none } _ none (by decide)⟩

theorem rawLines_replicate (c : Nat) (hc : c ≠ newline) :
    ∀ n, rawLines (List.replicate (n + 1) c) = [List.replicate (n + 1) c] := by
  intro n
  induction n with
  | zero => simp [rawLines, hc, List.replicate]
  | succ n ih =>
    rw [List.replicate_succ, rawLines, if_neg hc, ih]

theorem Lex_tooLong (orders : Nat → List TokenType) (input : Reader)
    (h : LineTooLong input) :
    Lex orders input = some ([], some ScanError.tooLong) := by
  obtain ⟨ts, _, hL⟩ := Lex_eq orders input
  rw [hL, (scanTokens_err input).1 h]

/-- C6, as the code has it: `Lex` always returns, and it returns an error
exactly when reading the stream fails or a line of the input does not fit the
buffer of the scanner (`LineTooLong`: a line of `MaxScanTokenSize`, 65536,
bytes or more, other than a last line without line feed of exactly that many
bytes that the reader hands over together with the end of the input).  With
an error it returns no tokens; a line that does not fit gives `ErrTooLong`;
when reading fails and every line fits, the error is the read error.  Every
line is shorter than 65536 bytes: every line fits; some line is longer than
65536 bytes: it does not fit.  So for every input that is delivered completely
and has only lines shorter than 65536 bytes, whatever its content, `Lex`
returns a token list and no error.  And an input of one line of exactly 65536
bytes without line feed fits exactly when the reader returns the end of the
input, or its error, together with the last bytes. -/
theorem Lex_error_iff (orders : Nat → List TokenType) (input : Reader) :
    ∃ tokens err, Lex orders input = some (tokens, err) ∧
      (err = none ↔ (input.fail = none ∧ ¬ LineTooLong input)) ∧
      (err ≠ none → tokens = []) ∧
      (LineTooLong input → err = some ScanError.tooLong) ∧
      (∀ code, input.fail = some code → ¬ LineTooLong input →
        err = some (ScanError.read code)) ∧
      ((∀ raw ∈ rawLines input.data, raw.length < MaxScanTokenSize) →
        ¬ LineTooLong input) ∧
      ((∃ raw ∈ rawLines input.data, MaxScanTokenSize < raw.length) → LineTooLong input) ∧
      (input.fail = none → (∀ raw ∈ rawLines input.data, raw.length < MaxScanTokenSize) →
        err = none) ∧
      (∀ raw, rawLines input.data = [raw] → raw.length = MaxScanTokenSize →
        input.data.getLast? ≠ some newline →
        (LineTooLong input ↔ input.errWithData = false)) := by
  obtain ⟨ts, _, hL⟩ := Lex_eq orders input
  obtain ⟨hlong, hfits⟩ := scanTokens_err input
  have hshort : (∀ raw ∈ rawLines input.data, raw.length < MaxScanTokenSize) →
      ¬ LineTooLong input := by
    rintro h ⟨pre, raw, rest, hr, h1, _⟩
    have := h raw (by rw [hr]; simp)
    omega
  have hover : (∃ raw ∈ rawLines input.data, MaxScanTokenSize < raw.length) →
      LineTooLong input := by
    rintro ⟨raw, hmem, h1⟩
    obtain ⟨pre, rest, hr⟩ := List.append_of_mem hmem
    exact ⟨pre, raw, rest, hr, by omega, fun h => by omega⟩
  have hedge : ∀ raw, rawLines input.data = [raw] → raw.length = MaxScanTokenSize →
      input.data.getLast? ≠ some newline →
      (LineTooLong input ↔ input.errWithData = false) := by
    intro raw hr hlen hlast
    constructor
    · rintro ⟨pre, raw', rest, h, _, h2⟩
      rw [hr] at h
      cases pre with
      | nil =>
        simp only [List.nil_append, List.cons.injEq] at h
        obtain ⟨rfl, hrest⟩ := h
        cases he : input.errWithData with
        | false => rfl
        | true => exact absurd ⟨hlen, hrest.symm, he, hlast⟩ h2
      | cons p pre =>
        simp only [List.cons_append, List.cons.injEq] at h
        have := congrArg List.length h.2
        simp only [List.length_nil, List.length_append, List.length_cons] at this
        omega
    · intro he
      refine ⟨[], raw, [], hr, by omega, ?_⟩
      rintro ⟨_, _, h3, _⟩
      rw [he] at h3
      exact absurd h3 (by decide)
  by_cases hl : LineTooLong input
  · rw [hlong hl] at hL
    refine ⟨[], some ScanError.tooLong, hL, ?_, fun _ => rfl, fun _ => rfl, ?_, hshort, hover,
      ?_, hedge⟩
    · simp [hl]
    · intro code _ hno
      exact absurd hl hno
    · intro _ h
      exact absurd hl (hshort h)
  · rw [hfits hl] at hL
    cases hf : input.fail with
    | none =>
      rw [hf] at hL
      refine ⟨sortTokens ts, none, hL, ?_, fun h => absurd rfl h, fun h => absurd h hl, ?_,
        hshort, hover, fun _ _ => rfl, hedge⟩
      · simp [hl]
      · intro code hc
        simp at hc
    | some code =>
      rw [hf] at hL
      refine ⟨[], some (ScanError.read code), hL, ?_, fun _ => rfl, fun h => absurd h hl, ?_,
        hshort, hover, ?_, hedge⟩
      · simp
      · intro code' hc _
        simp only [Option.some.injEq] at hc
        rw [hc]
      · intro h
        simp at h

/-- C6 fails as stated: a stream that delivers one line of 65537 bytes
completely makes `Lex` return `ErrTooLong`, whichever way the reader reports
the end of the input. -/
theorem Lex_error_without_read_failure :
    Lex (fun _ => tokenKinds)
        { data := List.replicate 65537 0x61, fail := none, errWithData := false } =
      some ([], some ScanError.tooLong) ∧
    Lex (fun _ => tokenKinds)
        { data := List.replicate 65537 0x61, fail := none, errWithData := true } =
      some ([], some ScanError.tooLong) := by
  have hlong : ∀ errWithData : Bool, LineTooLong
      { data := List.replicate 65537 0x61, fail := none, errWithData := errWithData } := by
    intro errWithData
    refine ⟨[], List.replicate 65537 0x61, [], rawLines_replicate 0x61 (by decide) 65536,
      ?_, ?_⟩
    · rw [List.length_replicate]; decide
    · rw [List.length_replicate]
      intro h
      exact absurd h.1 (by decide)
  exact ⟨Lex_tooLong _ _ (hlong false), Lex_tooLong _ _ (hlong true)⟩

/-- C7: whatever the input and the iteration orders of the token kinds, the text
of every `NUMBER` token `Lex` returns is a word of the number grammar
(`NumberWord`).  In particular, for the input `007` no `NUMBER` token has the
text `007`, nor any text with a leading zero followed by a digit. -/
theorem Lex_number_tokens :
    (∀ (orders : Nat → List TokenType) (input : Reader) (tokens : List Token)
      (err : Option ScanError), Lex orders input = some (tokens, err) →
      ∀ t ∈ tokens, t.Kind = NUMBER → NumberWord t.Value) ∧
    (∀ (orders : Nat → List TokenType) (errWithData : Bool) (tokens : List Token)
      (err : Option ScanError),
      Lex orders { data := [0x30, 0x30, 0x37], fail := none, errWithData := errWithData } =
        some (tokens, err) →
      ∀ t ∈ tokens, t.Kind = NUMBER → t.Value ≠ [0x30, 0x30, 0x37] ∧
        ∀ d rest, isDigit d → t.Value ≠ 0x30 :: d :: rest) := by
  have hgen : ∀ (orders : Nat → List TokenType) (input : Reader) (tokens : List Token)
      (err : Option ScanError), Lex orders input = some (tokens, err) →
      ∀ t ∈ tokens, t.Kind = NUMBER → NumberWord t.Value := by
    intro orders input tokens err h t ht hk
    obtain ⟨v, hv, _, _, hm⟩ := Lex_token_matches orders input tokens err h t ht
    rw [hk] at hv
    simp only [TokenDefinition, Option.some.injEq] at hv
    subst hv
    exact numberPattern_matches t.Value hm
  refine ⟨hgen, ?_⟩
  intro orders errWithData tokens err h t ht hk
  have hw := hgen orders _ tokens err h t ht hk
  have hno : ∀ d rest, isDigit d → t.Value ≠ 0x30 :: d :: rest := by
    intro d rest hd heq
    rw [heq] at hw
    exact not_numberWord_leading_zero d rest hd hw
  exact ⟨hno 0x30 [0x37] (by unfold isDigit; omega), hno⟩

/-- C7 at the input `007` with the kinds in the order of the source text: the
digits come out as three `NUMBER` tokens of one digit each. -/
theorem Lex_number_tokens_witness :
    Lex (fun _ => tokenKinds) { data := [0x30, 0x30, 0x37], fail := none } =
        some ([newToken NUMBER [0x30] (newPosition 1 1 0) (newPosition 1 1 1),
          newToken NUMBER [0x30] (newPosition 1 2 1) (newPosition 1 2 2),
          newToken NUMBER [0x37] (newPosition 1 3 2) (newPosition 1 3 3),
          newToken WHITESPACE [0x0A] (newPosition 1 4 3) (newPosition 1 4 4)], none) ∧
      ∀ t ∈ [newToken NUMBER [0x30] (newPosition 1 1 0) (newPosition 1 1 1),
          newToken NUMBER [0x30] (newPosition 1 2 1) (newPosition 1 2 2),
          newToken NUMBER [0x37] (newPosition 1 3 2) (newPosition 1 3 3),
          newToken WHITESPACE [0x0A] (newPosition 1 4 3) (newPosition 1 4 4)],
        t.Kind = NUMBER → NumberWord t.Value :=
  ⟨by decide, Lex_number_tokens.1 (fun _ => tokenKinds)
    { data := [0x30, 0x30, 0x37], fail := none } _ none
    (by decide)⟩

/-- What the `STRING` pattern does match: on a line not yet blanked, from the
leftmost double quote up to and including the first later double quote that
stands after at least one byte of content and directly after a byte other than
a backslash (`StringBody`).  For such a literal on a line that fits the buffer
of the scanner `Lex`, iterating `STRING` first, emits one `STRING` token
spanning exactly that literal. -/
theorem Lex_string_literal (orders : Nat → List TokenType) (order : List TokenType)
    (pre body post : Str) (hpre : 0x22 ∉ pre) (hbody : StringBody body)
    (hlen : body.length + 2 < MaxScanTokenSize) (hfirst : orders 0 = STRING :: order)
    (horder : STRING ∉ order) :
    stringPattern.FindStringIndex (pre ++ 0x22 :: (body ++ 0x22 :: post)) =
        some (pre.length, pre.length + (body.length + 2)) ∧
      ∃ tokens, Lex orders { data := 0x22 :: (body ++ [0x22]), fail := none } =
          some (tokens, none) ∧
        tokens.filter (fun t => decide (t.Kind = STRING)) =
          [newToken STRING (0x22 :: (body ++ [0x22])) (newPosition 1 1 0)
            (newPosition 1 (RuneCountInString (0x22 :: (body ++ [0x22])))
              (RuneCountInString (0x22 :: (body ++ [0x22]))))] :=
  ⟨Regex.FindStringIndex_literal pre body post hpre hbody,
    Lex_literal orders order body hbody hlen hfirst horder⟩

/-- The literal `"a\"b"` (an escaped quote inside) with `STRING` scanned first
is matched as one `STRING` token. -/
theorem Lex_string_literal_witness :
    (0x22 ∉ ([] : Str) ∧ StringBody [0x61, 0x5C, 0x22, 0x62] ∧
      [0x61, 0x5C, 0x22, 0x62].length + 2 < MaxScanTokenSize ∧
      (fun _ : Nat => STRING :: kindsAfterString) 0 = STRING :: kindsAfterString ∧
      STRING ∉ kindsAfterString) ∧
    (stringPattern.FindStringIndex
        ([] ++ 0x22 :: ([0x61, 0x5C, 0x22, 0x62] ++ 0x22 :: [newline])) =
        some (([] : Str).length, ([] : Str).length + ([0x61, 0x5C, 0x22, 0x62].length + 2)) ∧
      ∃ tokens, Lex (fun _ => STRING :: kindsAfterString)
          { data := 0x22 :: ([0x61, 0x5C, 0x22, 0x62] ++ [0x22]), fail := none } =
          some (tokens, none) ∧
        tokens.filter (fun t => decide (t.Kind = STRING)) =
          [newToken STRING (0x22 :: ([0x61, 0x5C, 0x22, 0x62] ++ [0x22])) (newPosition 1 1 0)
            (newPosition 1 (RuneCountInString (0x22 :: ([0x61, 0x5C, 0x22, 0x62] ++ [0x22])))
              (RuneCountInString (0x22 :: ([0x61, 0x5C, 0x22, 0x62] ++ [0x22]))))]) := by
  have hbody : StringBody [0x61, 0x5C, 0x22, 0x62] := by
    refine ⟨by decide, by decide, by decide, ?_⟩
    intro u v h
    rcases u with _ | ⟨a, _ | ⟨b, _ | ⟨c, u⟩⟩⟩
    · exact Or.inl rfl
    · simp at h
    · simp only [List.cons_append, List.nil_append, List.cons.injEq] at h
      right
      rw [← h.2.1]
      rfl
    · simp only [List.cons_append, List.cons.injEq] at h
      obtain ⟨_, _, _, h4⟩ := h
      rcases u with _ | ⟨d, u⟩
      · simp at h4
      · simp at h4
  exact ⟨⟨by simp, hbody, by decide, rfl, by decide⟩,
    Lex_string_literal (fun _ => STRING :: kindsAfterString) kindsAfterString []
      [0x61, 0x5C, 0x22, 0x62] [newline] (by simp) hbody (by decide) rfl (by decide)⟩

/-- C8 at the literals `""` (empty string) and `"a\\"` (ending in an escaped
backslash), which the claim has `Lex` emit as one `STRING` token each: on
their lines the `STRING` pattern finds no match, and `Lex`, iterating `STRING`
first, returns for each of these inputs only the `WHITESPACE` token of the line
terminator. -/
theorem Lex_string_literal_missed :
    stringPattern.FindStringIndex [0x22, 0x22, newline] = none ∧
    stringPattern.FindStringIndex [0x22, 0x61, 0x5C, 0x5C, 0x22, newline] = none ∧
    Lex (fun _ => STRING :: kindsAfterString) { data := [0x22, 0x22], fail := none } =
      some ([newToken WHITESPACE [newline] (newPosition 1 3 2) (newPosition 1 3 3)], none) ∧
    Lex (fun _ => STRING :: kindsAfterString)
        { data := [0x22, 0x61, 0x5C, 0x5C, 0x22], fail := none } =
      some ([newToken WHITESPACE [newline] (newPosition 1 6 5) (newPosition 1 6 6)], none) := by
  decide

/-- C9, as the code has it: for the input `{}` and every iteration order of the
token kinds (`orders k` a permutation of the keys of the table), whichever way
the reader reports the end of the input, `Lex` returns exactly three tokens:
`LBRACE` at line 1, column 1,
offset 0, `RBRACE` at line 1, column 2, offset 1, and the `WHITESPACE` token of
the line terminator that `Lex` appends, at line 1, column 3, offset 2. -/
theorem Lex_braces (orders : Nat → List TokenType)
    (hperm : ∀ k, (orders k).Perm tokenKinds) (errWithData : Bool) :
    Lex orders { data := [0x7B, 0x7D], fail := none, errWithData := errWithData } =
      some ([newToken LBRACE [0x7B] (newPosition 1 1 0) (newPosition 1 1 1),
        newToken RBRACE [0x7D] (newPosition 1 2 1) (newPosition 1 2 2),
        newToken WHITESPACE [0x0A] (newPosition 1 3 2) (newPosition 1 3 3)], none) := by
  cases errWithData <;>
  exact Lex_perm_cases braceKinds _
    (fun r => r = some ([newToken LBRACE [0x7B] (newPosition 1 1 0) (newPosition 1 1 1),
      newToken RBRACE [0x7D] (newPosition 1 2 1) (newPosition 1 2 2),
      newToken WHITESPACE [0x0A] (newPosition 1 3 2) (newPosition 1 3 3)], none))
    (by decide) (by decide) orders hperm

/-- C9 amended, at the order of the source text. -/
theorem Lex_braces_witness :
    (∀ k : Nat, ((fun _ => tokenKinds) k).Perm tokenKinds) ∧
      Lex (fun _ => tokenKinds) { data := [0x7B, 0x7D], fail := none } =
        some ([newToken LBRACE [0x7B] (newPosition 1 1 0) (newPosition 1 1 1),
          newToken RBRACE [0x7D] (newPosition 1 2 1) (newPosition 1 2 2),
          newToken WHITESPACE [0x0A] (newPosition 1 3 2) (newPosition 1 3 3)], none) :=
  ⟨fun _ => List.Perm.refl _,
    Lex_braces (fun _ => tokenKinds) (fun _ => List.Perm.refl _) false⟩

/-- C9 fails as stated: for the input `{}` the token list `Lex` returns does
not have exactly two tokens (it has a third, the `WHITESPACE` token of the
appended line terminator). -/
theorem Lex_braces_not_two_tokens :
    ¬ ∃ tokens, Lex (fun _ => tokenKinds) { data := [0x7B, 0x7D], fail := none } =
        some (tokens, none) ∧
      tokens.length = 2 := by
  rintro ⟨tokens, h, hlen⟩
  have h3 : Lex (fun _ => tokenKinds) { data := [0x7B, 0x7D], fail := none } =
      some ([newToken LBRACE [0x7B] (newPosition 1 1 0) (newPosition 1 1 1),
        newToken RBRACE [0x7D] (newPosition 1 2 1) (newPosition 1 2 2),
        newToken WHITESPACE [0x0A] (newPosition 1 3 2) (newPosition 1 3 3)], none) := by decide
  rw [h3] at h
  simp only [Option.some.injEq, Prod.mk.injEq, and_true] at h
  rw [← h] at hlen
  simp at hlen

/-- C11, as the code has it: for the input line `"a"` followed by a line feed
and every iteration order of the token kinds, whichever way the reader reports
the end of the input, `Lex` returns one `STRING` token
whose text is `"a"` with the quotes included, whose start column is 1 and whose
end column is 3, the column of the last character of the match (the end offset,
3, is the one that points past the match); the only other token is the
`WHITESPACE` token of the line terminator. -/
theorem Lex_quoted_a (orders : Nat → List TokenType)
    (hperm : ∀ k, (orders k).Perm tokenKinds) (errWithData : Bool) :
    Lex orders
        { data := [0x22, 0x61, 0x22, 0x0A], fail := none, errWithData := errWithData } =
      some ([newToken STRING [0x22, 0x61, 0x22] (newPosition 1 1 0) (newPosition 1 3 3),
        newToken WHITESPACE [0x0A] (newPosition 1 4 3) (newPosition 1 4 4)], none) := by
  cases errWithData <;>
  exact Lex_perm_cases stringKinds _
    (fun r => r = some ([newToken STRING [0x22, 0x61, 0x22] (newPosition 1 1 0)
        (newPosition 1 3 3),
      newToken WHITESPACE [0x0A] (newPosition 1 4 3) (newPosition 1 4 4)], none))
    (by decide) (by decide) orders hperm

/-- C11 amended, at the order of the source text. -/
theorem Lex_quoted_a_witness :
    (∀ k : Nat, ((fun _ => tokenKinds) k).Perm tokenKinds) ∧
      Lex (fun _ => tokenKinds) { data := [0x22, 0x61, 0x22, 0x0A], fail := none } =
        some ([newToken STRING [0x22, 0x61, 0x22] (newPosition 1 1 0) (newPosition 1 3 3),
          newToken WHITESPACE [0x0A] (newPosition 1 4 3) (newPosition 1 4 4)], none) :=
  ⟨fun _ => List.Perm.refl _,
    Lex_quoted_a (fun _ => tokenKinds) (fun _ => List.Perm.refl _) false⟩

/-- C11 fails as stated: for the input line `"a"` followed by a line feed no
`STRING` token of the result has end column 4. -/
theorem Lex_quoted_a_end_column_not_four :
    ¬ ∃ tokens t,
      Lex (fun _ => tokenKinds) { data := [0x22, 0x61, 0x22, 0x0A], fail := none } =
        some (tokens, none) ∧
      t ∈ tokens ∧ t.Kind = STRING ∧ t.Loc.End.Column = 4 := by
  rintro ⟨tokens, t, h, ht, hk, hc⟩
  have h2 : Lex (fun _ => tokenKinds) { data := [0x22, 0x61, 0x22, 0x0A], fail := none } =
      some ([newToken STRING [0x22, 0x61, 0x22] (newPosition 1 1 0) (newPosition 1 3 3),
        newToken WHITESPACE [0x0A] (newPosition 1 4 3) (newPosition 1 4 4)], none) := by decide
  rw [h2] at h
  simp only [Option.some.injEq, Prod.mk.injEq, and_true] at h
  rw [← h] at ht
  simp only [List.mem_cons, List.mem_singleton, List.not_mem_nil, or_false] at ht
  rcases ht with rfl | rfl
  · simp [newToken, newPosition] at hc
  · simp [newToken] at hk

/-- C12: for the empty input, whatever the iteration orders and whichever way
the reader reports the end of the input, `Lex` returns an empty token sequence
and no error; no `EOF` token is produced. -/
theorem Lex_empty_input (orders : Nat → List TokenType) (errWithData : Bool) :
    Lex orders { data := [], fail := none, errWithData := errWithData } = some ([], none) := by
  cases errWithData <;> rfl

/-- C13: whatever the input and the iteration orders of the token kinds, every
token `Lex` returns whose kind is not `EOF` has a text that is not empty (and
so has every token, none being of kind `EOF`). -/
theorem Lex_token_text_nonempty (orders : Nat → List TokenType) (input : Reader)
    (tokens : List Token) (err : Option ScanError)
    (h : Lex orders input = some (tokens, err)) :
    (∀ t ∈ tokens, t.Kind ≠ EOF → t.Value ≠ []) ∧ ∀ t ∈ tokens, t.Value ≠ [] := by
  have hall : ∀ t ∈ tokens, t.Value ≠ [] := by
    intro t ht
    obtain ⟨v, _, hc, _, hm⟩ := Lex_token_matches orders input tokens err h t ht
    exact Regex.matches_consumes v t.Value hc hm
  exact ⟨fun t ht _ => hall t ht, hall⟩

/-- C13 at the input `true 1` with the kinds in the order of the source text. -/
theorem Lex_token_text_nonempty_witness :
    Lex (fun _ => tokenKinds) { data := [0x74, 0x72, 0x75, 0x65, 0x20, 0x31], fail := none } =
        some ([newToken TRUE [0x74, 0x72, 0x75, 0x65] (newPosition 1 1 0) (newPosition 1 4 4),
          newToken WHITESPACE [0x20] (newPosition 1 5 4) (newPosition 1 5 5),
          newToken NUMBER [0x31] (newPosition 1 6 5) (newPosition 1 6 6),
          newToken WHITESPACE [0x0A] (newPosition 1 7 6) (newPosition 1 7 7)], none) ∧
      ((∀ t ∈ [newToken TRUE [0x74, 0x72, 0x75, 0x65] (newPosition 1 1 0) (newPosition 1 4 4),
          newToken WHITESPACE [0x20] (newPosition 1 5 4) (newPosition 1 5 5),
          newToken NUMBER [0x31] (newPosition 1 6 5) (newPosition 1 6 6),
          newToken WHITESPACE [0x0A] (newPosition 1 7 6) (newPosition 1 7 7)],
          t.Kind ≠ EOF → t.Value ≠ []) ∧
        ∀ t ∈ [newToken TRUE [0x74, 0x72, 0x75, 0x65] (newPosition 1 1 0) (newPosition 1 4 4),
          newToken WHITESPACE [0x20] (newPosition 1 5 4) (newPosition 1 5 5),
          newToken NUMBER [0x31] (newPosition 1 6 5) (newPosition 1 6 6),
          newToken WHITESPACE [0x0A] (newPosition 1 7 6) (newPosition 1 7 7)],
          t.Value ≠ []) :=
  ⟨by decide, Lex_token_text_nonempty (fun _ => tokenKinds)
    { data := [0x74, 0x72, 0x75, 0x65, 0x20, 0x31], fail := none } _ none (by decide)⟩

/-- C14: the iteration order over the token kinds is a real parameter of the
result.  For the input `"1"` (a quoted string whose content is a number) the
order of the source text, with `NUMBER` before `STRING`, gives a `NUMBER` token
and no `STRING` token, and the order with `STRING` first gives the `STRING`
token `"1"`; both orders are permutations of the keys of the pattern table. -/
theorem Lex_depends_on_order :
    ∃ (input : Reader) (o₁ o₂ : List TokenType),
      o₁.Perm tokenKinds ∧ o₂.Perm tokenKinds ∧
      Lex (fun _ => o₁) input =
        some ([newToken NUMBER [0x31] (newPosition 1 2 1) (newPosition 1 2 2),
          newToken WHITESPACE [0x0A] (newPosition 1 4 3) (newPosition 1 4 4)], none) ∧
      Lex (fun _ => o₂) input =
        some ([newToken STRING [0x22, 0x31, 0x22] (newPosition 1 1 0) (newPosition 1 3 3),
          newToken WHITESPACE [0x0A] (newPosition 1 4 3) (newPosition 1 4 4)], none) ∧
      Lex (fun _ => o₁) input ≠ Lex (fun _ => o₂) input :=
  ⟨{ data := [0x22, 0x31, 0x22], fail := none }, tokenKinds, STRING :: kindsAfterString,
    List.Perm.refl _, by decide, by decide, by decide, by decide⟩

/-- C15: whatever the input and the iteration orders of the token kinds, no two
of the tokens `Lex` collects have the same start line and column; so the
comparison function of the sort never reports a tie between two of them, and
every sorted arrangement of the collected tokens, whatever the sorting
algorithm, stable or not, is the one list `sortTokens` gives, which is what
`Lex` returns when reading does not fail. -/
theorem Lex_sort_has_no_ties (orders : Nat → List TokenType) (input : Reader) :
    ∃ collected, lexLines orders { lineNumber := 0, numberOfChar := 0 }
        (scannedLines input) [] = some collected ∧
      collected.Pairwise (fun a b => a.Loc.Start.Line ≠ b.Loc.Start.Line ∨
        a.Loc.Start.Column ≠ b.Loc.Start.Column) ∧
      collected.Pairwise (fun a b => compareTokens a b ≠ 0) ∧
      (∀ sorted : List Token, sorted.Perm collected → sorted.Sorted tokenLE →
        sorted = sortTokens collected) ∧
      ∀ tokens, Lex orders input = some (tokens, none) → tokens = sortTokens collected := by
  obtain ⟨collected, hc, _, hpw⟩ := lexLines_collected orders input
  refine ⟨collected, hc, hpw, ?_, ?_, ?_⟩
  · refine hpw.imp ?_
    intro a b hab h0
    rw [compareTokens_eq_zero] at h0
    omega
  · intro sorted hp hs
    exact sorted_unique collected hpw sorted (sortTokens collected) hp (sortTokens_perm collected)
      hs (sortTokens_sorted collected)
  · intro tokens h
    unfold Lex at h
    unfold scannedLines at hc
    rw [hc] at h
    cases hs : (scanTokens input.fail (atEOF input) (rawLines input.data)).2 with
    | some e => simp [hs] at h
    | none =>
      simp only [hs, Option.some.injEq, Prod.mk.injEq, and_true] at h
      exact h.symm

/-- C16: for every line `Lex` hands to the per-line scan (the text of the line
with a line feed appended) and every iteration order, the scan ends: `lex`
returns, and with any larger fuel it returns the same tokens.  Every match
found in a working copy that is not empty is not empty and starts at a byte
that is not the sentinel, so each blanking lowers the number of bytes that are
not the sentinel; and on such a working copy the `EOF` pattern never matches. -/
theorem lex_terminates (l : Lexer) (order : List TokenType) (text : Str) :
    (∃ tokens, lex l order (text ++ [newline]) = some tokens ∧
      ∀ n, lexFuel l order ((text ++ [newline]).length + 1 + n) (text ++ [newline]) =
        some tokens) ∧
    (∀ k v, TokenDefinition k = some v → ∀ row : Str, row ≠ [] → ∀ i j,
      v.FindStringIndex row = some (i, j) →
      i < j ∧ (∃ b, row[i]? = some b ∧ b ≠ sentinel) ∧
        plainCount (blank row i j) < plainCount row) ∧
    (∀ row : Str, row ≠ [] → (Regex.cat Regex.bot Regex.eot).FindStringIndex row = none) := by
  refine ⟨?_, ?_, ?_⟩
  · obtain ⟨tokens, h⟩ := lex_isSome l order (text ++ [newline]) (by simp)
    exact ⟨tokens, h, fun n => lexFuel_mono l order _ _ n tokens h⟩
  · intro k v hv row hrow i j hf
    exact find_progress k v hv row hrow i j hf
  · intro row hrow
    exact Regex.searchFrom_bot_eot row.length (by simpa using hrow) row 0

/-- C16 at the line `{}` with the kinds in the order of the source text: the
scan returns its three tokens, with the fuel of `lex` and with ten units more. -/
theorem lex_terminates_witness :
    lex { lineNumber := 0, numberOfChar := 0 } tokenKinds ([0x7B, 0x7D] ++ [newline]) =
        some [newToken LBRACE [0x7B] (newPosition 1 1 0) (newPosition 1 1 1),
          newToken RBRACE [0x7D] (newPosition 1 2 1) (newPosition 1 2 2),
          newToken WHITESPACE [0x0A] (newPosition 1 3 2) (newPosition 1 3 3)] ∧
      ∃ tokens, lex { lineNumber := 0, numberOfChar := 0 } tokenKinds
          ([0x7B, 0x7D] ++ [newline]) = some tokens ∧
        ∀ n, lexFuel { lineNumber := 0, numberOfChar := 0 } tokenKinds
          (([0x7B, 0x7D] ++ [newline]).length + 1 + n) ([0x7B, 0x7D] ++ [newline]) =
          some tokens :=
  ⟨by decide, (lex_terminates { lineNumber := 0, numberOfChar := 0 } tokenKinds [0x7B, 0x7D]).1⟩

/-- C17: whatever the input and the iteration orders of the token kinds, each
scanned line contributes exactly one token whose text holds a line feed: among
the tokens `Lex` collects, and among the tokens it returns when reading does
not fail, there are as many such tokens as scanned lines (a last line without
terminator in the input included), every token is on one of the scanned lines,
and on each scanned line exactly one token holds a line feed; that token has
kind `WHITESPACE`, its text ends in the line feed, and in the result it is the
last of the tokens of its line. -/
theorem Lex_line_terminator_tokens (orders : Nat → List TokenType)
    (hperm : ∀ k, (orders k).Perm tokenKinds) (input : Reader) :
    ∃ collected, lexLines orders { lineNumber := 0, numberOfChar := 0 }
        (scannedLines input) [] = some collected ∧
      (collected.filter hasNewline).length = (scannedLines input).length ∧
      (∀ k : Nat, k < (scannedLines input).length → ∃ t₀,
        collected.filter (fun t => hasNewline t && decide (t.Loc.Start.Line = k + 1)) = [t₀] ∧
        t₀.Kind = WHITESPACE ∧ t₀.Value.getLast? = some newline) ∧
      ∀ tokens, Lex orders input = some (tokens, none) →
        (tokens.filter hasNewline).length = (scannedLines input).length ∧
        (∀ t ∈ tokens, 1 ≤ t.Loc.Start.Line ∧
          t.Loc.Start.Line ≤ (scannedLines input).length) ∧
        ∀ k : Nat, k < (scannedLines input).length → ∃ t₀,
          tokens.filter (fun t => hasNewline t && decide (t.Loc.Start.Line = k + 1)) = [t₀] ∧
          t₀.Kind = WHITESPACE ∧ t₀.Value.getLast? = some newline ∧
          (tokens.filter (fun t => decide (t.Loc.Start.Line = k + 1))).getLast? = some t₀ := by
  obtain ⟨collected, hc, hdoc⟩ := lexLines_collected orders input
  have hws : ∀ k, WHITESPACE ∈ orders k := fun k => (hperm k).mem_iff.mpr (by decide)
  have hinv : TerminatorInv (scannedLines input).length collected := by
    have := lexLines_terminator orders hws (scannedLines input)
      { lineNumber := 0, numberOfChar := 0 } [] collected (scannedLines_no_newline input)
      ⟨by simp, rfl, by simp⟩ hc
    simpa using this
  refine ⟨collected, hc, hinv.2.1, ?_, ?_⟩
  · intro k hk
    obtain ⟨t₀, g1, g2, g3, _⟩ := hinv.2.2 k hk
    exact ⟨t₀, g1, g2, g3⟩
  · intro tokens h
    have htok : tokens = sortTokens collected := by
      unfold Lex at h
      unfold scannedLines at hc
      rw [hc] at h
      cases hs : (scanTokens input.fail (atEOF input) (rawLines input.data)).2 with
      | some e => simp [hs] at h
      | none =>
        simp only [hs, Option.some.injEq, Prod.mk.injEq, and_true] at h
        exact h.symm
    have hp : tokens.Perm collected := by rw [htok]; exact sortTokens_perm collected
    have hsorted : tokens.Sorted tokenLE := by rw [htok]; exact sortTokens_sorted collected
    have hdoc' := docInv_perm _ collected tokens hp hdoc
    obtain ⟨h1, h2, h3⟩ := terminatorInv_perm _ collected tokens hp hinv
    refine ⟨h2, h1, ?_⟩
    intro k hk
    obtain ⟨t₀, g1, g2, g3, g4⟩ := h3 k hk
    have hmem : t₀ ∈ tokens.filter
        (fun t => hasNewline t && decide (t.Loc.Start.Line = k + 1)) := by
      rw [g1]; exact List.mem_singleton_self _
    rw [List.mem_filter] at hmem
    have hline : t₀.Loc.Start.Line = k + 1 := by
      have := hmem.2
      simp only [Bool.and_eq_true, decide_eq_true_eq] at this
      exact this.2
    exact ⟨t₀, g1, g2, g3, last_of_line tokens hsorted hdoc'.2 (k + 1) t₀ hmem.1 hline g4⟩

/-- C17 at the input `{}` without line terminator, with the kinds in the order
of the source text. -/
theorem Lex_line_terminator_tokens_witness :
    (∀ k : Nat, ((fun _ => tokenKinds) k).Perm tokenKinds) ∧
    scannedLines { data := [0x7B, 0x7D], fail := none } = [[0x7B, 0x7D]] ∧
    ∃ collected, lexLines (fun _ => tokenKinds) { lineNumber := 0, numberOfChar := 0 }
        (scannedLines { data := [0x7B, 0x7D], fail := none }) [] = some collected ∧
      (collected.filter hasNewline).length =
        (scannedLines { data := [0x7B, 0x7D], fail := none }).length ∧
      (∀ k : Nat, k < (scannedLines { data := [0x7B, 0x7D], fail := none }).length → ∃ t₀,
        collected.filter (fun t => hasNewline t && decide (t.Loc.Start.Line = k + 1)) = [t₀] ∧
        t₀.Kind = WHITESPACE ∧ t₀.Value.getLast? = some newline) ∧
      ∀ tokens, Lex (fun _ => tokenKinds) { data := [0x7B, 0x7D], fail := none } =
          some (tokens, none) →
        (tokens.filter hasNewline).length =
          (scannedLines { data := [0x7B, 0x7D], fail := none }).length ∧
        (∀ t ∈ tokens, 1 ≤ t.Loc.Start.Line ∧
          t.Loc.Start.Line ≤ (scannedLines { data := [0x7B, 0x7D], fail := none }).length) ∧
        ∀ k : Nat, k < (scannedLines { data := [0x7B, 0x7D], fail := none }).length → ∃ t₀,
          tokens.filter (fun t => hasNewline t && decide (t.Loc.Start.Line = k + 1)) = [t₀] ∧
          t₀.Kind = WHITESPACE ∧ t₀.Value.getLast? = some newline ∧
          (tokens.filter (fun t => decide (t.Loc.Start.Line = k + 1))).getLast? = some t₀ :=
  ⟨fun _ => List.Perm.refl _, by decide,
    Lex_line_terminator_tokens (fun _ => tokenKinds) (fun _ => List.Perm.refl _)
      { data := [0x7B, 0x7D], fail := none }⟩

/-- C18: whatever the input and the iteration orders of the token kinds, every
token `Lex` returns, with `n` the number of code points of its text (at least
one), ends on the line it starts on, has the end offset `Start.Offset + n`
(exclusive) and the end column `Start.Column + n - 1` (inclusive, the column of
its last character); so `End.Offset - Start.Offset` is
`End.Column - Start.Column + 1`. -/
theorem Lex_token_end (orders : Nat → List TokenType) (input : Reader)
    (tokens : List Token) (err : Option ScanError)
    (h : Lex orders input = some (tokens, err)) :
    ∀ t ∈ tokens, 1 ≤ RuneCountInString t.Value ∧
      t.Loc.End.Line = t.Loc.Start.Line ∧
      t.Loc.End.Offset = t.Loc.Start.Offset + RuneCountInString t.Value ∧
      t.Loc.End.Column = t.Loc.Start.Column + RuneCountInString t.Value - 1 ∧
      t.Loc.End.Column + 1 = t.Loc.Start.Column + RuneCountInString t.Value ∧
      t.Loc.End.Offset - t.Loc.Start.Offset = t.Loc.End.Column - t.Loc.Start.Column + 1 := by
  intro t ht
  obtain ⟨h1, h2, h3, h4⟩ := Lex_span orders input tokens err h t ht
  refine ⟨h4, h1, h2, ?_, h3, ?_⟩ <;> omega

/-- C18 at the input of a string literal with the two-byte letter U+00E9, with
the kinds in the order of the source text: the text of the `STRING` token has
four bytes and three code points. -/
theorem Lex_token_end_witness :
    Lex (fun _ => tokenKinds) { data := [0x22, 0xC3, 0xA9, 0x22], fail := none } =
        some ([newToken STRING [0x22, 0xC3, 0xA9, 0x22] (newPosition 1 1 0) (newPosition 1 3 3),
          newToken WHITESPACE [0x0A] (newPosition 1 4 3) (newPosition 1 4 4)], none) ∧
      ∀ t ∈ [newToken STRING [0x22, 0xC3, 0xA9, 0x22] (newPosition 1 1 0) (newPosition 1 3 3),
          newToken WHITESPACE [0x0A] (newPosition 1 4 3) (newPosition 1 4 4)],
        1 ≤ RuneCountInString t.Value ∧
        t.Loc.End.Line = t.Loc.Start.Line ∧
        t.Loc.End.Offset = t.Loc.Start.Offset + RuneCountInString t.Value ∧
        t.Loc.End.Column = t.Loc.Start.Column + RuneCountInString t.Value - 1 ∧
        t.Loc.End.Column + 1 = t.Loc.Start.Column + RuneCountInString t.Value ∧
        t.Loc.End.Offset - t.Loc.Start.Offset =
          t.Loc.End.Column - t.Loc.Start.Column + 1 :=
  ⟨by decide, Lex_token_end (fun _ => tokenKinds)
    { data := [0x22, 0xC3, 0xA9, 0x22], fail := none } _ none (by decide)⟩

/-- C19: whatever the input and the iteration orders of the token kinds, no
token `Lex` returns has kind `EOF` or `INVALID`: the `EOF` pattern matches only
an empty working copy (on any other it finds nothing), and the line `Lex` hands
to the scan holds at least the appended line terminator. -/
theorem Lex_no_eof_token (orders : Nat → List TokenType) (input : Reader)
    (tokens : List Token) (err : Option ScanError)
    (h : Lex orders input = some (tokens, err)) :
    (∀ t ∈ tokens, t.Kind ≠ EOF ∧ t.Kind ≠ INVALID) ∧
    (Regex.cat Regex.bot Regex.eot).FindStringIndex [] = some (0, 0) ∧
    (∀ row : Str, row ≠ [] → (Regex.cat Regex.bot Regex.eot).FindStringIndex row = none) ∧
    ∀ text ∈ scannedLines input, text ++ [newline] ≠ [] := by
  refine ⟨?_, by decide, ?_, fun _ _ => by simp⟩
  · intro t ht
    obtain ⟨v, hv, hc, _, _⟩ := Lex_token_matches orders input tokens err h t ht
    constructor
    · intro hk
      rw [hk] at hv
      simp only [TokenDefinition, Option.some.injEq] at hv
      subst hv
      exact absurd hc (by decide)
    · intro hk
      rw [hk] at hv
      simp [TokenDefinition] at hv
  · intro row hrow
    exact Regex.searchFrom_bot_eot row.length (by simpa using hrow) row 0

/-- C19 at the input `{}` with the kinds in the order of the source text. -/
theorem Lex_no_eof_token_witness :
    Lex (fun _ => tokenKinds) { data := [0x7B, 0x7D], fail := none } =
        some ([newToken LBRACE [0x7B] (newPosition 1 1 0) (newPosition 1 1 1),
          newToken RBRACE [0x7D] (newPosition 1 2 1) (newPosition 1 2 2),
          newToken WHITESPACE [0x0A] (newPosition 1 3 2) (newPosition 1 3 3)], none) ∧
      ((∀ t ∈ [newToken LBRACE [0x7B] (newPosition 1 1 0) (newPosition 1 1 1),
          newToken RBRACE [0x7D] (newPosition 1 2 1) (newPosition 1 2 2),
          newToken WHITESPACE [0x0A] (newPosition 1 3 2) (newPosition 1 3 3)],
          t.Kind ≠ EOF ∧ t.Kind ≠ INVALID) ∧
        (Regex.cat Regex.bot Regex.eot).FindStringIndex [] = some (0, 0) ∧
        (∀ row : Str, row ≠ [] →
          (Regex.cat Regex.bot Regex.eot).FindStringIndex row = none) ∧
        ∀ text ∈ scannedLines { data := [0x7B, 0x7D], fail := none },
          text ++ [newline] ≠ []) :=
  ⟨by decide, Lex_no_eof_token (fun _ => tokenKinds) { data := [0x7B, 0x7D], fail := none } _ none
    (by decide)⟩

end Jsonp
